import Mathlib

/-!
refmt: token stream, JSON encoder and the builtin marshal / unmarshal machines

A shallow embedding of

* `json/jsonEncoder.go`  (the JSON token sink),
* `obj2/marshalBuiltins.go`  (pointer-deref delegate and primitive marshal machines),
* `obj/unmarshalBuiltins.go`  (pointer-deref delegate and primitive unmarshal machines),
* `obj/marshalSlab.go`  (the slab of marshal machines and the resolution of a machine),

followed by the properties proved about them.

Conventions of the embedding:

* a Go function that may panic returns `Except String _`; `Except.error msg` is the panic;
* a Go `error` result is an `Option`; `none` is `nil`;
* the output sink `wr` of the encoder is the sequence of `Write` calls it received;
* machine integers are `Int` / `Nat`, wrapped explicitly where Go converts or stores;
  `int`, `uint` and `uintptr` are 64 bits wide;
* a `reflect.Value` is its contents; a pointer holds an address into a memory `Mem`, and
  an addressable `reflect.Value` is a reference `Ref` to a variable in that memory.
-/

namespace tok

/-- The token tags of package `tok`. -/
inductive TokenType where
  | TMapOpen
  | TMapClose
  | TArrOpen
  | TArrClose
  | TNull
  | TString
  | TBytes
  | TBool
  | TInt
  | TUint
  | TFloat64
  deriving DecidableEq, Repr

/-- A token: a tag and one payload field per leaf tag.  `Typ` is the Go field `Type`;
`Float64` holds the IEEE-754 bit pattern of the Go `float64`; `Bytes` is `none` for a
nil slice. -/
structure Token where
  Typ : TokenType
  Str : String
  Bytes : Option (List Nat)
  Bool : Bool
  Int : Int
  Uint : Nat
  Float64 : Nat
  deriving DecidableEq, Repr

/-- The zero value of `Token` with the given tag. -/
def Token.zero (t : TokenType) : Token :=
  { Typ := t, Str := "", Bytes := none, Bool := false, Int := 0, Uint := 0, Float64 := 0 }

def Token_MapOpen : Token := Token.zero .TMapOpen
def Token_MapClose : Token := Token.zero .TMapClose
def Token_ArrOpen : Token := Token.zero .TArrOpen
def Token_ArrClose : Token := Token.zero .TArrClose
def Token_Null : Token := Token.zero .TNull
def TokStr (s : String) : Token := { Token.zero .TString with Str := s }
def TokBool (b : Bool) : Token := { Token.zero .TBool with Bool := b }
def TokInt (i : Int) : Token := { Token.zero .TInt with Int := i }

/-- The token with every payload field that is not meaningful for its tag cleared. -/
def Token.canon (t : Token) : Token :=
  match t.Typ with
  | .TString => { Token.zero .TString with Str := t.Str }
  | .TBytes => { Token.zero .TBytes with Bytes := t.Bytes }
  | .TBool => { Token.zero .TBool with Bool := t.Bool }
  | .TInt => { Token.zero .TInt with Int := t.Int }
  | .TUint => { Token.zero .TUint with Uint := t.Uint }
  | .TFloat64 => { Token.zero .TFloat64 with Float64 := t.Float64 }
  | ty => Token.zero ty

end tok

namespace json
open tok

/-- One `Write` call on the output sink, named after the word that is written. -/
inductive Out where
  | wordMapOpen
  | wordMapClose
  | wordArrOpen
  | wordArrClose
  | wordComma
  | wordColon
  | wordTrue
  | wordFalse
  | wordNull
  | str (s : String)
  | int (b : List Char)
  deriving DecidableEq, Repr

/-- Modelled from the spec: the escape of one character inside a JSON string
(the string writer `emitString` is not among the sources).  The quote, the backslash
and the control characters below 0x20 are escaped. -/
def escapeChar (c : Char) : List Char :=
  if c = '"' then ['\\', '"']
  else if c = '\\' then ['\\', '\\']
  else if c.toNat < 32 then
    ['\\', 'u', '0', '0', Nat.digitChar (c.toNat / 16), Nat.digitChar (c.toNat % 16)]
  else [c]

/-- Modelled from the spec: the bytes of a string leaf or key, "quoted with standard
escaping" (`emitString` is not among the sources). -/
def quoteString (s : String) : List Char :=
  '"' :: s.toList.flatMap escapeChar ++ ['"']

/-- Modelled from the spec: the bytes of each word (the `word*` constants are not among
the sources); a string is written quoted, an integer as the bytes handed to `Write`. -/
def Out.bytes : Out → List Char
  | .wordMapOpen => ['{']
  | .wordMapClose => ['}']
  | .wordArrOpen => ['[']
  | .wordArrClose => [']']
  | .wordComma => [',']
  | .wordColon => [':']
  | .wordTrue => "true".toList
  | .wordFalse => "false".toList
  | .wordNull => "null".toList
  | .str s => quoteString s
  | .int b => b

/-- All bytes received by a sink, in order. -/
def outBytes (wr : List Out) : List Char := wr.flatMap Out.bytes

/-- Go `strconv.AppendInt(dst[:0], i, 10)`: decimal digits, a minus sign when negative. -/
def strconvAppendInt (i : Int) : List Char :=
  if i < 0 then '-' :: Nat.toDigits 10 i.natAbs else Nat.toDigits 10 i.toNat

inductive phase where
  | phase_anyExpectValue
  | phase_mapExpectKeyOrEnd
  | phase_mapExpectValue
  | phase_arrExpectValueOrEnd
  deriving DecidableEq, Repr

open phase

/-- The encoder: sink, phase stack, current phase, separator flag. -/
structure Encoder where
  wr : List Out
  stack : List phase
  current : phase
  some : Bool
  deriving DecidableEq, Repr

/-- What one `Step` returns, together with the encoder after it. -/
structure StepResult where
  enc : Encoder
  done : Bool
  err : Option String
  deriving DecidableEq, Repr

def NewEncoder : Encoder :=
  { wr := [], stack := [], current := phase_anyExpectValue, some := false }

def Encoder.Reset (d : Encoder) : Encoder :=
  { d with stack := d.stack.take 0, current := phase_anyExpectValue, some := false }

def Encoder.Write (d : Encoder) (w : Out) : Encoder :=
  { d with wr := d.wr ++ [w] }

def Encoder.pushPhase (d : Encoder) (p : phase) : Encoder :=
  let d := { d with current := p }
  let d := { d with stack := d.stack ++ [d.current] }
  { d with some := false }

/-- Pop a phase from the stack; `done` is true when `len(stack) - 1 = 0`. -/
def Encoder.popPhase (d : Encoder) : Except String StepResult :=
  let n : Int := (d.stack.length : Int) - 1
  if n = 0 then
    .ok ⟨d, true, none⟩
  else if n < 0 then
    .error "jsonEncoder stack overpopped"
  else
    match d.stack.get? (n - 1).toNat with
    | none => .error "index out of range"
    | Option.some p =>
      .ok ⟨{ d with current := p, stack := d.stack.take n.toNat, some := true }, false, none⟩

def Encoder.entrySep (d : Encoder) : Encoder :=
  let d := if d.some then d.Write .wordComma else d
  { d with some := true }

def Encoder.emitString (d : Encoder) (s : String) : Encoder :=
  d.Write (.str s)

def Encoder.flushValue (d : Encoder) (tok : Token) : Except String Encoder :=
  match tok.Typ with
  | .TString => .ok (d.emitString tok.Str)
  | .TBool =>
    match tok.Bool with
    | true => .ok (d.Write .wordTrue)
    | false => .ok (d.Write .wordFalse)
  | .TInt => .ok (d.Write (.int (strconvAppendInt tok.Int)))
  | .TNull => .ok (d.Write .wordNull)
  | _ => .error "TODO finish more jsonEncoder primitives support: unhandled token"

def Encoder.Step (d : Encoder) (tok : Token) : Except String StepResult :=
  match d.current with
  | phase_anyExpectValue =>
    match tok.Typ with
    | .TMapOpen =>
      let d := d.pushPhase phase_mapExpectKeyOrEnd
      let d := d.Write .wordMapOpen
      .ok ⟨d, false, none⟩
    | .TArrOpen =>
      let d := d.pushPhase phase_arrExpectValueOrEnd
      let d := d.Write .wordArrOpen
      .ok ⟨d, false, none⟩
    | .TMapClose => .ok ⟨d, true, "unexpected mapClose; expected start of value"⟩
    | .TArrClose => .ok ⟨d, true, "unexpected arrClose; expected start of value"⟩
    | _ =>
      match d.flushValue tok with
      | .error msg => .error msg
      | .ok d => .ok ⟨d, true, none⟩
  | phase_mapExpectKeyOrEnd =>
    match tok.Typ with
    | .TMapOpen => .ok ⟨d, true, "unexpected mapOpen; expected start of key or end of map"⟩
    | .TArrOpen => .ok ⟨d, true, "unexpected arrOpen; expected start of key or end of map"⟩
    | .TMapClose =>
      let d := d.Write .wordMapClose
      d.popPhase
    | .TArrClose => .ok ⟨d, true, "unexpected arrClose; expected start of key or end of map"⟩
    | .TString =>
      let d := d.entrySep
      let d := d.emitString tok.Str
      let d := d.Write .wordColon
      let d := { d with current := phase_mapExpectValue }
      .ok ⟨d, false, none⟩
    | _ => .ok ⟨d, true, "unexpected token of type tok.Token; expected map key"⟩
  | phase_mapExpectValue =>
    match tok.Typ with
    | .TMapOpen =>
      let d := d.pushPhase phase_mapExpectKeyOrEnd
      let d := d.Write .wordMapOpen
      .ok ⟨d, false, none⟩
    | .TArrOpen =>
      let d := d.pushPhase phase_arrExpectValueOrEnd
      let d := d.Write .wordArrOpen
      .ok ⟨d, false, none⟩
    | .TMapClose => .ok ⟨d, true, "unexpected mapClose; expected start of value"⟩
    | .TArrClose => .ok ⟨d, true, "unexpected arrClose; expected start of value"⟩
    | _ =>
      match d.flushValue tok with
      | .error msg => .error msg
      | .ok d =>
        let d := { d with current := phase_mapExpectKeyOrEnd }
        .ok ⟨d, false, none⟩
  | phase_arrExpectValueOrEnd =>
    match tok.Typ with
    | .TMapOpen =>
      let d := d.entrySep
      let d := d.pushPhase phase_mapExpectKeyOrEnd
      let d := d.Write .wordMapOpen
      .ok ⟨d, false, none⟩
    | .TArrOpen =>
      let d := d.entrySep
      let d := d.pushPhase phase_arrExpectValueOrEnd
      let d := d.Write .wordArrOpen
      .ok ⟨d, false, none⟩
    | .TMapClose =>
      .ok ⟨d, true, "unexpected mapClose; expected start of value or end of array"⟩
    | .TArrClose =>
      let d := d.Write .wordArrClose
      d.popPhase
    | _ =>
      let d := d.entrySep
      match d.flushValue tok with
      | .error msg => .error msg
      | .ok d => .ok ⟨d, false, none⟩

/-- Feed the tokens one by one to `Step`, whatever each step returns; collect the
`(done, err)` pairs.  A panic ends the run. -/
def runSteps : Encoder → List Token → Except String (Encoder × List (Bool × Option String))
  | d, [] => .ok (d, [])
  | d, t :: rest =>
    match d.Step t with
    | .error msg => .error msg
    | .ok r =>
      match runSteps r.enc rest with
      | .error msg => .error msg
      | .ok (d2, rs) => .ok (d2, (r.done, r.err) :: rs)


/-! ### Values, their token streams and their compact JSON text -/

/-- A value as a JSON sink can receive it: leaves of type String, Bool, Int or Null,
arrays, and maps with String keys. -/
inductive Value where
  | str (s : String)
  | bool (b : Bool)
  | int (i : Int)
  | null
  | arr (items : List Value)
  | map (entries : List (String × Value))

mutual
/-- The token stream that describes a value. -/
def Value.tokens : Value → List Token
  | .str s => [TokStr s]
  | .bool b => [TokBool b]
  | .int i => [TokInt i]
  | .null => [Token_Null]
  | .arr items => Token_ArrOpen :: (tokensItems items ++ [Token_ArrClose])
  | .map entries => Token_MapOpen :: (tokensEntries entries ++ [Token_MapClose])
/-- The tokens of the items of an array, one value after the other. -/
def tokensItems : List Value → List Token
  | [] => []
  | v :: rest => v.tokens ++ tokensItems rest
/-- The tokens of the entries of a map: each key as a String token, then its value. -/
def tokensEntries : List (String × Value) → List Token
  | [] => []
  | (k, v) :: rest => TokStr k :: (v.tokens ++ tokensEntries rest)
end

mutual
/-- The compact JSON text of a value: no white space, entries separated by one comma. -/
def Value.render : Value → List Char
  | .str s => quoteString s
  | .bool true => ['t', 'r', 'u', 'e']
  | .bool false => ['f', 'a', 'l', 's', 'e']
  | .int i => (toString i).toList
  | .null => ['n', 'u', 'l', 'l']
  | .arr items => '[' :: (renderItems items ++ [']'])
  | .map entries => '{' :: (renderEntries entries ++ ['}'])
/-- The items of an array, separated by commas. -/
def renderItems : List Value → List Char
  | [] => []
  | v :: rest =>
    match rest with
    | [] => v.render
    | _ :: _ => v.render ++ ',' :: renderItems rest
/-- The entries of a map, `key:value`, separated by commas. -/
def renderEntries : List (String × Value) → List Char
  | [] => []
  | (k, v) :: rest =>
    match rest with
    | [] => quoteString k ++ ':' :: v.render
    | _ :: _ => quoteString k ++ ':' :: (v.render ++ ',' :: renderEntries rest)
end

mutual
/-- The `Write` calls a value gives rise to. -/
def Value.events : Value → List Out
  | .str s => [.str s]
  | .bool true => [.wordTrue]
  | .bool false => [.wordFalse]
  | .int i => [.int (strconvAppendInt i)]
  | .null => [.wordNull]
  | .arr items => .wordArrOpen :: (eventsItems false items ++ [.wordArrClose])
  | .map entries => .wordMapOpen :: (eventsEntries false entries ++ [.wordMapClose])
/-- The `Write` calls of the items of an array; `some` tells whether an entry precedes. -/
def eventsItems (some : Bool) : List Value → List Out
  | [] => []
  | v :: rest => (if some then [.wordComma] else []) ++ (v.events ++ eventsItems true rest)
/-- The `Write` calls of the entries of a map; `some` tells whether an entry precedes. -/
def eventsEntries (some : Bool) : List (String × Value) → List Out
  | [] => []
  | (k, v) :: rest =>
    (if some then [.wordComma] else []) ++
      (.str k :: .wordColon :: (v.events ++ eventsEntries true rest))
end

/-- Arrays and maps. -/
def Value.isContainer : Value → Bool
  | .arr _ => true
  | .map _ => true
  | _ => false

/-- Leaves: String, Bool, Int, Null. -/
def Value.isLeaf (v : Value) : Bool := !v.isContainer

/-- The number of entries of a container (0 for a leaf). -/
def Value.entryCount : Value → Nat
  | .arr items => items.length
  | .map entries => entries.length
  | _ => 0

/-- The word written when a container opens. -/
def Value.openWord : Value → Out
  | .map _ => .wordMapOpen
  | _ => .wordArrOpen

/-- The word written when a container closes. -/
def Value.closeWord : Value → Out
  | .map _ => .wordMapClose
  | _ => .wordArrClose

/-- The bracket depth after a run of `Write` calls that starts at depth `d`;
`none` when a bracket closes at depth 0. -/
def depthAfter : Nat → List Out → Option Nat
  | d, [] => Option.some d
  | d, .wordMapOpen :: rest => depthAfter (d + 1) rest
  | d, .wordArrOpen :: rest => depthAfter (d + 1) rest
  | 0, .wordMapClose :: _ => none
  | 0, .wordArrClose :: _ => none
  | d + 1, .wordMapClose :: rest => depthAfter d rest
  | d + 1, .wordArrClose :: rest => depthAfter d rest
  | d, _ :: rest => depthAfter d rest

/-- The number of separator commas written at bracket depth 0 in a run of `Write`
calls that starts at depth `d`. -/
def commasAtLevel : Nat → List Out → Nat
  | _, [] => 0
  | d, .wordMapOpen :: rest => commasAtLevel (d + 1) rest
  | d, .wordArrOpen :: rest => commasAtLevel (d + 1) rest
  | d, .wordMapClose :: rest => commasAtLevel (d - 1) rest
  | d, .wordArrClose :: rest => commasAtLevel (d - 1) rest
  | d, .wordComma :: rest => (if d = 0 then 1 else 0) + commasAtLevel d rest
  | d, _ :: rest => commasAtLevel d rest

/-- The encoder is in a phase in which a value may start. -/
def Encoder.expectsValue (d : Encoder) : Bool :=
  d.current = phase_anyExpectValue ∨ d.current = phase_mapExpectValue ∨
    d.current = phase_arrExpectValueOrEnd

/-- The separator `entrySep` writes before a value that starts in phase `cur` with
separator flag `sm`: a comma inside an array that already has an entry. -/
def sepOf (cur : phase) (sm : Bool) : List Out :=
  if cur = phase_arrExpectValueOrEnd ∧ sm = true then [.wordComma] else []

/-- The separator written before a value that starts in state `d`. -/
def Encoder.sepBefore (d : Encoder) : List Out := sepOf d.current d.some

/-- The phase the encoder is in once a value that started in phase `p` is complete and
its container is still open. -/
def phaseAfterValue : phase → phase
  | phase_mapExpectValue => phase_mapExpectKeyOrEnd
  | p => p

/-- The `(done, err)` pairs of a run in which no step reports an error and `done` is
false on every step but the last and true on the last. -/
def doneExactlyAtEnd (rs : List (Bool × Option String)) : Prop :=
  rs ≠ [] ∧ (∀ r ∈ rs, r.2 = none) ∧ (∀ r ∈ rs.dropLast, r.1 = false) ∧
    (∀ r, rs.getLast? = Option.some r → r.1 = true)

/-- A token sequence is a well-formed stream for exactly one top-level value: up to the
payload fields that carry no meaning for a tag, it is the token stream of a value. -/
def WellFormed (toks : List Token) : Prop :=
  ∃ v : Value, toks.map Token.canon = v.tokens

/-! ### Open containers of a stream that is still being read -/

/-- An open container together with what it holds so far: the items of an array, or the
entries of a map and the key whose value is awaited, if any. -/
inductive Frame where
  | arrF (items : List Value)
  | mapF (entries : List (String × Value)) (key : Option String)

/-- The phase that is on the stack for an open container. -/
def Frame.stackPhase : Frame → phase
  | .arrF _ => phase_arrExpectValueOrEnd
  | .mapF _ _ => phase_mapExpectKeyOrEnd

/-- The phase of the encoder while the container is the innermost open one. -/
def Frame.current : Frame → phase
  | .arrF _ => phase_arrExpectValueOrEnd
  | .mapF _ none => phase_mapExpectKeyOrEnd
  | .mapF _ (Option.some _) => phase_mapExpectValue

/-- The tokens read for an open container so far. -/
def Frame.tokens : Frame → List Token
  | .arrF items => Token_ArrOpen :: tokensItems items
  | .mapF entries none => Token_MapOpen :: tokensEntries entries
  | .mapF entries (Option.some k) => Token_MapOpen :: (tokensEntries entries ++ [TokStr k])

/-- The container awaits a value: an array, or a map whose last key has no value yet. -/
def Frame.awaitsValue : Frame → Bool
  | .arrF _ => true
  | .mapF _ none => false
  | .mapF _ (Option.some _) => true

/-- The container after one more value. -/
def Frame.addValue : Frame → Value → Frame
  | .arrF items, v => .arrF (items ++ [v])
  | .mapF entries (Option.some k), v => .mapF (entries ++ [(k, v)]) none
  | .mapF entries none, _ => .mapF entries none

/-- The value an open container becomes when it closes. -/
def Frame.close : Frame → Value
  | .arrF items => .arr items
  | .mapF entries _ => .map entries

/-- The tokens read so far, given the open containers, innermost first. -/
def framesTokens : List Frame → List Token
  | [] => []
  | f :: Z => framesTokens Z ++ f.tokens

/-- The phase of the encoder, given the open containers, innermost first. -/
def framesCurrent : List Frame → phase
  | [] => phase_anyExpectValue
  | f :: _ => f.current

/-- The encoder state matches the open containers `Z` (innermost first). -/
def Inv (d : Encoder) (Z : List Frame) : Prop :=
  d.stack = (Z.map Frame.stackPhase).reverse ∧ d.current = framesCurrent Z ∧
    ∀ g ∈ Z.tail, g.awaitsValue = true

/-- What a step that reports no error does to the open containers: when it is not done,
the token is added to what was read; when it is done, what was read is one whole value. -/
def StepSim (Z : List Frame) (t : Token) (r : StepResult) : Prop :=
  (r.done = false → ∃ Z2, Inv r.enc Z2 ∧ framesTokens Z2 = framesTokens Z ++ [t]) ∧
    (r.done = true → ∃ v : Value, v.tokens = framesTokens Z ++ [t])

/-! ### Single steps: resets, leaves and errors -/

/-- The encoder with `wr0` written to the sink before everything it has written. -/
def Encoder.addPrefix (wr0 : List Out) (d : Encoder) : Encoder :=
  { d with wr := wr0 ++ d.wr }

/-- The value a leaf token of tag String, Bool, Int or Null stands for. -/
def leafValue (tok : Token) : Value :=
  match tok.Typ with
  | .TString => .str tok.Str
  | .TBool => .bool tok.Bool
  | .TInt => .int tok.Int
  | _ => .null

/-- The cases in which a token cannot be accepted in a phase: a close bracket where a
value must start; anything but MapClose or a String where a key or the end of the map is
expected; MapClose inside an array. -/
def isErrorCase (p : phase) (ty : TokenType) : Bool :=
  match p with
  | phase_anyExpectValue => ty = .TMapClose || ty = .TArrClose
  | phase_mapExpectValue => ty = .TMapClose || ty = .TArrClose
  | phase_mapExpectKeyOrEnd => !(ty = .TMapClose || ty = .TString)
  | phase_arrExpectValueOrEnd => ty = .TMapClose

/-! ### The phase stack -/

/-- The phase stack is not empty whenever the current phase is not AnyValue, and it holds
only MapKeyOrEnd and ArrayValueOrEnd entries. -/
def stackInv (d : Encoder) : Prop :=
  (d.current ≠ phase_anyExpectValue → d.stack ≠ []) ∧
    ∀ p ∈ d.stack, p = phase_mapExpectKeyOrEnd ∨ p = phase_arrExpectValueOrEnd

/-- The token is a bracket or a leaf of tag String, Bool, Int or Null. -/
def bracketOrPlainLeaf (tok : Token) : Prop :=
  tok.Typ ≠ .TBytes ∧ tok.Typ ≠ .TUint ∧ tok.Typ ≠ .TFloat64

end json

/-! ## Package `reflect`, as far as the machines use it -/

namespace reflect

inductive Kind where
  | Invalid
  | Bool
  | Int
  | Int8
  | Int16
  | Int32
  | Int64
  | Uint
  | Uint8
  | Uint16
  | Uint32
  | Uint64
  | Uintptr
  | Float32
  | Float64
  | Complex64
  | Complex128
  | Array
  | Chan
  | Func
  | Interface
  | Map
  | Ptr
  | Slice
  | String
  | Struct
  | UnsafePointer
  deriving DecidableEq, Repr

/-- The width in bits of an integer kind (`int`, `uint` and `uintptr` are 64 bits wide);
0 for every other kind. -/
def kindBits : Kind → Nat
  | .Int8 => 8
  | .Uint8 => 8
  | .Int16 => 16
  | .Uint16 => 16
  | .Int32 => 32
  | .Uint32 => 32
  | .Int => 64
  | .Int64 => 64
  | .Uint => 64
  | .Uint64 => 64
  | .Uintptr => 64
  | _ => 0

def isSigned : Kind → Bool
  | .Int => true
  | .Int8 => true
  | .Int16 => true
  | .Int32 => true
  | .Int64 => true
  | _ => false

def isUnsigned : Kind → Bool
  | .Uint => true
  | .Uint8 => true
  | .Uint16 => true
  | .Uint32 => true
  | .Uint64 => true
  | .Uintptr => true
  | _ => false

def isFloat : Kind → Bool
  | .Float32 => true
  | .Float64 => true
  | _ => false

/-- The value of the two's complement reading of the low `w` bits of `x`: what a
conversion to a signed integer type of `w` bits yields. -/
def wrapSigned (w : Nat) (x : Int) : Int :=
  (x + 2 ^ (w - 1)) % 2 ^ w - 2 ^ (w - 1)

/-- The low `w` bits of `x`: what a conversion to an unsigned integer type of `w` bits
yields. -/
def wrapUnsigned (w : Nat) (x : Int) : Nat :=
  (x % 2 ^ w).toNat

/-- A type: predeclared basic types, composite types, and defined (named) types. -/
inductive RType where
  | basic (k : Kind)
  | ptr (elem : RType)
  | slice (elem : RType)
  | array (len : Nat) (elem : RType)
  | map (key : RType) (val : RType)
  | struct (name : String)
  | iface
  | func
  | named (name : String) (underlying : RType)
  deriving DecidableEq, Repr

def RType.Kind : RType → Kind
  | .basic k => k
  | .ptr _ => .Ptr
  | .slice _ => .Slice
  | .array _ _ => .Array
  | .map _ _ => .Map
  | .struct _ => .Struct
  | .iface => .Interface
  | .func => .Func
  | .named _ u => u.Kind

/-- Go `Type.Elem`: the element type of an array, map, pointer or slice; a panic
otherwise. -/
def RType.Elem : RType → Except String RType
  | .ptr e => .ok e
  | .slice e => .ok e
  | .array _ e => .ok e
  | .map _ v => .ok v
  | .named _ u => u.Elem
  | _ => .error "reflect: Elem of invalid type"

/-- An address in memory. -/
abbrev Addr := Nat

/-- The dynamic value an interface holds, for the values the machines box. -/
inductive Boxed where
  | string (s : String)
  | bytes (b : Option (List Nat))
  | bool (b : Bool)
  | int64 (i : Int)
  | uint64 (u : Nat)
  | float64 (f : Nat)
  deriving DecidableEq, Repr

/-- The contents of a `reflect.Value`.  Integers carry their kind and their value, floats
the IEEE-754 bits of their value as a `float64`, a byte slice is `none` when nil, a
pointer carries its element type and the address it points to (`none` when nil), an
interface carries the value it boxes.  `zero` is the zero `Value` (kind Invalid);
`other` stands for a value of any remaining kind, with a flag for being nil. -/
inductive Value where
  | zero
  | bool (b : Bool)
  | string (s : String)
  | int (k : Kind) (i : Int)
  | uint (k : Kind) (u : Nat)
  | float (k : Kind) (f : Nat)
  | bytes (b : Option (List Nat))
  | ptr (elem : RType) (p : Option Addr)
  | iface (boxed : Option Boxed)
  | other (k : Kind) (nil : Bool)
  deriving DecidableEq, Repr

/-- The value an interface holds, unboxed. -/
def Boxed.toValue : Boxed → Value
  | .string s => .string s
  | .bytes b => .bytes b
  | .bool b => .bool b
  | .int64 i => .int .Int64 i
  | .uint64 u => .uint .Uint64 u
  | .float64 f => .float .Float64 f

/-- Memory: the value stored at each address. -/
abbrev Mem := List Value

def Value.Kind : Value → Kind
  | .zero => .Invalid
  | .bool _ => .Bool
  | .string _ => .String
  | .int k _ => k
  | .uint k _ => k
  | .float k _ => k
  | .bytes _ => .Slice
  | .ptr _ _ => .Ptr
  | .iface _ => .Interface
  | .other k _ => k

/-- A value is well-formed when its kind fits its constructor and an integer is in the
range of its kind. -/
def Value.wf : Value → Bool
  | .int k i => isSigned k && decide (-(2 ^ (kindBits k - 1) : Int) ≤ i) &&
      decide (i < (2 ^ (kindBits k - 1) : Int))
  | .uint k u => isUnsigned k && decide (u < 2 ^ kindBits k)
  | .float k _ => isFloat k
  | _ => true

/-- Go `Value.Type` for the values that have a predeclared or pointer type. -/
def Value.Typ : Value → RType
  | .ptr e _ => .ptr e
  | .bytes _ => .slice (.basic .Uint8)
  | .iface _ => .iface
  | v => .basic v.Kind

/-- Go `reflect.Zero`. -/
def Zero : RType → Value
  | .basic .Bool => .bool false
  | .basic .String => .string ""
  | .basic k =>
    if isSigned k then .int k 0
    else if isUnsigned k then .uint k 0
    else if isFloat k then .float k 0
    else .other k true
  | .ptr e => .ptr e none
  | .slice (.basic .Uint8) => .bytes none
  | .slice _ => .other .Slice true
  | .array _ _ => .other .Array false
  | .map _ _ => .other .Map true
  | .struct _ => .other .Struct false
  | .iface => .iface none
  | .func => .other .Func true
  | .named _ u => Zero u

/-- Go `Value.IsNil`: defined for chan, func, interface, map, pointer and slice values;
a panic for every other kind, the zero `Value` included. -/
def Value.IsNil : Value → Except String Bool
  | .ptr _ p => .ok p.isNone
  | .bytes b => .ok b.isNone
  | .iface b => .ok b.isNone
  | .other .Chan n => .ok n
  | .other .Func n => .ok n
  | .other .Map n => .ok n
  | .other .Slice n => .ok n
  | .other .UnsafePointer n => .ok n
  | .other .Interface n => .ok n
  | .other .Ptr n => .ok n
  | _ => .error "reflect: call of reflect.Value.IsNil on a Value that cannot be nil"

/-- Go `Value.Elem`: the value a pointer points to or an interface holds; the zero
`Value` for a nil pointer or interface; a panic for every other kind. -/
def Value.Elem (m : Mem) : Value → Except String Value
  | .ptr _ none => .ok .zero
  | .ptr _ (some a) =>
    match m.get? a with
    | some v => .ok v
    | none => .error "invalid memory address"
  | .iface none => .ok .zero
  | .iface (some b) => .ok b.toValue
  | _ => .error "reflect: call of reflect.Value.Elem on a Value that is no pointer"

/-- The conversions between integers and floats, and the rounding of a `float64` to a
`float32`, on IEEE-754 bit patterns.  They are taken as given. -/
structure FloatConv where
  ofInt64 : Int → Nat
  ofUint64 : Nat → Nat
  toFloat32 : Nat → Nat

def Value.SetBool (v : Value) (x : Bool) : Except String Value :=
  match v with
  | .bool _ => .ok (.bool x)
  | _ => .error "reflect: call of reflect.Value.SetBool on a Value that is no bool"

def Value.SetString (v : Value) (x : String) : Except String Value :=
  match v with
  | .string _ => .ok (.string x)
  | _ => .error "reflect: call of reflect.Value.SetString on a Value that is no string"

/-- Go `Value.SetInt`: the argument is converted to the integer type of the target. -/
def Value.SetInt (v : Value) (x : Int) : Except String Value :=
  match v with
  | .int k _ =>
    if isSigned k then .ok (.int k (wrapSigned (kindBits k) x))
    else .error "reflect: call of reflect.Value.SetInt on a Value"
  | _ => .error "reflect: call of reflect.Value.SetInt on a Value that is no int"

/-- Go `Value.SetUint`: the argument is converted to the integer type of the target. -/
def Value.SetUint (v : Value) (x : Nat) : Except String Value :=
  match v with
  | .uint k _ =>
    if isUnsigned k then .ok (.uint k (wrapUnsigned (kindBits k) x))
    else .error "reflect: call of reflect.Value.SetUint on a Value"
  | _ => .error "reflect: call of reflect.Value.SetUint on a Value that is no uint"

/-- Go `Value.SetFloat`: a `float32` target receives the rounded argument. -/
def Value.SetFloat (fc : FloatConv) (v : Value) (x : Nat) : Except String Value :=
  match v with
  | .float .Float32 _ => .ok (.float .Float32 (fc.toFloat32 x))
  | .float .Float64 _ => .ok (.float .Float64 x)
  | _ => .error "reflect: call of reflect.Value.SetFloat on a Value that is no float"

def Value.SetBytes (v : Value) (x : Option (List Nat)) : Except String Value :=
  match v with
  | .bytes _ => .ok (.bytes x)
  | _ => .error "reflect: call of reflect.Value.SetBytes on a Value that is no byte slice"

/-- Go `Value.Set` with a boxed value as argument, as the machines call it on an
interface target. -/
def Value.Set (v : Value) (x : Boxed) : Except String Value :=
  match v with
  | .iface _ => .ok (.iface (some x))
  | _ => .error "reflect.Set: value is not assignable"

def Value.Bytes : Value → Except String (Option (List Nat))
  | .bytes b => .ok b
  | _ => .error "reflect: call of reflect.Value.Bytes on a Value that is no byte slice"

def Value.Float : Value → Except String Nat
  | .float k f =>
    if isFloat k then .ok f else .error "reflect: call of reflect.Value.Float on a Value"
  | _ => .error "reflect: call of reflect.Value.Float on a Value that is no float"

def Value.Uint : Value → Except String Nat
  | .uint k u =>
    if isUnsigned k then .ok u else .error "reflect: call of reflect.Value.Uint on a Value"
  | _ => .error "reflect: call of reflect.Value.Uint on a Value that is no uint"

def Value.Int : Value → Except String Int
  | .int k i =>
    if isSigned k then .ok i else .error "reflect: call of reflect.Value.Int on a Value"
  | _ => .error "reflect: call of reflect.Value.Int on a Value that is no int"

def Value.Bool : Value → Except String Bool
  | .bool b => .ok b
  | _ => .error "reflect: call of reflect.Value.Bool on a Value that is no bool"

/-- Go `Value.String`: the string itself; for a value of another kind a description. -/
def Value.String : Value → Except String String
  | .string s => .ok s
  | .zero => .ok "<invalid Value>"
  | _ => .ok "<T Value>"

/-- A `reflect.Value` as the unmarshal machines hold it: the variable at an address
(addressable, settable), or a value that is not addressable. -/
inductive Ref where
  | addr (a : Addr)
  | val (v : Value)
  deriving DecidableEq, Repr

/-- The contents of the value. -/
def Ref.get (m : Mem) : Ref → Except String Value
  | .addr a =>
    match m.get? a with
    | some v => .ok v
    | none => .error "invalid memory address"
  | .val v => .ok v

def Ref.IsNil (m : Mem) (r : Ref) : Except String Bool :=
  match r.get m with
  | .error e => .error e
  | .ok v => v.IsNil

/-- Go `Value.Type`; a panic on the zero `Value`. -/
def Ref.Typ (m : Mem) (r : Ref) : Except String RType :=
  match r.get m with
  | .error e => .error e
  | .ok .zero => .error "reflect: call of reflect.Value.Type on zero Value"
  | .ok v => .ok v.Typ

/-- Go `Value.Elem` on a value held by reference: the variable a pointer points to. -/
def Ref.Elem (m : Mem) (r : Ref) : Except String Ref :=
  match r.get m with
  | .error e => .error e
  | .ok (.ptr _ none) => .ok (.val .zero)
  | .ok (.ptr _ (some a)) => .ok (.addr a)
  | .ok (.iface none) => .ok (.val .zero)
  | .ok (.iface (some b)) => .ok (.val b.toValue)
  | .ok _ => .error "reflect: call of reflect.Value.Elem on a Value that is no pointer"

/-- Store what a setter makes of the contents; only a variable can be set. -/
def Ref.update (m : Mem) (r : Ref) (f : Value → Except String Value) : Except String Mem :=
  match r with
  | .val _ => .error "reflect: reflect.Value.Set using unaddressable value"
  | .addr a =>
    match m.get? a with
    | none => .error "invalid memory address"
    | some v =>
      match f v with
      | .error e => .error e
      | .ok v2 => .ok (m.set a v2)

/-- Go `Value.Set` with a value of the same type as the target. -/
def Ref.Set (m : Mem) (r : Ref) (x : Value) : Except String Mem :=
  r.update m (fun v =>
    if v.Typ = x.Typ then .ok x else .error "reflect.Set: value is not assignable")

/-- Go `reflect.New`: a fresh variable holding the zero value of the type, and the
pointer to it. -/
def New (m : Mem) (t : RType) : Mem × Value :=
  (m ++ [Zero t], .ptr t (some m.length))

end reflect

/-! ## Package `obj`: the builtin marshal and unmarshal machines -/

namespace obj
open tok reflect

/-- The error values the machines return. -/
inductive Error where
  | ErrUnmarshalTypeCantFit (Token : Token) (Value : Ref)
  | Errorf (msg : String)
  deriving DecidableEq, Repr

/-! ### Marshal machines (`obj2/marshalBuiltins.go`) -/

/-- A call received by a wrapped marshal machine. -/
inductive MarshalCall where
  | Reset (rv : Value) (rt : RType)
  | Step (tok : Token)
  deriving DecidableEq, Repr

/-- The interface `MarshalMachine` over a state `σ`.  The state stands for all a machine
works on: its own fields and the slab and driver handed through to it.  `Step` receives the
token it is to fill and returns it. -/
structure MarshalMachine (σ : Type) where
  Reset : σ → Mem → Value → RType → Except String (σ × Option Error)
  Step : σ → Token → Except String (σ × Token × Bool × Option Error)

/-- The pointer-deref delegate; `calls` records the calls made on the wrapped machine. -/
structure ptrDerefDelegateMarshalMachine (σ : Type) where
  MarshalMachine : σ
  peelCount : Nat
  isNil : Bool
  calls : List MarshalCall

/-- The loop of `Reset`: `peelCount` times `rv = rv.Elem()` followed by the test
`rv.IsNil()`.  The result is `none` when the test succeeded (the loop returned), else
the value after the loop. -/
def peelLoop (m : Mem) : Nat → Value → Except String (Option Value)
  | 0, rv => .ok (some rv)
  | n + 1, rv =>
    match rv.Elem m with
    | .error e => .error e
    | .ok rv =>
      match rv.IsNil with
      | .error e => .error e
      | .ok true => .ok none
      | .ok false => peelLoop m n rv

def ptrDerefDelegateMarshalMachine.Reset {σ : Type} (M : obj.MarshalMachine σ)
    (mach : ptrDerefDelegateMarshalMachine σ) (m : Mem) (rv : Value) (rt : RType) :
    Except String (ptrDerefDelegateMarshalMachine σ × Option Error) :=
  let mach := { mach with isNil := false }
  match peelLoop m mach.peelCount rv with
  | .error e => .error e
  | .ok none => .ok ({ mach with isNil := true }, none)
  | .ok (some rv) =>
    match M.Reset mach.MarshalMachine m rv rt with
    | .error e => .error e
    | .ok (s, err) =>
      .ok ({ mach with MarshalMachine := s, calls := mach.calls ++ [.Reset rv rt] }, err)

def ptrDerefDelegateMarshalMachine.Step {σ : Type} (M : obj.MarshalMachine σ)
    (mach : ptrDerefDelegateMarshalMachine σ) (tok : Token) :
    Except String (ptrDerefDelegateMarshalMachine σ × Token × Bool × Option Error) :=
  if mach.isNil then
    .ok (mach, { tok with Typ := .TNull }, true, none)
  else
    match M.Step mach.MarshalMachine tok with
    | .error e => .error e
    | .ok (s, tok, done, err) =>
      .ok ({ mach with MarshalMachine := s, calls := mach.calls ++ [.Step tok] }, tok, done,
        err)

structure marshalMachinePrimitive where
  kind : Kind
  rv : Value
  deriving DecidableEq, Repr

def marshalMachinePrimitive.Reset (mach : marshalMachinePrimitive) (rv : Value) :
    marshalMachinePrimitive × Option Error :=
  ({ mach with rv := rv }, none)

def marshalMachinePrimitive.Step (mach : marshalMachinePrimitive) (tok : Token) :
    Except String (marshalMachinePrimitive × Token × Bool × Option Error) :=
  match mach.kind with
  | .Bool =>
    match mach.rv.Bool with
    | .error e => .error e
    | .ok b => .ok (mach, { tok with Typ := .TBool, Bool := b }, true, none)
  | .String =>
    match mach.rv.String with
    | .error e => .error e
    | .ok s => .ok (mach, { tok with Typ := .TString, Str := s }, true, none)
  | .Int | .Int8 | .Int16 | .Int32 | .Int64 =>
    match mach.rv.Int with
    | .error e => .error e
    | .ok i => .ok (mach, { tok with Typ := .TInt, Int := i }, true, none)
  | .Uint | .Uint8 | .Uint16 | .Uint32 | .Uint64 | .Uintptr =>
    match mach.rv.Uint with
    | .error e => .error e
    | .ok u => .ok (mach, { tok with Typ := .TUint, Uint := u }, true, none)
  | .Float32 | .Float64 =>
    match mach.rv.Float with
    | .error e => .error e
    | .ok f => .ok (mach, { tok with Typ := .TFloat64, Float64 := f }, true, none)
  | .Slice =>
    match mach.rv.Bytes with
    | .error e => .error e
    | .ok b => .ok (mach, { tok with Typ := .TBytes, Bytes := b }, true, none)
  | _ => .error "unhandled"

/-- The primitive machine as a `MarshalMachine`. -/
def marshalMachinePrimitive.machine : MarshalMachine marshalMachinePrimitive where
  Reset := fun mach _ rv _ => .ok (mach.Reset rv)
  Step := fun mach tok => mach.Step tok

/-! ### Unmarshal machines (`obj/unmarshalBuiltins.go`) -/

/-- A call received by a wrapped unmarshal machine. -/
inductive UnmarshalCall where
  | Reset (rv : Ref) (rt : RType)
  | Step (tok : Token)
  deriving DecidableEq, Repr

/-- The interface `UnmarshalMachine` over a state `σ` (the machine's fields, and the slab
and driver handed through to it) and the memory the target lives in. -/
structure UnmarshalMachine (σ : Type) where
  Reset : σ → Mem → Ref → RType → Except String (σ × Mem × Option Error)
  Step : σ → Mem → Token → Except String (σ × Mem × Bool × Option Error)

/-- The pointer-deref delegate; `calls` records the calls made on the wrapped machine. -/
structure ptrDerefDelegateUnmarshalMachine (σ : Type) where
  UnmarshalMachine : σ
  peelCount : Nat
  ptr_rv : Ref
  firstStep : Bool
  calls : List UnmarshalCall

def ptrDerefDelegateUnmarshalMachine.Reset {σ : Type}
    (mach : ptrDerefDelegateUnmarshalMachine σ) (rv : Ref) :
    ptrDerefDelegateUnmarshalMachine σ × Option Error :=
  ({ mach with ptr_rv := rv, firstStep := true }, none)

/-- The walk over the pointers on the first step: a nil pointer is set to a new variable,
a pointer that exists is followed. -/
def walkPtrs : Nat → Mem → Ref → Except String (Mem × Ref)
  | 0, m, rv => .ok (m, rv)
  | n + 1, m, rv =>
    match rv.IsNil m with
    | .error e => .error e
    | .ok true =>
      match rv.Typ m with
      | .error e => .error e
      | .ok t =>
        match t.Elem with
        | .error e => .error e
        | .ok te =>
          match rv.Set (New m te).1 (New m te).2 with
          | .error e => .error e
          | .ok m =>
            match rv.Elem m with
            | .error e => .error e
            | .ok rv => walkPtrs n m rv
    | .ok false =>
      match rv.Elem m with
      | .error e => .error e
      | .ok rv => walkPtrs n m rv

def ptrDerefDelegateUnmarshalMachine.Step {σ : Type} (M : obj.UnmarshalMachine σ)
    (mach : ptrDerefDelegateUnmarshalMachine σ) (m : Mem) (tok : Token) :
    Except String (ptrDerefDelegateUnmarshalMachine σ × Mem × Bool × Option Error) :=
  if tok.Typ = .TNull then
    match mach.ptr_rv.Typ m with
    | .error e => .error e
    | .ok t =>
      match mach.ptr_rv.Set m (Zero t) with
      | .error e => .error e
      | .ok m => .ok (mach, m, true, none)
  else
    let delegate (mach : ptrDerefDelegateUnmarshalMachine σ) (m : Mem) :=
      match M.Step mach.UnmarshalMachine m tok with
      | .error e => .error e
      | .ok (s, m, done, err) =>
        .ok ({ mach with UnmarshalMachine := s, calls := mach.calls ++ [.Step tok] }, m, done,
          err)
    if mach.firstStep then
      let mach := { mach with firstStep := false }
      match walkPtrs mach.peelCount m mach.ptr_rv with
      | .error e => .error e
      | .ok (m, rv) =>
        match rv.Typ m with
        | .error e => .error e
        | .ok rt =>
          match M.Reset mach.UnmarshalMachine m rv rt with
          | .error e => .error e
          | .ok (s, m, err) =>
            let mach :=
              { mach with UnmarshalMachine := s, calls := mach.calls ++ [.Reset rv rt] }
            match err with
            | some e => .ok (mach, m, true, some e)
            | none => delegate mach m
    else
      delegate mach m

structure unmarshalMachinePrimitive where
  kind : Kind
  rv : Ref
  deriving DecidableEq, Repr

def unmarshalMachinePrimitive.Reset (mach : unmarshalMachinePrimitive) (rv : Ref) :
    unmarshalMachinePrimitive × Option Error :=
  ({ mach with rv := rv }, none)

/-- The end of a branch of `Step` that sets the target and returns `true, nil`. -/
def setAndReturn (mach : unmarshalMachinePrimitive) (m : Except String Mem) :
    Except String (unmarshalMachinePrimitive × Mem × Bool × Option Error) :=
  match m with
  | .error e => .error e
  | .ok m => .ok (mach, m, true, none)

def unmarshalMachinePrimitive.Step (fc : FloatConv) (mach : unmarshalMachinePrimitive)
    (m : Mem) (tok : Token) :
    Except String (unmarshalMachinePrimitive × Mem × Bool × Option Error) :=
  match mach.kind with
  | .Bool =>
    match tok.Typ with
    | .TBool => setAndReturn mach (mach.rv.update m (fun v => v.SetBool tok.Bool))
    | _ => .ok (mach, m, true, some (.ErrUnmarshalTypeCantFit tok mach.rv))
  | .String =>
    match tok.Typ with
    | .TString => setAndReturn mach (mach.rv.update m (fun v => v.SetString tok.Str))
    | _ => .ok (mach, m, true, some (.ErrUnmarshalTypeCantFit tok mach.rv))
  | .Int | .Int8 | .Int16 | .Int32 | .Int64 =>
    match tok.Typ with
    | .TInt => setAndReturn mach (mach.rv.update m (fun v => v.SetInt tok.Int))
    | .TUint =>
      setAndReturn mach (mach.rv.update m (fun v => v.SetInt (wrapSigned 64 tok.Uint)))
    | _ => .ok (mach, m, true, some (.ErrUnmarshalTypeCantFit tok mach.rv))
  | .Uint | .Uint8 | .Uint16 | .Uint32 | .Uint64 | .Uintptr =>
    match tok.Typ with
    | .TInt =>
      if tok.Int ≥ 0 then
        setAndReturn mach (mach.rv.update m (fun v => v.SetUint (wrapUnsigned 64 tok.Int)))
      else
        .ok (mach, m, true, some (.ErrUnmarshalTypeCantFit tok mach.rv))
    | .TUint => setAndReturn mach (mach.rv.update m (fun v => v.SetUint tok.Uint))
    | _ => .ok (mach, m, true, some (.ErrUnmarshalTypeCantFit tok mach.rv))
  | .Float32 | .Float64 =>
    match tok.Typ with
    | .TFloat64 => setAndReturn mach (mach.rv.update m (fun v => v.SetFloat fc tok.Float64))
    | .TInt =>
      setAndReturn mach (mach.rv.update m (fun v => v.SetFloat fc (fc.ofInt64 tok.Int)))
    | .TUint =>
      setAndReturn mach (mach.rv.update m (fun v => v.SetFloat fc (fc.ofUint64 tok.Uint)))
    | _ => .ok (mach, m, true, some (.ErrUnmarshalTypeCantFit tok mach.rv))
  | .Slice =>
    match tok.Typ with
    | .TBytes => setAndReturn mach (mach.rv.update m (fun v => v.SetBytes tok.Bytes))
    | _ => .ok (mach, m, true, some (.ErrUnmarshalTypeCantFit tok mach.rv))
  | .Interface =>
    match tok.Typ with
    | .TString => setAndReturn mach (mach.rv.update m (fun v => v.Set (.string tok.Str)))
    | .TBytes => setAndReturn mach (mach.rv.update m (fun v => v.Set (.bytes tok.Bytes)))
    | .TBool => setAndReturn mach (mach.rv.update m (fun v => v.Set (.bool tok.Bool)))
    | .TInt => setAndReturn mach (mach.rv.update m (fun v => v.Set (.int64 tok.Int)))
    | .TUint => setAndReturn mach (mach.rv.update m (fun v => v.Set (.uint64 tok.Uint)))
    | .TFloat64 =>
      setAndReturn mach (mach.rv.update m (fun v => v.Set (.float64 tok.Float64)))
    | .TNull => .error "reflect: call of reflect.Value.Set on zero Value"
    | _ => .error "unhandled"
  | _ => .error "unhandled"

/-! ### The marshal slab (`obj/marshalSlab.go`) -/

/-- A reference to a machine of a slab row: the field of the row it points to. -/
inductive MachineRef where
  | ptrDerefDelegateMarshalMachine
  | marshalMachinePrimitive
  | marshalMachineWildcard
  | marshalMachineMapWildcard
  | marshalMachineSliceWildcard
  | marshalMachineArrayWildcard
  | marshalMachineStructAtlas
  | marshalMachineTransform
  | errThunkMarshalMachine
  deriving DecidableEq, Repr

/-- A struct mapping: serialized name and member name of each field, in order. -/
abbrev StructMap := List (String × String)

/-- An atlas entry, with the fields the slab reads; a transform function is known by
its name, `none` is nil. -/
structure AtlasEntry where
  MarshalTransformFunc : Option String
  MarshalTransformTargetType : RType
  StructMap : Option StructMap
  deriving DecidableEq, Repr

/-- The atlas: `Get` by type identity. -/
abbrev Atlas := RType → Option AtlasEntry

/-- Modelled from the spec: the identities `rtid_bool`, `rtid_string`, `rtid_int` ...
`rtid_float64`, `rtid_bytes` are those of the predeclared types "bool, string, all sized
integers, both floats, raw byte sequences" (the constants are not among the sources). -/
def isBuiltinRtid : RType → Bool
  | .basic .Bool => true
  | .basic .String => true
  | .basic k => isSigned k || isUnsigned k || isFloat k
  | .slice (.basic .Uint8) => true
  | _ => false

structure ptrDerefRow where
  MarshalMachine : Option MachineRef
  peelCount : Nat
  isNil : Bool
  deriving DecidableEq, Repr

structure marshalMachineStructAtlas where
  cfg : Option StructMap
  deriving DecidableEq, Repr

structure marshalMachineTransform where
  trFunc : Option String
  delegate : Option MachineRef
  deriving DecidableEq, Repr

structure errThunkMarshalMachine where
  err : Option Error
  deriving DecidableEq, Repr

/-- A slab row: one machine of each kind.  The wildcard machines carry no state here. -/
structure marshalSlabRow where
  ptrDerefDelegateMarshalMachine : ptrDerefRow
  marshalMachinePrimitive : marshalMachinePrimitive
  marshalMachineStructAtlas : marshalMachineStructAtlas
  marshalMachineTransform : marshalMachineTransform
  errThunkMarshalMachine : errThunkMarshalMachine
  deriving DecidableEq, Repr

/-- The zero row `marshalSlabRow{}`. -/
def marshalSlabRow.zero : marshalSlabRow :=
  { ptrDerefDelegateMarshalMachine := ⟨none, 0, false⟩
    marshalMachinePrimitive := ⟨.Invalid, .zero⟩
    marshalMachineStructAtlas := ⟨none⟩
    marshalMachineTransform := ⟨none, none⟩
    errThunkMarshalMachine := ⟨none⟩ }

structure marshalSlab where
  atlas : Atlas
  rows : List marshalSlabRow

def marshalSlab.grow (s : marshalSlab) : marshalSlab :=
  { s with rows := s.rows ++ [marshalSlabRow.zero] }

/-- The rows without the last one; a panic (slice bounds out of range) when there is
no row. -/
def marshalSlab.release (s : marshalSlab) : Except String marshalSlab :=
  if s.rows.length = 0 then .error "slice bounds out of range"
  else .ok { s with rows := s.rows.take (s.rows.length - 1) }

/-- The loop that replaces `rt` by `rt.Elem()` and counts, as long as `rt.Kind()` is
`reflect.Ptr`: the type under the pointers and the number of pointers. -/
def peelPtrs : RType → RType × Nat
  | .ptr e => ((peelPtrs e).1, (peelPtrs e).2 + 1)
  | .named n u =>
    match (peelPtrs u).2 with
    | 0 => (.named n u, 0)
    | k + 1 => ((peelPtrs u).1, k + 1)
  | t => (t, 0)

/-- The machine for a type that is no pointer; `fuel` bounds the depth of the recursion
through transform entries, and running out of it is the stack overflow of the program. -/
def _yieldMarshalMachinePtr : Nat → marshalSlabRow → Atlas → RType →
    Except String (marshalSlabRow × Option MachineRef)
  | 0, _, _, _ => .error "stack overflow"
  | fuel + 1, row, atl, rt =>
    if isBuiltinRtid rt then
      .ok ({ row with marshalMachinePrimitive := { row.marshalMachinePrimitive with
              kind := rt.Kind } }, some .marshalMachinePrimitive)
    else
      match atl rt with
      | some entry =>
        if entry.MarshalTransformFunc ≠ none then
          let row := { row with marshalMachineTransform := { row.marshalMachineTransform with
            trFunc := entry.MarshalTransformFunc } }
          match _yieldMarshalMachinePtr fuel row atl entry.MarshalTransformTargetType with
          | .error e => .error e
          | .ok (row, d) =>
            .ok ({ row with marshalMachineTransform := { row.marshalMachineTransform with
              delegate := d } }, some .marshalMachineTransform)
        else if entry.StructMap ≠ none then
          .ok ({ row with marshalMachineStructAtlas := ⟨entry.StructMap⟩ },
            some .marshalMachineStructAtlas)
        else .error "invalid atlas entry"
      | none =>
        match rt.Kind with
        | .Bool | .String | .Int | .Int8 | .Int16 | .Int32 | .Int64 | .Uint | .Uint8
        | .Uint16 | .Uint32 | .Uint64 | .Uintptr | .Float32 | .Float64 =>
          .ok ({ row with marshalMachinePrimitive := { row.marshalMachinePrimitive with
            kind := rt.Kind } }, some .marshalMachinePrimitive)
        | .Slice =>
          match rt.Elem with
          | .error e => .error e
          | .ok e =>
            if e.Kind = .Uint8 then
              .ok ({ row with marshalMachinePrimitive := { row.marshalMachinePrimitive with
                kind := rt.Kind } }, some .marshalMachinePrimitive)
            else .ok (row, some .marshalMachineSliceWildcard)
        | .Array => .ok (row, some .marshalMachineArrayWildcard)
        | .Map => .ok (row, some .marshalMachineMapWildcard)
        | .Struct => .error "todo"
        | .Interface => .ok (row, some .marshalMachineWildcard)
        | .Func => .error "functions cannot be marshalled!"
        | .Ptr => .error "unreachable: ptrs must already be resolved"
        | _ => .error "excursion"

/-- A row is acquired and the machine for the type is set up in it; the result is the
slab and the reference to the machine in the new row. -/
def marshalSlab.requisitionMachine (fuel : Nat) (slab : marshalSlab) (rt : RType) :
    Except String (marshalSlab × MachineRef) :=
  let off := slab.rows.length
  let slab := slab.grow
  match slab.rows.get? off with
  | none => .error "index out of range"
  | some row =>
    let rt2 := (peelPtrs rt).1
    let peelCount := (peelPtrs rt).2
    match _yieldMarshalMachinePtr fuel row slab.atlas rt2 with
    | .error e => .error e
    | .ok (row, none) =>
      let row := { row with errThunkMarshalMachine := ⟨some (.Errorf "no machine found")⟩ }
      .ok ({ slab with rows := slab.rows.set off row }, .errThunkMarshalMachine)
    | .ok (row, some mach) =>
      if peelCount = 0 then
        .ok ({ slab with rows := slab.rows.set off row }, mach)
      else
        let row := { row with ptrDerefDelegateMarshalMachine := ⟨some mach, peelCount, false⟩ }
        .ok ({ slab with rows := slab.rows.set off row }, .ptrDerefDelegateMarshalMachine)

/-- The machines of a row that may be wrapped, as a `MarshalMachine` over the row.  The
machines whose code is not among the sources are not run. -/
def marshalSlabRow.delegate (ref : MachineRef) : MarshalMachine marshalSlabRow where
  Reset := fun row _ rv _ =>
    match ref with
    | .marshalMachinePrimitive =>
      .ok ({ row with marshalMachinePrimitive := (row.marshalMachinePrimitive.Reset rv).1 },
        (row.marshalMachinePrimitive.Reset rv).2)
    | .errThunkMarshalMachine => .ok (row, row.errThunkMarshalMachine.err)
    | _ => .error "machine not among the sources"
  Step := fun row tok =>
    match ref with
    | .marshalMachinePrimitive =>
      match row.marshalMachinePrimitive.Step tok with
      | .error e => .error e
      | .ok (p, tok, done, err) => .ok ({ row with marshalMachinePrimitive := p }, tok, done, err)
    | .errThunkMarshalMachine => .ok (row, tok, true, row.errThunkMarshalMachine.err)
    | _ => .error "machine not among the sources"

/-- The pointer-deref delegate of a row, over the row it wraps a machine of. -/
def marshalSlabRow.ptrDeref (row : marshalSlabRow) :
    obj.ptrDerefDelegateMarshalMachine marshalSlabRow :=
  { MarshalMachine := row
    peelCount := row.ptrDerefDelegateMarshalMachine.peelCount
    isNil := row.ptrDerefDelegateMarshalMachine.isNil
    calls := [] }

/-- The row after a call on its pointer-deref delegate. -/
def marshalSlabRow.ofPtrDeref (mach : obj.ptrDerefDelegateMarshalMachine marshalSlabRow) :
    marshalSlabRow :=
  { mach.MarshalMachine with ptrDerefDelegateMarshalMachine :=
      { mach.MarshalMachine.ptrDerefDelegateMarshalMachine with isNil := mach.isNil } }

/-- `Reset` on the machine a reference points to. -/
def marshalSlabRow.Reset (row : marshalSlabRow) (ref : MachineRef) (m : Mem) (rv : Value)
    (rt : RType) : Except String (marshalSlabRow × Option Error) :=
  match ref with
  | .ptrDerefDelegateMarshalMachine =>
    match row.ptrDerefDelegateMarshalMachine.MarshalMachine with
    | none => .error "invalid memory address or nil pointer dereference"
    | some d =>
      match row.ptrDeref.Reset (marshalSlabRow.delegate d) m rv rt with
      | .error e => .error e
      | .ok (mach, err) => .ok (marshalSlabRow.ofPtrDeref mach, err)
  | ref => (marshalSlabRow.delegate ref).Reset row m rv rt

/-- `Step` on the machine a reference points to. -/
def marshalSlabRow.Step (row : marshalSlabRow) (ref : MachineRef) (tok : Token) :
    Except String (marshalSlabRow × Token × Bool × Option Error) :=
  match ref with
  | .ptrDerefDelegateMarshalMachine =>
    match row.ptrDerefDelegateMarshalMachine.MarshalMachine with
    | none => .error "invalid memory address or nil pointer dereference"
    | some d =>
      match row.ptrDeref.Step (marshalSlabRow.delegate d) tok with
      | .error e => .error e
      | .ok (mach, tok, done, err) => .ok (marshalSlabRow.ofPtrDeref mach, tok, done, err)
  | ref => (marshalSlabRow.delegate ref).Step row tok

/-! ### Values of a primitive kind, token tags and payloads -/

/-- The value is a well-formed value of the primitive kind `k`: a bool, a string, an
integer of kind `k` in the range of `k`, a float of kind `k`, or a byte slice (kind
Slice). -/
def holds (k : Kind) (v : Value) : Bool :=
  match v with
  | .bool _ => k = .Bool
  | .string _ => k = .String
  | .int k2 _ => k2 = k && v.wf
  | .uint k2 _ => k2 = k && v.wf
  | .float k2 _ => k2 = k && v.wf
  | .bytes _ => k = .Slice
  | _ => false

/-- The token tag that goes with a primitive kind. -/
def tagOf (k : Kind) : TokenType :=
  match k with
  | .Bool => .TBool
  | .String => .TString
  | .Slice => .TBytes
  | k =>
    if isSigned k then .TInt
    else if isUnsigned k then .TUint
    else if isFloat k then .TFloat64
    else .TNull

/-- The payload field of the token that goes with the value holds the value. -/
def payloadIs (tok : Token) (v : Value) : Prop :=
  match v with
  | .bool b => tok.Bool = b
  | .string s => tok.Str = s
  | .int _ i => tok.Int = i
  | .uint _ u => tok.Uint = u
  | .float _ f => tok.Float64 = f
  | .bytes b => tok.Bytes = b
  | _ => False

/-- The token tag is compatible with the kind of the target: Bool from Bool; String from
String; a signed integer from Int or Uint; an unsigned integer from Uint or from an Int
that is not negative; a float from Float64, Int or Uint; a byte slice from Bytes. -/
def compatible (k : Kind) (tok : Token) : Bool :=
  match k with
  | .Bool => tok.Typ = .TBool
  | .String => tok.Typ = .TString
  | .Slice => tok.Typ = .TBytes
  | k =>
    if isSigned k then tok.Typ = .TInt || tok.Typ = .TUint
    else if isUnsigned k then tok.Typ = .TUint || (tok.Typ = .TInt && decide (0 ≤ tok.Int))
    else if isFloat k then tok.Typ = .TFloat64 || tok.Typ = .TInt || tok.Typ = .TUint
    else false

/-- A wrapped machine whose every call panics. -/
def panicMarshalMachine : MarshalMachine Unit where
  Reset := fun _ _ _ _ => .error "wrapped Reset called"
  Step := fun _ _ => .error "wrapped Step called"

/-- A wrapped machine whose every call panics. -/
def panicUnmarshalMachine : UnmarshalMachine Unit where
  Reset := fun _ _ _ _ => .error "wrapped Reset called"
  Step := fun _ _ _ => .error "wrapped Step called"

/-- Float conversions used where a concrete instance is wanted. -/
def sampleFloatConv : FloatConv := ⟨fun _ => 0, fun _ => 0, fun x => x⟩

/-! ### Types, atlases and slab operations used to state the properties of the slab -/

/-- The type with `n` pointer levels over `t`. -/
def ptrTo : Nat → RType → RType
  | 0, t => t
  | n + 1, t => .ptr (ptrTo n t)

/-- The predeclared types that are always marshalled by the primitive machine. -/
def builtinTypes : List RType :=
  [.basic .Bool, .basic .String,
   .basic .Int, .basic .Int8, .basic .Int16, .basic .Int32, .basic .Int64,
   .basic .Uint, .basic .Uint8, .basic .Uint16, .basic .Uint32, .basic .Uint64,
   .basic .Uintptr, .basic .Float32, .basic .Float64, .slice (.basic .Uint8)]

/-- The atlas without any entry. -/
def emptyAtlas : Atlas := fun _ => none

/-- The atlas `atl` without the entry for `t`. -/
def atlasWithout (atl : Atlas) (t : RType) : Atlas :=
  fun x => if x = t then none else atl x

/-- An atlas in which the surrogate type of a transform has a transform entry of its
own: `T` is transformed by `f` into `S`, and `S` by `g` into `int`. -/
def nestedTransformAtlas : Atlas :=
  fun x =>
    if x = .struct "T" then some ⟨some "f", .struct "S", none⟩
    else if x = .struct "S" then some ⟨some "g", .basic .Int, none⟩
    else none

/-- The type is resolvable: under its pointers, a machine is found for it in a new
row. -/
def resolvable (fuel : Nat) (atl : Atlas) (rt : RType) : Prop :=
  ∃ (row : marshalSlabRow) (mach : Option MachineRef),
    _yieldMarshalMachinePtr fuel marshalSlabRow.zero atl (peelPtrs rt).1 = .ok (row, mach)

/-- An operation on the slab. -/
inductive SlabOp where
  | acquire (rt : RType)
  | release

/-- A sequence of acquisitions and releases, one after the other. -/
def runOps (fuel : Nat) : marshalSlab → List SlabOp → Except String marshalSlab
  | slab, [] => .ok slab
  | slab, .acquire rt :: rest =>
    match slab.requisitionMachine fuel rt with
    | .error e => .error e
    | .ok (slab, _) => runOps fuel slab rest
  | slab, .release :: rest =>
    match slab.release with
    | .error e => .error e
    | .ok slab => runOps fuel slab rest

/-- The sequence is properly nested, given `k` rows acquired before it: no release
comes without an acquisition that is not yet released. -/
def properlyNested : Nat → List SlabOp → Bool
  | _, [] => true
  | k, .acquire _ :: rest => properlyNested (k + 1) rest
  | 0, .release :: _ => false
  | k + 1, .release :: rest => properlyNested k rest

/-- The number of acquisitions not yet released after the sequence, given `k` before. -/
def outstanding : Nat → List SlabOp → Nat
  | k, [] => k
  | k, .acquire _ :: rest => outstanding (k + 1) rest
  | k, .release :: rest => outstanding (k - 1) rest

/-- An atlas that holds the same transform entry under every type identity. -/
def transformEverything : Atlas :=
  fun _ => some ⟨some "f", .basic .String, none⟩

/-- The type is not resolved through a transform entry of the atlas: it is built in, or
has no entry, or has an entry without transform function. -/
def notTransform (atl : Atlas) (t : RType) : Prop :=
  isBuiltinRtid t = true ∨ atl t = none ∨
    ∃ e : AtlasEntry, atl t = some e ∧ e.MarshalTransformFunc = none

/-- The type is resolved directly, by one of the branches of `_yieldMarshalMachinePtr`
that return a machine of the row without a further lookup: it is built in; or it has an
atlas entry without transform function and with a struct map; or it has no atlas entry
and its kind is a primitive kind, Slice (with an element type), Array, Map or
Interface. -/
def resolvesDirectly (atl : Atlas) (t : RType) : Bool :=
  if isBuiltinRtid t then true
  else
    match atl t with
    | some e => decide (e.MarshalTransformFunc = none) && decide (e.StructMap ≠ none)
    | none =>
      match t.Kind with
      | .Bool | .String | .Int | .Int8 | .Int16 | .Int32 | .Int64 | .Uint | .Uint8
      | .Uint16 | .Uint32 | .Uint64 | .Uintptr | .Float32 | .Float64 => true
      | .Slice =>
        match t.Elem with
        | .ok _ => true
        | .error _ => false
      | .Array | .Map | .Interface => true
      | _ => false

/-- An atlas whose only entry transforms the struct `T` by `f` into the type `s`. -/
def transformInto (s : RType) : Atlas :=
  fun x => if x = .struct "T" then some ⟨some "f", s, none⟩ else none

/-! ### Pointer chains in memory -/

/-- The variable at `a` is the top of a well-typed chain of `n` pointer levels over `T`:
each level holds a pointer, nil or not, to the next one, and the variable under the last
pointer exists. -/
def chainOK (T : RType) (m : Mem) : Nat → Addr → Prop
  | 0, a => ∃ v, m.get? a = some v ∧ v ≠ .zero
  | n + 1, a =>
    ∃ p, m.get? a = some (.ptr (ptrTo n T) p) ∧ ∀ b, p = some b → chainOK T m n b

/-- The variable at `b` is reached from the one at `a` through `n` pointers, none of
them nil. -/
def reaches (m : Mem) : Nat → Addr → Addr → Prop
  | 0, a, b => a = b ∧ a < m.length
  | n + 1, a, b => ∃ e c, m.get? a = some (.ptr e (some c)) ∧ reaches m n c b

/-- The number of levels, among the `n` levels from `a` on, that hold no pointee: the
first nil level and all the levels below it. -/
def nilLevels (m : Mem) : Nat → Addr → Nat
  | 0, _ => 0
  | n + 1, a =>
    match m.get? a with
    | some (.ptr _ (some c)) => nilLevels m n c
    | _ => n + 1

/-- A wrapped machine that accepts every reset and whose `Step` always returns
`(false, nil)` without touching memory. -/
def idleUnmarshalMachine : UnmarshalMachine Unit where
  Reset := fun s m _ _ => .ok (s, m, none)
  Step := fun s m _ => .ok (s, m, false, none)

/-- The memory after the nil pointer at `a` got a new pointee of type `te`: the new
variable is appended and the pointer at `a` points to it. -/
def allocAt (m : Mem) (a : Addr) (te : RType) : Mem :=
  (m ++ [reflect.Zero te]).set a (.ptr te (some m.length))

end obj

/-! ## The JSON encoder -/

namespace json
open tok phase

/-! ### Stack operations -/

theorem popPhase_single (d : Encoder) (p : phase) (h : d.stack = [p]) :
    d.popPhase = .ok ⟨d, true, none⟩ := by
  simp [Encoder.popPhase, h]

theorem popPhase_nested (d : Encoder) (S : List phase) (p q : phase)
    (h : d.stack = S ++ [p] ++ [q]) :
    d.popPhase = .ok ⟨{ d with current := p, stack := S ++ [p], some := true }, false, none⟩ := by
  have hlen : ((d.stack.length : Int) - 1) = (S.length : Int) + 1 := by
    rw [h]; simp; ring
  have h1 : ((S.length : Int) + 1 - 1).toNat = S.length := by simp
  have h2 : ((S.length : Int) + 1).toNat = S.length + 1 := by omega
  have h3 : ¬ ((S.length : Int) + 1 = 0) := by omega
  have h4 : ¬ ((S.length : Int) + 1 < 0) := by omega
  unfold Encoder.popPhase
  simp only [hlen, h1, h2, h3, h4, if_false]
  rw [h]
  have h5 : (S ++ [p] ++ [q]).get? S.length = Option.some p := by
    rw [List.append_assoc, List.get?_eq_getElem?, List.getElem?_append_right (le_refl _)]
    simp
  have h6 : (S ++ [p] ++ [q]).take (S.length + 1) = S ++ [p] := by
    simp [List.take_append_eq_append_take]
  rw [h5, h6]

/-! ### Runs -/

theorem Step_canon (d : Encoder) (t : Token) : d.Step t.canon = d.Step t := by
  rcases d with ⟨wr, stack, cur, sm⟩
  rcases t with ⟨ty, s, bs, b, i, u, f⟩
  cases cur <;> cases ty <;> rfl

theorem runSteps_canon (toks : List Token) :
    ∀ d : Encoder, runSteps d (toks.map Token.canon) = runSteps d toks := by
  induction toks with
  | nil => intro d; rfl
  | cons t rest ih =>
    intro d
    simp only [List.map_cons, runSteps, Step_canon]
    cases d.Step t with
    | error msg => rfl
    | ok r => simp only [ih]

theorem runSteps_append (a b : List Token) :
    ∀ (d d1 : Encoder) (r1 : List (Bool × Option String)),
      runSteps d a = .ok (d1, r1) →
      runSteps d (a ++ b) =
        match runSteps d1 b with
        | .error msg => .error msg
        | .ok (d2, r2) => .ok (d2, r1 ++ r2) := by
  induction a with
  | nil =>
    intro d d1 r1 h
    simp only [runSteps, Except.ok.injEq, Prod.mk.injEq] at h
    obtain ⟨h1, h2⟩ := h
    subst h1; subst h2
    simp only [List.nil_append]
    cases runSteps d b with
    | error msg => rfl
    | ok p => rfl
  | cons t rest ih =>
    intro d d1 r1 h
    simp only [List.cons_append, runSteps] at h ⊢
    cases hs : d.Step t with
    | error msg => simp [hs] at h
    | ok r =>
      simp only [hs] at h ⊢
      cases hr : runSteps r.enc rest with
      | error msg => simp [hr] at h
      | ok p =>
        obtain ⟨d2, r2⟩ := p
        simp only [hr, Except.ok.injEq, Prod.mk.injEq] at h
        obtain ⟨h1, h2⟩ := h
        subst h1; subst h2
        rw [show rest.append b = rest ++ b from rfl, ih r.enc d2 r2 hr]
        cases runSteps d2 b with
        | error msg => rfl
        | ok p => rfl

/-! ### Single steps, on explicit states -/

theorem step_arrOpen (wr : List Out) (S : List phase) (cur : phase) (sm : Bool)
    (hc : cur = phase_anyExpectValue ∨ cur = phase_mapExpectValue ∨
      cur = phase_arrExpectValueOrEnd) :
    Encoder.Step ⟨wr, S, cur, sm⟩ Token_ArrOpen =
      .ok ⟨⟨wr ++ sepOf cur sm ++ [.wordArrOpen], S ++ [phase_arrExpectValueOrEnd],
        phase_arrExpectValueOrEnd, false⟩, false, none⟩ := by
  rcases hc with h | h | h <;> subst h <;> cases sm <;>
    simp [Encoder.Step, Token_ArrOpen, Token.zero, Encoder.entrySep, Encoder.pushPhase,
      Encoder.Write, sepOf]

theorem step_mapOpen (wr : List Out) (S : List phase) (cur : phase) (sm : Bool)
    (hc : cur = phase_anyExpectValue ∨ cur = phase_mapExpectValue ∨
      cur = phase_arrExpectValueOrEnd) :
    Encoder.Step ⟨wr, S, cur, sm⟩ Token_MapOpen =
      .ok ⟨⟨wr ++ sepOf cur sm ++ [.wordMapOpen], S ++ [phase_mapExpectKeyOrEnd],
        phase_mapExpectKeyOrEnd, false⟩, false, none⟩ := by
  rcases hc with h | h | h <;> subst h <;> cases sm <;>
    simp [Encoder.Step, Token_MapOpen, Token.zero, Encoder.entrySep, Encoder.pushPhase,
      Encoder.Write, sepOf]

theorem step_arrClose_nested (wr : List Out) (S : List phase) (q : phase) (sm : Bool) :
    Encoder.Step ⟨wr, S ++ [q] ++ [phase_arrExpectValueOrEnd], phase_arrExpectValueOrEnd, sm⟩
        Token_ArrClose =
      .ok ⟨⟨wr ++ [.wordArrClose], S ++ [q], q, true⟩, false, none⟩ := by
  simp only [Encoder.Step, Token_ArrClose, Token.zero, Encoder.Write]
  rw [popPhase_nested _ S q phase_arrExpectValueOrEnd rfl]

theorem step_mapClose_nested (wr : List Out) (S : List phase) (q : phase) (sm : Bool) :
    Encoder.Step ⟨wr, S ++ [q] ++ [phase_mapExpectKeyOrEnd], phase_mapExpectKeyOrEnd, sm⟩
        Token_MapClose =
      .ok ⟨⟨wr ++ [.wordMapClose], S ++ [q], q, true⟩, false, none⟩ := by
  simp only [Encoder.Step, Token_MapClose, Token.zero, Encoder.Write]
  rw [popPhase_nested _ S q phase_mapExpectKeyOrEnd rfl]

theorem step_arrClose_top (wr : List Out) (sm : Bool) :
    Encoder.Step ⟨wr, [phase_arrExpectValueOrEnd], phase_arrExpectValueOrEnd, sm⟩
        Token_ArrClose =
      .ok ⟨⟨wr ++ [.wordArrClose], [phase_arrExpectValueOrEnd], phase_arrExpectValueOrEnd,
        sm⟩, true, none⟩ := by
  simp only [Encoder.Step, Token_ArrClose, Token.zero, Encoder.Write]
  rw [popPhase_single _ phase_arrExpectValueOrEnd rfl]

theorem step_mapClose_top (wr : List Out) (sm : Bool) :
    Encoder.Step ⟨wr, [phase_mapExpectKeyOrEnd], phase_mapExpectKeyOrEnd, sm⟩
        Token_MapClose =
      .ok ⟨⟨wr ++ [.wordMapClose], [phase_mapExpectKeyOrEnd], phase_mapExpectKeyOrEnd,
        sm⟩, true, none⟩ := by
  simp only [Encoder.Step, Token_MapClose, Token.zero, Encoder.Write]
  rw [popPhase_single _ phase_mapExpectKeyOrEnd rfl]

theorem step_key (wr : List Out) (S : List phase) (sm : Bool) (k : String) :
    Encoder.Step ⟨wr, S, phase_mapExpectKeyOrEnd, sm⟩ (TokStr k) =
      .ok ⟨⟨wr ++ (if sm then [.wordComma] else []) ++ [.str k, .wordColon], S,
        phase_mapExpectValue, true⟩, false, none⟩ := by
  cases sm <;>
    simp [Encoder.Step, TokStr, Token.zero, Encoder.entrySep, Encoder.emitString,
      Encoder.Write]

theorem leaf_tokens_length (v : Value) (hv : v.isLeaf = true) : v.tokens.length = 1 := by
  cases v <;> simp_all [Value.isLeaf, Value.isContainer, Value.tokens]

theorem step_leaf_nested (v : Value) (hv : v.isLeaf = true) (wr : List Out) (S : List phase)
    (cur : phase) (sm : Bool)
    (hc : cur = phase_arrExpectValueOrEnd ∨ (cur = phase_mapExpectValue ∧ sm = true)) :
    runSteps ⟨wr, S, cur, sm⟩ v.tokens =
      .ok (⟨wr ++ sepOf cur sm ++ v.events, S, phaseAfterValue cur, true⟩,
        [(false, none)]) := by
  rcases hc with h | ⟨h, h2⟩
  · subst h
    cases v with
    | bool b =>
      cases b <;> cases sm <;>
        simp [Value.tokens, Value.events, runSteps, Encoder.Step, Encoder.flushValue, TokBool,
          Token.zero, Encoder.entrySep, Encoder.Write, sepOf, phaseAfterValue]
    | arr _ => simp [Value.isLeaf, Value.isContainer] at hv
    | map _ => simp [Value.isLeaf, Value.isContainer] at hv
    | _ =>
      cases sm <;>
        simp [Value.tokens, Value.events, runSteps, Encoder.Step, Encoder.flushValue, TokStr,
          TokInt, Token_Null, Token.zero, Encoder.entrySep, Encoder.emitString, Encoder.Write,
          sepOf, phaseAfterValue]
  · subst h; subst h2
    cases v with
    | bool b =>
      cases b <;>
        simp [Value.tokens, Value.events, runSteps, Encoder.Step, Encoder.flushValue, TokBool,
          Token.zero, Encoder.Write, sepOf, phaseAfterValue]
    | arr _ => simp [Value.isLeaf, Value.isContainer] at hv
    | map _ => simp [Value.isLeaf, Value.isContainer] at hv
    | _ =>
      simp [Value.tokens, Value.events, runSteps, Encoder.Step, Encoder.flushValue, TokStr,
        TokInt, Token_Null, Token.zero, Encoder.emitString, Encoder.Write,
        sepOf, phaseAfterValue]

/-! ### A value inside an open container -/

theorem runSteps_cons_ok (d : Encoder) (t : Token) (rest : List Token) (r : StepResult)
    (d2 : Encoder) (rs : List (Bool × Option String))
    (h1 : d.Step t = .ok r) (h2 : runSteps r.enc rest = .ok (d2, rs)) :
    runSteps d (t :: rest) = .ok (d2, (r.done, r.err) :: rs) := by
  simp only [runSteps, h1, h2]

theorem runSteps_append_ok (a b : List Token) (d d1 d2 : Encoder)
    (r1 r2 : List (Bool × Option String))
    (h1 : runSteps d a = .ok (d1, r1)) (h2 : runSteps d1 b = .ok (d2, r2)) :
    runSteps d (a ++ b) = .ok (d2, r1 ++ r2) := by
  rw [runSteps_append a b d d1 r1 h1, h2]

theorem replicate_snoc {α : Type} (n : Nat) (a : α) :
    List.replicate n a ++ [a] = a :: List.replicate n a := by
  induction n with
  | zero => rfl
  | succ n ih => simp [List.replicate_succ, ih]

mutual
theorem value_nested : (v : Value) → (wr : List Out) → (S : List phase) → (cur : phase) →
    (sm : Bool) →
    (cur = phase_arrExpectValueOrEnd ∨ (cur = phase_mapExpectValue ∧ sm = true)) →
    runSteps ⟨wr, S ++ [phaseAfterValue cur], cur, sm⟩ v.tokens =
      .ok (⟨wr ++ sepOf cur sm ++ v.events, S ++ [phaseAfterValue cur], phaseAfterValue cur,
        true⟩, List.replicate v.tokens.length (false, none))
  | .str s, wr, S, cur, sm, hc => by
    rw [leaf_tokens_length (.str s) rfl]; exact step_leaf_nested (.str s) rfl wr _ cur sm hc
  | .bool b, wr, S, cur, sm, hc => by
    rw [leaf_tokens_length (.bool b) rfl]; exact step_leaf_nested (.bool b) rfl wr _ cur sm hc
  | .int i, wr, S, cur, sm, hc => by
    rw [leaf_tokens_length (.int i) rfl]; exact step_leaf_nested (.int i) rfl wr _ cur sm hc
  | .null, wr, S, cur, sm, hc => by
    rw [leaf_tokens_length .null rfl]; exact step_leaf_nested .null rfl wr _ cur sm hc
  | .arr items, wr, S, cur, sm, hc => by
    have hopen := step_arrOpen wr (S ++ [phaseAfterValue cur]) cur sm
      (by rcases hc with h | ⟨h, _⟩ <;> simp [h])
    have hbody := items_run items (wr ++ sepOf cur sm ++ [.wordArrOpen])
      (S ++ [phaseAfterValue cur]) false
    have hclose := step_arrClose_nested
      (wr ++ sepOf cur sm ++ [.wordArrOpen] ++ eventsItems false items) S
      (phaseAfterValue cur) (false || !items.isEmpty)
    have hrun := runSteps_cons_ok _ _ _ _ _ _ hopen
      (runSteps_append_ok _ [Token_ArrClose] _ _ _ _ _ hbody
        (runSteps_cons_ok _ _ [] _ _ _ hclose rfl))
    simp only [Value.tokens, Value.events]
    rw [hrun]
    simp [List.replicate_succ, replicate_snoc]
  | .map entries, wr, S, cur, sm, hc => by
    have hopen := step_mapOpen wr (S ++ [phaseAfterValue cur]) cur sm
      (by rcases hc with h | ⟨h, _⟩ <;> simp [h])
    have hbody := entries_run entries (wr ++ sepOf cur sm ++ [.wordMapOpen])
      (S ++ [phaseAfterValue cur]) false
    have hclose := step_mapClose_nested
      (wr ++ sepOf cur sm ++ [.wordMapOpen] ++ eventsEntries false entries) S
      (phaseAfterValue cur) (false || !entries.isEmpty)
    have hrun := runSteps_cons_ok _ _ _ _ _ _ hopen
      (runSteps_append_ok _ [Token_MapClose] _ _ _ _ _ hbody
        (runSteps_cons_ok _ _ [] _ _ _ hclose rfl))
    simp only [Value.tokens, Value.events]
    rw [hrun]
    simp [List.replicate_succ, replicate_snoc]
theorem items_run : (items : List Value) → (wr : List Out) → (S : List phase) → (sm : Bool) →
    runSteps ⟨wr, S ++ [phase_arrExpectValueOrEnd], phase_arrExpectValueOrEnd, sm⟩
        (tokensItems items) =
      .ok (⟨wr ++ eventsItems sm items, S ++ [phase_arrExpectValueOrEnd],
        phase_arrExpectValueOrEnd, sm || !items.isEmpty⟩,
        List.replicate (tokensItems items).length (false, none))
  | [], wr, S, sm => by simp [tokensItems, eventsItems, runSteps]
  | v :: rest, wr, S, sm => by
    have h1 := value_nested v wr S phase_arrExpectValueOrEnd sm (Or.inl rfl)
    have h2 := items_run rest (wr ++ sepOf phase_arrExpectValueOrEnd sm ++ v.events) S true
    have hrun := runSteps_append_ok _ _ _ _ _ _ _ h1 h2
    simp only [tokensItems, eventsItems]
    simp only [phaseAfterValue] at hrun
    rw [hrun]
    cases sm <;> simp [sepOf]
theorem entries_run : (entries : List (String × Value)) → (wr : List Out) → (S : List phase) →
    (sm : Bool) →
    runSteps ⟨wr, S ++ [phase_mapExpectKeyOrEnd], phase_mapExpectKeyOrEnd, sm⟩
        (tokensEntries entries) =
      .ok (⟨wr ++ eventsEntries sm entries, S ++ [phase_mapExpectKeyOrEnd],
        phase_mapExpectKeyOrEnd, sm || !entries.isEmpty⟩,
        List.replicate (tokensEntries entries).length (false, none))
  | [], wr, S, sm => by simp [tokensEntries, eventsEntries, runSteps]
  | (k, v) :: rest, wr, S, sm => by
    have hkey := step_key wr (S ++ [phase_mapExpectKeyOrEnd]) sm k
    have h1 := value_nested v
      (wr ++ (if sm then [.wordComma] else []) ++ [.str k, .wordColon]) S
      phase_mapExpectValue true (Or.inr ⟨rfl, rfl⟩)
    have h2 := entries_run rest
      (wr ++ (if sm then [.wordComma] else []) ++ [.str k, .wordColon] ++
        sepOf phase_mapExpectValue true ++ v.events) S true
    simp only [phaseAfterValue] at h1
    have hrun := runSteps_cons_ok _ _ _ _ _ _ hkey (runSteps_append_ok _ _ _ _ _ _ _ h1 h2)
    simp only [tokensEntries, eventsEntries]
    rw [hrun]
    cases sm <;> simp [sepOf, List.replicate_succ]
end

/-! ### A container started in any phase that expects a value -/

theorem container_run (c : Value) (hcont : c.isContainer = true) (wr : List Out)
    (S : List phase) (cur : phase) (sm : Bool)
    (hc : cur = phase_anyExpectValue ∨ cur = phase_mapExpectValue ∨
      cur = phase_arrExpectValueOrEnd) :
    ∃ d2 : Encoder,
      runSteps ⟨wr, S, cur, sm⟩ c.tokens =
        .ok (d2, List.replicate (c.tokens.length - 1) (false, none) ++ [(S.isEmpty, none)]) ∧
      d2.wr = wr ++ sepOf cur sm ++ c.events ∧
      (S = [] → d2.stack.length = 1) := by
  cases c with
  | arr items =>
    have hopen := step_arrOpen wr S cur sm hc
    have hbody := items_run items (wr ++ sepOf cur sm ++ [.wordArrOpen]) S false
    rcases List.eq_nil_or_concat S with hS | ⟨S2, q, hS⟩
    · subst hS
      have hclose := step_arrClose_top
        (wr ++ sepOf cur sm ++ [.wordArrOpen] ++ eventsItems false items)
        (false || !items.isEmpty)
      have hrun := runSteps_cons_ok _ _ _ _ _ _ hopen
        (runSteps_append_ok _ [Token_ArrClose] _ _ _ _ _ hbody
          (runSteps_cons_ok _ _ [] _ _ _ hclose rfl))
      refine ⟨⟨wr ++ sepOf cur sm ++ [.wordArrOpen] ++ eventsItems false items ++
        [.wordArrClose], [phase_arrExpectValueOrEnd], phase_arrExpectValueOrEnd,
        false || !items.isEmpty⟩, ?_, ?_, ?_⟩
      · simp only [Value.tokens]
        rw [hrun]
        simp [List.replicate_succ]
      · simp [Value.events]
      · intro _; rfl
    · rw [List.concat_eq_append] at hS
      subst hS
      have hclose := step_arrClose_nested
        (wr ++ sepOf cur sm ++ [.wordArrOpen] ++ eventsItems false items) S2 q
        (false || !items.isEmpty)
      have hrun := runSteps_cons_ok _ _ _ _ _ _ hopen
        (runSteps_append_ok _ [Token_ArrClose] _ _ _ _ _ hbody
          (runSteps_cons_ok _ _ [] _ _ _ hclose rfl))
      refine ⟨⟨wr ++ sepOf cur sm ++ [.wordArrOpen] ++ eventsItems false items ++
        [.wordArrClose], S2 ++ [q], q, true⟩, ?_, ?_, ?_⟩
      · simp only [Value.tokens]
        rw [hrun]
        simp [List.replicate_succ]
      · simp [Value.events]
      · intro h; simp at h
  | map entries =>
    have hopen := step_mapOpen wr S cur sm hc
    have hbody := entries_run entries (wr ++ sepOf cur sm ++ [.wordMapOpen]) S false
    rcases List.eq_nil_or_concat S with hS | ⟨S2, q, hS⟩
    · subst hS
      have hclose := step_mapClose_top
        (wr ++ sepOf cur sm ++ [.wordMapOpen] ++ eventsEntries false entries)
        (false || !entries.isEmpty)
      have hrun := runSteps_cons_ok _ _ _ _ _ _ hopen
        (runSteps_append_ok _ [Token_MapClose] _ _ _ _ _ hbody
          (runSteps_cons_ok _ _ [] _ _ _ hclose rfl))
      refine ⟨⟨wr ++ sepOf cur sm ++ [.wordMapOpen] ++ eventsEntries false entries ++
        [.wordMapClose], [phase_mapExpectKeyOrEnd], phase_mapExpectKeyOrEnd,
        false || !entries.isEmpty⟩, ?_, ?_, ?_⟩
      · simp only [Value.tokens]
        rw [hrun]
        simp [List.replicate_succ]
      · simp [Value.events]
      · intro _; rfl
    · rw [List.concat_eq_append] at hS
      subst hS
      have hclose := step_mapClose_nested
        (wr ++ sepOf cur sm ++ [.wordMapOpen] ++ eventsEntries false entries) S2 q
        (false || !entries.isEmpty)
      have hrun := runSteps_cons_ok _ _ _ _ _ _ hopen
        (runSteps_append_ok _ [Token_MapClose] _ _ _ _ _ hbody
          (runSteps_cons_ok _ _ [] _ _ _ hclose rfl))
      refine ⟨⟨wr ++ sepOf cur sm ++ [.wordMapOpen] ++ eventsEntries false entries ++
        [.wordMapClose], S2 ++ [q], q, true⟩, ?_, ?_, ?_⟩
      · simp only [Value.tokens]
        rw [hrun]
        simp [List.replicate_succ]
      · simp [Value.events]
      · intro h; simp at h
  | _ => simp [Value.isContainer] at hcont

/-! ### A whole stream on a fresh encoder -/

theorem top_run (v : Value) :
    ∃ d2 : Encoder,
      runSteps NewEncoder v.tokens =
        .ok (d2, List.replicate (v.tokens.length - 1) (false, none) ++ [(true, none)]) ∧
      d2.wr = v.events := by
  by_cases hv : v.isContainer = true
  · obtain ⟨d2, h1, h2, _⟩ := container_run v hv [] [] phase_anyExpectValue false (Or.inl rfl)
    exact ⟨d2, h1, by simpa [sepOf] using h2⟩
  · cases v with
    | bool b =>
      cases b <;>
        exact ⟨_, by
          simp [Value.tokens, runSteps, NewEncoder, Encoder.Step, Encoder.flushValue, TokBool,
            Token.zero, Encoder.Write]; rfl, rfl⟩
    | arr _ => simp [Value.isContainer] at hv
    | map _ => simp [Value.isContainer] at hv
    | str s =>
      exact ⟨_, by
        simp [Value.tokens, runSteps, NewEncoder, Encoder.Step, Encoder.flushValue, TokStr,
          Token.zero, Encoder.emitString, Encoder.Write]; rfl, rfl⟩
    | int i =>
      exact ⟨_, by
        simp [Value.tokens, runSteps, NewEncoder, Encoder.Step, Encoder.flushValue, TokInt,
          Token.zero, Encoder.Write]; rfl, rfl⟩
    | null =>
      exact ⟨_, by
        simp [Value.tokens, runSteps, NewEncoder, Encoder.Step, Encoder.flushValue, Token_Null,
          Token.zero, Encoder.Write]; rfl, rfl⟩

/-! ### The bytes of the `Write` calls are the compact JSON text -/

theorem strconvAppendInt_eq (i : Int) : strconvAppendInt i = (toString i).toList := by
  cases i with
  | ofNat m =>
    have h : ¬ ((Int.ofNat m) < 0) := by simp
    simp only [strconvAppendInt, h, if_false]
    show Nat.toDigits 10 m = (Nat.repr m).toList
    simp [Nat.repr, List.asString]
  | negSucc m =>
    have h : (Int.negSucc m) < 0 := Int.negSucc_lt_zero m
    simp only [strconvAppendInt, h, if_true]
    show '-' :: Nat.toDigits 10 (m + 1) = ("-" ++ Nat.repr (m + 1)).toList
    simp [Nat.repr, List.asString]

theorem outBytes_append (a b : List Out) : outBytes (a ++ b) = outBytes a ++ outBytes b := by
  simp [outBytes]

theorem outBytes_cons (x : Out) (a : List Out) : outBytes (x :: a) = x.bytes ++ outBytes a := by
  simp [outBytes]

theorem outBytes_nil : outBytes [] = [] := rfl

theorem renderItems_cons (v : Value) (rest : List Value) :
    renderItems (v :: rest) =
      v.render ++ ((if rest.isEmpty then [] else [',']) ++ renderItems rest) := by
  cases rest <;> simp [renderItems]

theorem renderEntries_cons (k : String) (v : Value) (rest : List (String × Value)) :
    renderEntries ((k, v) :: rest) =
      quoteString k ++ ':' :: (v.render ++
        ((if rest.isEmpty then [] else [',']) ++ renderEntries rest)) := by
  cases rest <;> simp [renderEntries]

mutual
theorem events_bytes : (v : Value) → outBytes v.events = v.render
  | .str s => by simp [Value.events, Value.render, outBytes, Out.bytes]
  | .bool true => by simp [Value.events, Value.render, outBytes, Out.bytes]
  | .bool false => by simp [Value.events, Value.render, outBytes, Out.bytes]
  | .int i => by
    simp [Value.events, Value.render, outBytes, Out.bytes, strconvAppendInt_eq]
  | .null => by simp [Value.events, Value.render, outBytes, Out.bytes]
  | .arr items => by
    have h := eventsItems_bytes items false
    simp only [Value.events, Value.render, outBytes_cons, outBytes_append, h]
    simp [outBytes, Out.bytes]
  | .map entries => by
    have h := eventsEntries_bytes entries false
    simp only [Value.events, Value.render, outBytes_cons, outBytes_append, h]
    simp [outBytes, Out.bytes]
theorem eventsItems_bytes : (items : List Value) → (sm : Bool) →
    outBytes (eventsItems sm items) =
      (if sm && !items.isEmpty then [','] else []) ++ renderItems items
  | [], sm => by simp [eventsItems, renderItems, outBytes]
  | v :: rest, sm => by
    have h1 := events_bytes v
    have h2 := eventsItems_bytes rest true
    simp only [eventsItems, outBytes_append, h1, h2, renderItems_cons]
    cases sm <;> cases rest <;> simp [outBytes, Out.bytes]
theorem eventsEntries_bytes : (entries : List (String × Value)) → (sm : Bool) →
    outBytes (eventsEntries sm entries) =
      (if sm && !entries.isEmpty then [','] else []) ++ renderEntries entries
  | [], sm => by simp [eventsEntries, renderEntries, outBytes]
  | (k, v) :: rest, sm => by
    have h1 := events_bytes v
    have h2 := eventsEntries_bytes rest true
    simp only [eventsEntries, outBytes_append, outBytes_cons, h1, h2, renderEntries_cons]
    cases sm <;> cases rest <;> simp [outBytes, Out.bytes]
end

/-! ### Claims about whole streams -/

/-- C1: for every value (nested maps with String keys and arrays, leaves of type String,
Bool, Int or Null) and every token sequence that is the token stream of that value,
feeding the tokens one by one to `Encoder.Step` on a fresh encoder runs without a panic
and the bytes written are exactly the compact JSON text of the value: brackets around
containers, entries separated by a single comma, each key followed by a colon, Bool as
true/false, Null as null, Int as its decimal text. -/
theorem encoder_writes_compact_json (v : Value) (toks : List Token)
    (h : toks.map Token.canon = v.tokens) :
    ∃ (d : Encoder) (rs : List (Bool × Option String)),
      runSteps NewEncoder toks = .ok (d, rs) ∧ outBytes d.wr = v.render := by
  obtain ⟨d2, hrun, hwr⟩ := top_run v
  rw [← runSteps_canon, h]
  exact ⟨d2, _, hrun, by rw [hwr, events_bytes]⟩

/-- The stream MapOpen, String "F", Int 7, String "X", String "s", MapClose is written
as `{"F":7,"X":"s"}`. -/
theorem encoder_writes_compact_json_witness :
    ∃ (d : Encoder) (rs : List (Bool × Option String)),
      runSteps NewEncoder
          [Token_MapOpen, TokStr "F", TokInt 7, TokStr "X", TokStr "s", Token_MapClose] =
        .ok (d, rs) ∧
      outBytes d.wr = "\x7b\"F\":7,\"X\":\"s\"\x7d".toList :=
  encoder_writes_compact_json (.map [("F", .int 7), ("X", .str "s")])
    [Token_MapOpen, TokStr "F", TokInt 7, TokStr "X", TokStr "s", Token_MapClose] (by decide)

/-! ### Reading a stream back from an accepted run -/

theorem tokensItems_append (a b : List Value) :
    tokensItems (a ++ b) = tokensItems a ++ tokensItems b := by
  induction a with
  | nil => simp [tokensItems]
  | cons v rest ih => simp [tokensItems, ih]

theorem tokensEntries_append (a b : List (String × Value)) :
    tokensEntries (a ++ b) = tokensEntries a ++ tokensEntries b := by
  induction a with
  | nil => simp [tokensEntries]
  | cons e rest ih =>
    obtain ⟨k, v⟩ := e
    simp [tokensEntries, ih]

theorem addValue_tokens (f : Frame) (v : Value) (h : f.awaitsValue = true) :
    (f.addValue v).tokens = f.tokens ++ v.tokens := by
  cases f with
  | arrF items => simp [Frame.addValue, Frame.tokens, tokensItems_append, tokensItems]
  | mapF entries key =>
    cases key with
    | none => simp [Frame.awaitsValue] at h
    | some k =>
      simp [Frame.addValue, Frame.tokens, tokensEntries_append, tokensEntries]

theorem addValue_phase (f : Frame) (v : Value) : (f.addValue v).stackPhase = f.stackPhase := by
  cases f with
  | arrF items => rfl
  | mapF entries key => cases key <;> rfl

theorem addValue_current (f : Frame) (v : Value) (h : f.awaitsValue = true) :
    (f.addValue v).current = f.stackPhase := by
  cases f with
  | arrF items => rfl
  | mapF entries key =>
    cases key with
    | none => simp [Frame.awaitsValue] at h
    | some k => rfl

theorem awaits_of_current (f : Frame) (h : f.current ≠ phase_mapExpectKeyOrEnd) :
    f.awaitsValue = true := by
  cases f with
  | arrF items => rfl
  | mapF entries key =>
    cases key with
    | none => simp [Frame.current] at h
    | some k => rfl

theorem expects_of_not_key (Z : List Frame) (h : framesCurrent Z ≠ phase_mapExpectKeyOrEnd) :
    framesCurrent Z = phase_anyExpectValue ∨ framesCurrent Z = phase_mapExpectValue ∨
      framesCurrent Z = phase_arrExpectValueOrEnd := by
  cases hc : framesCurrent Z <;> simp_all

theorem inv_push (wr : List Out) (Z : List Frame) (sm : Bool) (f : Frame)
    (hinv : Inv ⟨wr, (Z.map Frame.stackPhase).reverse, framesCurrent Z, sm⟩ Z)
    (hne : framesCurrent Z ≠ phase_mapExpectKeyOrEnd) (wr2 : List Out) (sm2 : Bool)
    (hf : f.current = f.stackPhase) :
    Inv ⟨wr2, (Z.map Frame.stackPhase).reverse ++ [f.stackPhase], f.stackPhase, sm2⟩ (f :: Z) := by
  refine ⟨by simp, by simp [framesCurrent, hf], ?_⟩
  intro g hg
  simp only [List.tail_cons] at hg
  cases Z with
  | nil => simp at hg
  | cons f0 Z0 =>
    rcases List.mem_cons.mp hg with h | h
    · subst h; exact awaits_of_current _ hne
    · exact hinv.2.2 g (by simpa using h)

theorem sim_arrOpen (d : Encoder) (Z : List Frame) (r : StepResult) (hinv : Inv d Z)
    (hs : d.Step Token_ArrOpen = .ok r) (he : r.err = none) : StepSim Z Token_ArrOpen r := by
  rcases d with ⟨wr, stack, cur, sm⟩
  obtain ⟨h1, h2⟩ : stack = (Z.map Frame.stackPhase).reverse ∧ cur = framesCurrent Z :=
    ⟨hinv.1, hinv.2.1⟩
  subst h1; subst h2
  by_cases hk : framesCurrent Z = phase_mapExpectKeyOrEnd
  · simp [Encoder.Step, hk, Token_ArrOpen, Token.zero] at hs
    subst hs
    simp at he
  · rw [step_arrOpen _ _ _ _ (expects_of_not_key Z hk)] at hs
    simp only [Except.ok.injEq] at hs
    subst hs
    refine ⟨fun _ => ⟨Frame.arrF [] :: Z, ?_, ?_⟩, fun h => by simp at h⟩
    · exact inv_push wr Z sm (Frame.arrF []) hinv hk _ _ rfl
    · simp [framesTokens, Frame.tokens, tokensItems]

theorem sim_mapOpen (d : Encoder) (Z : List Frame) (r : StepResult) (hinv : Inv d Z)
    (hs : d.Step Token_MapOpen = .ok r) (he : r.err = none) : StepSim Z Token_MapOpen r := by
  rcases d with ⟨wr, stack, cur, sm⟩
  obtain ⟨h1, h2⟩ : stack = (Z.map Frame.stackPhase).reverse ∧ cur = framesCurrent Z :=
    ⟨hinv.1, hinv.2.1⟩
  subst h1; subst h2
  by_cases hk : framesCurrent Z = phase_mapExpectKeyOrEnd
  · simp [Encoder.Step, hk, Token_MapOpen, Token.zero] at hs
    subst hs
    simp at he
  · rw [step_mapOpen _ _ _ _ (expects_of_not_key Z hk)] at hs
    simp only [Except.ok.injEq] at hs
    subst hs
    refine ⟨fun _ => ⟨Frame.mapF [] none :: Z, ?_, ?_⟩, fun h => by simp at h⟩
    · exact inv_push wr Z sm (Frame.mapF [] none) hinv hk _ _ rfl
    · simp [framesTokens, Frame.tokens, tokensEntries]

theorem inv_pop (Z1 : List Frame) (g : Frame) (v : Value) (wr : List Out) (sm : Bool)
    (hg : g.awaitsValue = true) (htail : ∀ x ∈ Z1, x.awaitsValue = true) :
    Inv ⟨wr, (Z1.map Frame.stackPhase).reverse ++ [g.stackPhase], g.stackPhase, sm⟩
      (g.addValue v :: Z1) := by
  refine ⟨by simp [addValue_phase], by simp [framesCurrent, addValue_current g v hg], ?_⟩
  intro x hx
  exact htail x (by simpa using hx)

theorem sim_arrClose (d : Encoder) (Z : List Frame) (r : StepResult) (hinv : Inv d Z)
    (hs : d.Step Token_ArrClose = .ok r) (he : r.err = none) :
    StepSim Z Token_ArrClose r := by
  rcases d with ⟨wr, stack, cur, sm⟩
  obtain ⟨h1, h2⟩ : stack = (Z.map Frame.stackPhase).reverse ∧ cur = framesCurrent Z :=
    ⟨hinv.1, hinv.2.1⟩
  subst h1; subst h2
  cases Z with
  | nil =>
    simp [Encoder.Step, framesCurrent, Token_ArrClose, Token.zero] at hs
    subst hs; simp at he
  | cons f Z0 =>
    cases f with
    | mapF entries key =>
      cases key <;>
        · simp [Encoder.Step, framesCurrent, Frame.current, Token_ArrClose, Token.zero] at hs
          subst hs; simp at he
    | arrF items =>
      cases Z0 with
      | nil =>
        have hst : ([Frame.arrF items].map Frame.stackPhase).reverse =
            [phase_arrExpectValueOrEnd] := rfl
        rw [hst] at hs
        simp only [framesCurrent, Frame.current] at hs
        rw [step_arrClose_top] at hs
        simp only [Except.ok.injEq] at hs
        subst hs
        refine ⟨fun h => by simp at h, fun _ => ⟨Value.arr items, ?_⟩⟩
        simp [framesTokens, Frame.tokens, Value.tokens]
      | cons g Z1 =>
        have hst : ((Frame.arrF items :: g :: Z1).map Frame.stackPhase).reverse =
            (Z1.map Frame.stackPhase).reverse ++ [g.stackPhase] ++
              [phase_arrExpectValueOrEnd] := by
          simp [Frame.stackPhase]
        rw [hst] at hs
        simp only [framesCurrent, Frame.current] at hs
        rw [step_arrClose_nested] at hs
        simp only [Except.ok.injEq] at hs
        subst hs
        have hg : g.awaitsValue = true := hinv.2.2 g (by simp)
        refine ⟨fun _ => ⟨g.addValue (Value.arr items) :: Z1, ?_, ?_⟩, fun h => by simp at h⟩
        · exact inv_pop Z1 g _ _ _ hg (fun x hx => hinv.2.2 x (by simp [hx]))
        · simp only [framesTokens, addValue_tokens g _ hg]
          simp [Frame.tokens, Value.tokens]

theorem sim_mapClose (d : Encoder) (Z : List Frame) (r : StepResult) (hinv : Inv d Z)
    (hs : d.Step Token_MapClose = .ok r) (he : r.err = none) :
    StepSim Z Token_MapClose r := by
  rcases d with ⟨wr, stack, cur, sm⟩
  obtain ⟨h1, h2⟩ : stack = (Z.map Frame.stackPhase).reverse ∧ cur = framesCurrent Z :=
    ⟨hinv.1, hinv.2.1⟩
  subst h1; subst h2
  cases Z with
  | nil =>
    simp [Encoder.Step, framesCurrent, Token_MapClose, Token.zero] at hs
    subst hs; simp at he
  | cons f Z0 =>
    cases f with
    | arrF items =>
      simp [Encoder.Step, framesCurrent, Frame.current, Token_MapClose, Token.zero] at hs
      subst hs; simp at he
    | mapF entries key =>
      cases key with
      | some k =>
        simp [Encoder.Step, framesCurrent, Frame.current, Token_MapClose, Token.zero] at hs
        subst hs; simp at he
      | none =>
        cases Z0 with
        | nil =>
          have hst : ([Frame.mapF entries none].map Frame.stackPhase).reverse =
              [phase_mapExpectKeyOrEnd] := rfl
          rw [hst] at hs
          simp only [framesCurrent, Frame.current] at hs
          rw [step_mapClose_top] at hs
          simp only [Except.ok.injEq] at hs
          subst hs
          refine ⟨fun h => by simp at h, fun _ => ⟨Value.map entries, ?_⟩⟩
          simp [framesTokens, Frame.tokens, Value.tokens]
        | cons g Z1 =>
          have hst : ((Frame.mapF entries none :: g :: Z1).map Frame.stackPhase).reverse =
              (Z1.map Frame.stackPhase).reverse ++ [g.stackPhase] ++
                [phase_mapExpectKeyOrEnd] := by
            simp [Frame.stackPhase]
          rw [hst] at hs
          simp only [framesCurrent, Frame.current] at hs
          rw [step_mapClose_nested] at hs
          simp only [Except.ok.injEq] at hs
          subst hs
          have hg : g.awaitsValue = true := hinv.2.2 g (by simp)
          refine ⟨fun _ => ⟨g.addValue (Value.map entries) :: Z1, ?_, ?_⟩,
            fun h => by simp at h⟩
          · exact inv_pop Z1 g _ _ _ hg (fun x hx => hinv.2.2 x (by simp [hx]))
          · simp only [framesTokens, addValue_tokens g _ hg]
            simp [Frame.tokens, Value.tokens]

theorem leaf_step_facts (v : Value) (hv : v.isLeaf = true) (t : Token) (ht : v.tokens = [t])
    (wr : List Out) (S : List phase) (cur : phase) (sm : Bool) (r : StepResult)
    (hs : Encoder.Step ⟨wr, S, cur, sm⟩ t = .ok r) (he : r.err = none) :
    r.enc.stack = S ∧
      (cur = phase_anyExpectValue → r.done = true) ∧
      (cur = phase_arrExpectValueOrEnd →
        r.done = false ∧ r.enc.current = phase_arrExpectValueOrEnd) ∧
      (cur = phase_mapExpectValue →
        r.done = false ∧ r.enc.current = phase_mapExpectKeyOrEnd) ∧
      (cur = phase_mapExpectKeyOrEnd →
        r.done = false ∧ r.enc.current = phase_mapExpectValue ∧ ∃ s, v = .str s) := by
  cases v with
  | arr _ => simp [Value.isLeaf, Value.isContainer] at hv
  | map _ => simp [Value.isLeaf, Value.isContainer] at hv
  | str s =>
    simp only [Value.tokens, List.cons.injEq, and_true] at ht
    subst ht
    cases cur <;> cases sm <;>
      simp [Encoder.Step, Encoder.flushValue, TokStr, Token.zero, Encoder.entrySep,
        Encoder.emitString, Encoder.Write] at hs <;>
      subst hs <;> simp at he ⊢
  | bool b =>
    simp only [Value.tokens, List.cons.injEq, and_true] at ht
    subst ht
    cases cur <;> cases sm <;> cases b <;>
      simp [Encoder.Step, Encoder.flushValue, TokBool, Token.zero, Encoder.entrySep,
        Encoder.emitString, Encoder.Write] at hs <;>
      subst hs <;> simp at he ⊢
  | int i =>
    simp only [Value.tokens, List.cons.injEq, and_true] at ht
    subst ht
    cases cur <;> cases sm <;>
      simp [Encoder.Step, Encoder.flushValue, TokInt, Token.zero, Encoder.entrySep,
        Encoder.emitString, Encoder.Write] at hs <;>
      subst hs <;> simp at he ⊢
  | null =>
    simp only [Value.tokens, List.cons.injEq, and_true] at ht
    subst ht
    cases cur <;> cases sm <;>
      simp [Encoder.Step, Encoder.flushValue, Token_Null, Token.zero, Encoder.entrySep,
        Encoder.emitString, Encoder.Write] at hs <;>
      subst hs <;> simp at he ⊢

theorem sim_leaf (v : Value) (hv : v.isLeaf = true) (t : Token) (ht : v.tokens = [t])
    (d : Encoder) (Z : List Frame) (r : StepResult) (hinv : Inv d Z)
    (hs : d.Step t = .ok r) (he : r.err = none) : StepSim Z t r := by
  rcases d with ⟨wr, stack, cur, sm⟩
  obtain ⟨h1, h2⟩ : stack = (Z.map Frame.stackPhase).reverse ∧ cur = framesCurrent Z :=
    ⟨hinv.1, hinv.2.1⟩
  subst h1; subst h2
  obtain ⟨hst, hany, harr, hval, hkey⟩ := leaf_step_facts v hv t ht _ _ _ _ r hs he
  cases Z with
  | nil =>
    have hd := hany rfl
    exact ⟨fun h => by rw [hd] at h; simp at h, fun _ => ⟨v, by simp [framesTokens, ht]⟩⟩
  | cons f Z0 =>
    have htail : ∀ g ∈ Z0, g.awaitsValue = true := fun g hg => hinv.2.2 g (by simpa using hg)
    cases f with
    | arrF items =>
      obtain ⟨hd, hcur⟩ := harr rfl
      refine ⟨fun _ => ⟨Frame.arrF (items ++ [v]) :: Z0, ⟨?_, ?_, ?_⟩, ?_⟩,
        fun h => by rw [hd] at h; simp at h⟩
      · rw [hst]; simp [Frame.stackPhase]
      · rw [hcur]; rfl
      · simpa using htail
      · simp [framesTokens, Frame.tokens, tokensItems_append, tokensItems, ht]
    | mapF entries key =>
      cases key with
      | none =>
        obtain ⟨hd, hcur, s, hv2⟩ := hkey rfl
        subst hv2
        simp only [Value.tokens, List.cons.injEq, and_true] at ht
        subst ht
        refine ⟨fun _ => ⟨Frame.mapF entries (Option.some s) :: Z0, ⟨?_, ?_, ?_⟩, ?_⟩,
          fun h => by rw [hd] at h; simp at h⟩
        · rw [hst]; simp [Frame.stackPhase]
        · rw [hcur]; rfl
        · simpa using htail
        · simp [framesTokens, Frame.tokens]
      | some k =>
        obtain ⟨hd, hcur⟩ := hval rfl
        refine ⟨fun _ => ⟨Frame.mapF (entries ++ [(k, v)]) none :: Z0, ⟨?_, ?_, ?_⟩, ?_⟩,
          fun h => by rw [hd] at h; simp at h⟩
        · rw [hst]; simp [Frame.stackPhase]
        · rw [hcur]; rfl
        · simpa using htail
        · simp [framesTokens, Frame.tokens, tokensEntries_append, tokensEntries, ht]

theorem step_sim (d : Encoder) (Z : List Frame) (t : Token) (r : StepResult) (hinv : Inv d Z)
    (hs : d.Step t = .ok r) (he : r.err = none) : StepSim Z t.canon r := by
  rw [← Step_canon] at hs
  cases hty : t.Typ with
  | TMapOpen =>
    have hc : t.canon = Token_MapOpen := by simp [Token.canon, hty, Token_MapOpen]
    rw [hc] at hs ⊢; exact sim_mapOpen d Z r hinv hs he
  | TMapClose =>
    have hc : t.canon = Token_MapClose := by simp [Token.canon, hty, Token_MapClose]
    rw [hc] at hs ⊢; exact sim_mapClose d Z r hinv hs he
  | TArrOpen =>
    have hc : t.canon = Token_ArrOpen := by simp [Token.canon, hty, Token_ArrOpen]
    rw [hc] at hs ⊢; exact sim_arrOpen d Z r hinv hs he
  | TArrClose =>
    have hc : t.canon = Token_ArrClose := by simp [Token.canon, hty, Token_ArrClose]
    rw [hc] at hs ⊢; exact sim_arrClose d Z r hinv hs he
  | TNull =>
    exact sim_leaf .null rfl t.canon (by simp [Value.tokens, Token.canon, hty, Token_Null])
      d Z r hinv hs he
  | TString =>
    exact sim_leaf (.str t.Str) rfl t.canon (by simp [Value.tokens, Token.canon, hty, TokStr])
      d Z r hinv hs he
  | TBool =>
    exact sim_leaf (.bool t.Bool) rfl t.canon
      (by simp [Value.tokens, Token.canon, hty, TokBool]) d Z r hinv hs he
  | TInt =>
    exact sim_leaf (.int t.Int) rfl t.canon (by simp [Value.tokens, Token.canon, hty, TokInt])
      d Z r hinv hs he
  | TBytes =>
    rcases d with ⟨wr, stack, cur, sm⟩
    cases cur <;>
      simp [Encoder.Step, Encoder.flushValue, Token.canon, hty, Token.zero] at hs
    subst hs; simp at he
  | TUint =>
    rcases d with ⟨wr, stack, cur, sm⟩
    cases cur <;>
      simp [Encoder.Step, Encoder.flushValue, Token.canon, hty, Token.zero] at hs
    subst hs; simp at he
  | TFloat64 =>
    rcases d with ⟨wr, stack, cur, sm⟩
    cases cur <;>
      simp [Encoder.Step, Encoder.flushValue, Token.canon, hty, Token.zero] at hs
    subst hs; simp at he

theorem runSteps_length (toks : List Token) :
    ∀ (d d2 : Encoder) (rs : List (Bool × Option String)),
      runSteps d toks = .ok (d2, rs) → rs.length = toks.length := by
  induction toks with
  | nil =>
    intro d d2 rs h
    simp only [runSteps, Except.ok.injEq, Prod.mk.injEq] at h
    rw [← h.2]
    rfl
  | cons t rest ih =>
    intro d d2 rs h
    simp only [runSteps] at h
    cases hs : d.Step t with
    | error msg => simp [hs] at h
    | ok r =>
      simp only [hs] at h
      cases hr : runSteps r.enc rest with
      | error msg => simp [hr] at h
      | ok p =>
        obtain ⟨d3, r3⟩ := p
        simp only [hr, Except.ok.injEq, Prod.mk.injEq] at h
        rw [← h.2]
        simp [ih r.enc d3 r3 hr]

theorem doneExactlyAtEnd_single (r : Bool × Option String) :
    doneExactlyAtEnd [r] ↔ r = (true, none) := by
  obtain ⟨b, e⟩ := r
  simp [doneExactlyAtEnd]
  tauto

theorem doneExactlyAtEnd_cons (r r2 : Bool × Option String) (rs : List (Bool × Option String)) :
    doneExactlyAtEnd (r :: r2 :: rs) ↔ r = (false, none) ∧ doneExactlyAtEnd (r2 :: rs) := by
  obtain ⟨b, e⟩ := r
  simp only [doneExactlyAtEnd, List.dropLast_cons₂, List.getLast?_cons_cons, List.mem_cons,
    forall_eq_or_imp, Prod.mk.injEq, ne_eq, reduceCtorEq, not_false_eq_true, true_and]
  tauto

theorem doneExactlyAtEnd_replicate (n : Nat) :
    doneExactlyAtEnd (List.replicate n (false, none) ++ [(true, none)]) := by
  induction n with
  | zero => exact (doneExactlyAtEnd_single _).mpr rfl
  | succ n ih =>
    cases n with
    | zero => exact (doneExactlyAtEnd_cons _ _ _).mpr ⟨rfl, ih⟩
    | succ m =>
      rw [List.replicate_succ, List.cons_append, List.replicate_succ, List.cons_append]
      rw [List.replicate_succ, List.cons_append] at ih
      exact (doneExactlyAtEnd_cons _ _ _).mpr ⟨rfl, ih⟩

theorem accepted_reads_value (toks : List Token) :
    ∀ (d : Encoder) (Z : List Frame) (d2 : Encoder) (rs : List (Bool × Option String)),
      Inv d Z → runSteps d toks = .ok (d2, rs) → doneExactlyAtEnd rs →
      ∃ v : Value, v.tokens = framesTokens Z ++ toks.map Token.canon := by
  induction toks with
  | nil =>
    intro d Z d2 rs _ h hacc
    simp only [runSteps, Except.ok.injEq, Prod.mk.injEq] at h
    rw [← h.2] at hacc
    exact absurd rfl hacc.1
  | cons t rest ih =>
    intro d Z d2 rs hinv h hacc
    simp only [runSteps] at h
    cases hs : d.Step t with
    | error msg => simp [hs] at h
    | ok r =>
      simp only [hs] at h
      cases hr : runSteps r.enc rest with
      | error msg => simp [hr] at h
      | ok p =>
        obtain ⟨d3, r3⟩ := p
        simp only [hr, Except.ok.injEq, Prod.mk.injEq] at h
        obtain ⟨_, hrs⟩ := h
        subst hrs
        have hlen := runSteps_length rest r.enc d3 r3 hr
        cases rest with
        | nil =>
          have h3 : r3 = [] := List.length_eq_zero.mp (by simpa using hlen)
          subst h3
          have hp := (doneExactlyAtEnd_single _).mp hacc
          simp only [Prod.mk.injEq] at hp
          obtain ⟨v, hv⟩ := (step_sim d Z t r hinv hs hp.2).2 hp.1
          exact ⟨v, by simpa using hv⟩
        | cons t2 rest2 =>
          cases r3 with
          | nil => simp at hlen
          | cons q r4 =>
            have hp := (doneExactlyAtEnd_cons _ _ _).mp hacc
            obtain ⟨hp1, hp2⟩ := hp
            simp only [Prod.mk.injEq] at hp1
            obtain ⟨Z2, hinv2, htok⟩ := (step_sim d Z t r hinv hs hp1.2).1 hp1.1
            obtain ⟨v, hv⟩ := ih r.enc Z2 d3 (q :: r4) hinv2 hr hp2
            exact ⟨v, by rw [hv, htok]; simp⟩

theorem inv_new : Inv NewEncoder [] := by
  refine ⟨rfl, rfl, ?_⟩
  intro g hg
  simp at hg

/-- C2: for every finite token sequence fed to `Encoder.Step` on a fresh encoder, the run
does not panic, every step returns a nil error and `done` is false on every step but the
last and true on the last, if and only if the sequence is a well-formed stream for
exactly one top-level value (brackets balance and nest by kind, every map key is a String
token, every key is followed by a value). -/
theorem encoder_done_iff_wellformed (toks : List Token) :
    (∃ (d : Encoder) (rs : List (Bool × Option String)),
        runSteps NewEncoder toks = .ok (d, rs) ∧ doneExactlyAtEnd rs) ↔
      WellFormed toks := by
  constructor
  · rintro ⟨d, rs, hrun, hacc⟩
    obtain ⟨v, hv⟩ := accepted_reads_value toks NewEncoder [] d rs inv_new hrun hacc
    exact ⟨v, by simpa [framesTokens] using hv.symm⟩
  · rintro ⟨v, hv⟩
    obtain ⟨d2, hrun, _⟩ := top_run v
    refine ⟨d2, _, ?_, doneExactlyAtEnd_replicate (v.tokens.length - 1)⟩
    rw [← runSteps_canon, hv]
    exact hrun

/-! ### Separators inside one container -/

mutual
theorem value_depth : (v : Value) → (d : Nat) → (rest : List Out) →
    depthAfter d (v.events ++ rest) = depthAfter d rest
  | .str s, d, rest => by simp [Value.events, depthAfter]
  | .bool true, d, rest => by simp [Value.events, depthAfter]
  | .bool false, d, rest => by simp [Value.events, depthAfter]
  | .int i, d, rest => by simp [Value.events, depthAfter]
  | .null, d, rest => by simp [Value.events, depthAfter]
  | .arr items, d, rest => by
    have h := items_depth items false (d + 1) (.wordArrClose :: rest)
    simp [Value.events, depthAfter, h]
  | .map entries, d, rest => by
    have h := entries_depth entries false (d + 1) (.wordMapClose :: rest)
    simp [Value.events, depthAfter, h]
theorem items_depth : (items : List Value) → (sm : Bool) → (d : Nat) → (rest : List Out) →
    depthAfter d (eventsItems sm items ++ rest) = depthAfter d rest
  | [], sm, d, rest => by simp [eventsItems]
  | v :: more, sm, d, rest => by
    have h1 := value_depth v d (eventsItems true more ++ rest)
    have h2 := items_depth more true d rest
    cases sm <;> simp [eventsItems, depthAfter, h1, h2]
theorem entries_depth : (entries : List (String × Value)) → (sm : Bool) → (d : Nat) →
    (rest : List Out) →
    depthAfter d (eventsEntries sm entries ++ rest) = depthAfter d rest
  | [], sm, d, rest => by simp [eventsEntries]
  | (k, v) :: more, sm, d, rest => by
    have h1 := value_depth v d (eventsEntries true more ++ rest)
    have h2 := entries_depth more true d rest
    cases sm <;> simp [eventsEntries, depthAfter, h1, h2]
end

mutual
theorem value_commas : (v : Value) → (d : Nat) → (rest : List Out) →
    commasAtLevel d (v.events ++ rest) = commasAtLevel d rest
  | .str s, d, rest => by simp [Value.events, commasAtLevel]
  | .bool true, d, rest => by simp [Value.events, commasAtLevel]
  | .bool false, d, rest => by simp [Value.events, commasAtLevel]
  | .int i, d, rest => by simp [Value.events, commasAtLevel]
  | .null, d, rest => by simp [Value.events, commasAtLevel]
  | .arr items, d, rest => by
    have h := items_commas_deep items false d (.wordArrClose :: rest)
    simp [Value.events, commasAtLevel, h]
  | .map entries, d, rest => by
    have h := entries_commas_deep entries false d (.wordMapClose :: rest)
    simp [Value.events, commasAtLevel, h]
theorem items_commas_deep : (items : List Value) → (sm : Bool) → (d : Nat) →
    (rest : List Out) →
    commasAtLevel (d + 1) (eventsItems sm items ++ rest) = commasAtLevel (d + 1) rest
  | [], sm, d, rest => by simp [eventsItems]
  | v :: more, sm, d, rest => by
    have h1 := value_commas v (d + 1) (eventsItems true more ++ rest)
    have h2 := items_commas_deep more true d rest
    cases sm <;> simp [eventsItems, commasAtLevel, h1, h2]
theorem entries_commas_deep : (entries : List (String × Value)) → (sm : Bool) → (d : Nat) →
    (rest : List Out) →
    commasAtLevel (d + 1) (eventsEntries sm entries ++ rest) = commasAtLevel (d + 1) rest
  | [], sm, d, rest => by simp [eventsEntries]
  | (k, v) :: more, sm, d, rest => by
    have h1 := value_commas v (d + 1) (eventsEntries true more ++ rest)
    have h2 := entries_commas_deep more true d rest
    cases sm <;> simp [eventsEntries, commasAtLevel, h1, h2]
end

theorem items_commas_top (items : List Value) :
    ∀ sm : Bool, commasAtLevel 0 (eventsItems sm items) =
      if sm then items.length else items.length - 1 := by
  induction items with
  | nil => intro sm; cases sm <;> simp [eventsItems, commasAtLevel]
  | cons v more ih =>
    intro sm
    have h1 := value_commas v 0 (eventsItems true more)
    have h2 := ih true
    cases sm <;> simp [eventsItems, commasAtLevel, h1, h2]
    omega

theorem entries_commas_top (entries : List (String × Value)) :
    ∀ sm : Bool, commasAtLevel 0 (eventsEntries sm entries) =
      if sm then entries.length else entries.length - 1 := by
  induction entries with
  | nil => intro sm; cases sm <;> simp [eventsEntries, commasAtLevel]
  | cons e more ih =>
    intro sm
    obtain ⟨k, v⟩ := e
    have h1 := value_commas v 0 (eventsEntries true more)
    have h2 := ih true
    cases sm <;> simp [eventsEntries, commasAtLevel, h1, h2]
    omega

/-- C3: for every container (map or array, its entries being leaves or nested containers)
whose token stream is fed to `Encoder.Step` in any state in which a value may start,
no step panics or reports an error, and the words written are the separator of the
enclosing container, the open bracket, a run `inner` of words, and the close bracket,
where `inner` is bracket-balanced and holds, at the nesting level of the container
itself, `entryCount - 1` separator commas when the container has at least one entry and
none when it is empty. -/
theorem container_separator_count (c : Value) (d : Encoder) (toks : List Token)
    (hc : c.isContainer = true) (hd : d.expectsValue = true)
    (h : toks.map Token.canon = c.tokens) :
    ∃ (d2 : Encoder) (rs : List (Bool × Option String)) (inner : List Out),
      runSteps d toks = .ok (d2, rs) ∧ (∀ r ∈ rs, r.2 = none) ∧
      d2.wr = d.wr ++ d.sepBefore ++ [c.openWord] ++ inner ++ [c.closeWord] ∧
      depthAfter 0 inner = Option.some 0 ∧
      commasAtLevel 0 inner = if 1 ≤ c.entryCount then c.entryCount - 1 else 0 := by
  rcases d with ⟨wr, S, cur, sm⟩
  have hexp : cur = phase_anyExpectValue ∨ cur = phase_mapExpectValue ∨
      cur = phase_arrExpectValueOrEnd := by
    simpa [Encoder.expectsValue] using hd
  obtain ⟨d2, hrun, hwr, _⟩ := container_run c hc wr S cur sm hexp
  rw [← runSteps_canon, h]
  have herr : ∀ r ∈ List.replicate (c.tokens.length - 1) ((false, none) : Bool × Option String)
      ++ [(S.isEmpty, none)], r.2 = none := by
    intro r hr
    rcases List.mem_append.mp hr with h1 | h1
    · rw [(List.mem_replicate.mp h1).2]
    · rw [List.mem_singleton.mp h1]
  cases c with
  | arr items =>
    refine ⟨d2, _, eventsItems false items, hrun, herr, ?_, ?_, ?_⟩
    · rw [hwr]; simp [Value.events, Value.openWord, Value.closeWord, Encoder.sepBefore]
    · simpa using items_depth items false 0 []
    · rw [items_commas_top items false]
      simp only [Value.entryCount, Bool.false_eq_true, if_false]
      by_cases hl : 1 ≤ items.length
      · simp [hl]
      · simp only [hl, if_false]; omega
  | map entries =>
    refine ⟨d2, _, eventsEntries false entries, hrun, herr, ?_, ?_, ?_⟩
    · rw [hwr]; simp [Value.events, Value.openWord, Value.closeWord, Encoder.sepBefore]
    · simpa using entries_depth entries false 0 []
    · rw [entries_commas_top entries false]
      simp only [Value.entryCount, Bool.false_eq_true, if_false]
      by_cases hl : 1 ≤ entries.length
      · simp [hl]
      · simp only [hl, if_false]; omega
  | _ => simp [Value.isContainer] at hc

/-- The array `[1,[2,3],{"k":null}]` as second entry of an open array: one comma before
it, two commas at its own level. -/
theorem container_separator_count_witness :
    ∃ (d2 : Encoder) (rs : List (Bool × Option String)) (inner : List Out),
      runSteps ⟨[.wordArrOpen, .wordNull], [phase_arrExpectValueOrEnd],
          phase_arrExpectValueOrEnd, true⟩
          [Token_ArrOpen, TokInt 1, Token_ArrOpen, TokInt 2, TokInt 3, Token_ArrClose,
            Token_MapOpen, TokStr "k", Token_Null, Token_MapClose, Token_ArrClose] =
        .ok (d2, rs) ∧ (∀ r ∈ rs, r.2 = none) ∧
      d2.wr = [.wordArrOpen, .wordNull] ++ [.wordComma] ++ [.wordArrOpen] ++ inner ++
        [.wordArrClose] ∧
      depthAfter 0 inner = Option.some 0 ∧
      commasAtLevel 0 inner = 2 :=
  container_separator_count
    (.arr [.int 1, .arr [.int 2, .int 3], .map [("k", .null)]])
    ⟨[.wordArrOpen, .wordNull], [phase_arrExpectValueOrEnd], phase_arrExpectValueOrEnd, true⟩
    [Token_ArrOpen, TokInt 1, Token_ArrOpen, TokInt 2, TokInt 3, Token_ArrClose,
      Token_MapOpen, TokStr "k", Token_Null, Token_MapClose, Token_ArrClose]
    rfl rfl (by decide)

/-! ### Reset -/

theorem popPhase_addPrefix (wr0 : List Out) (d : Encoder) :
    (d.addPrefix wr0).popPhase =
      match d.popPhase with
      | .error e => .error e
      | .ok r => .ok ⟨r.enc.addPrefix wr0, r.done, r.err⟩ := by
  rcases d with ⟨wr, stack, cur, sm⟩
  simp only [Encoder.popPhase, Encoder.addPrefix]
  split
  · rfl
  · split
    · rfl
    · split <;> rfl

theorem Step_addPrefix (wr0 : List Out) (d : Encoder) (tok : Token) :
    (d.addPrefix wr0).Step tok =
      match d.Step tok with
      | .error e => .error e
      | .ok r => .ok ⟨r.enc.addPrefix wr0, r.done, r.err⟩ := by
  have hpop := fun w => popPhase_addPrefix wr0 (d.Write w)
  rcases d with ⟨wr, stack, cur, sm⟩
  cases cur <;> cases hty : tok.Typ <;> cases sm <;> cases hb : tok.Bool <;>
    first
    | (simp [Encoder.Step, Encoder.addPrefix, Encoder.flushValue, Encoder.entrySep,
        Encoder.pushPhase, Encoder.emitString, Encoder.Write, hty, hb]; done)
    | (have h := hpop .wordMapClose
       simp only [Encoder.Step, hty]
       simpa [Encoder.addPrefix, Encoder.Write] using h)
    | (have h := hpop .wordArrClose
       simp only [Encoder.Step, hty]
       simpa [Encoder.addPrefix, Encoder.Write] using h)

theorem runSteps_addPrefix (wr0 : List Out) (toks : List Token) :
    ∀ d : Encoder, runSteps (d.addPrefix wr0) toks =
      match runSteps d toks with
      | .error e => .error e
      | .ok (d2, rs) => .ok (d2.addPrefix wr0, rs) := by
  induction toks with
  | nil => intro d; rfl
  | cons t rest ih =>
    intro d
    simp only [runSteps, Step_addPrefix]
    cases hs : d.Step t with
    | error e => rfl
    | ok r =>
      simp only [ih]
      cases hr : runSteps r.enc rest with
      | error e => rfl
      | ok p => rfl

/-- C15: for every encoder state (reachable or not, finished, unfinished or after an
error), `Reset` leaves the encoder with an empty phase stack, current phase AnyValue and
the separator flag false, and every token sequence stepped afterwards behaves as on a
newly constructed encoder: it panics exactly when it does there, and else the
`(done, error)` results are the same and what is written after the reset (words and
bytes) is what the new encoder writes. -/
theorem reset_behaves_as_new (d : Encoder) (toks : List Token) :
    d.Reset.stack = [] ∧ d.Reset.current = phase_anyExpectValue ∧ d.Reset.some = false ∧
      match runSteps NewEncoder toks with
      | .error e => runSteps d.Reset toks = .error e
      | .ok (d2, rs) =>
        ∃ d3 : Encoder, runSteps d.Reset toks = .ok (d3, rs) ∧ d3.wr = d.wr ++ d2.wr ∧
          outBytes d3.wr = outBytes d.wr ++ outBytes d2.wr := by
  have hreset : d.Reset = NewEncoder.addPrefix d.wr := by
    simp [Encoder.Reset, NewEncoder, Encoder.addPrefix]
  refine ⟨by simp [Encoder.Reset], rfl, rfl, ?_⟩
  rw [hreset, runSteps_addPrefix]
  cases hr : runSteps NewEncoder toks with
  | error e => rfl
  | ok p =>
    obtain ⟨d2, rs⟩ := p
    exact ⟨d2.addPrefix d.wr, rfl, rfl, by simp [Encoder.addPrefix, outBytes]⟩

/-- C16 fails in the code: on a fresh encoder, in phase AnyValue, the leaf token Uint(7)
is not written and `Step` does not return `done = true`: `flushValue` has no case for the
tag and panics in its default branch (`TODO finish more jsonEncoder primitives
support`). -/
theorem anyValue_uint_leaf_panics :
    NewEncoder.Step { Token.zero .TUint with Uint := 7 } =
      .error "TODO finish more jsonEncoder primitives support: unhandled token" := by
  rfl

/-- What `Step` does in phase AnyValue, tag by tag: an open bracket pushes MapKeyOrEnd
(map) or ArrayValueOrEnd (array), writes the bracket and returns `(false, nil)`; a close
bracket returns `done = true` with an error and changes nothing; a leaf of tag String,
Bool, Int or Null is written and `Step` returns `done = true` with no error.  These parts
of C16 hold.  For a leaf of tag Bytes, Uint or Float64 `flushValue` has no encoding yet
and reaches its default branch. -/
theorem anyValue_step (d : Encoder) (tok : Token) (h : d.current = phase_anyExpectValue) :
    (tok.Typ = .TMapOpen → d.Step tok =
        .ok ⟨{ wr := d.wr ++ [.wordMapOpen], stack := d.stack ++ [phase_mapExpectKeyOrEnd],
               current := phase_mapExpectKeyOrEnd, some := false }, false, none⟩) ∧
      (tok.Typ = .TArrOpen → d.Step tok =
        .ok ⟨{ wr := d.wr ++ [.wordArrOpen], stack := d.stack ++ [phase_arrExpectValueOrEnd],
               current := phase_arrExpectValueOrEnd, some := false }, false, none⟩) ∧
      (tok.Typ = .TMapClose ∨ tok.Typ = .TArrClose →
        ∃ msg : String, d.Step tok = .ok ⟨d, true, Option.some msg⟩) ∧
      (tok.Typ = .TString ∨ tok.Typ = .TBool ∨ tok.Typ = .TInt ∨ tok.Typ = .TNull →
        d.Step tok =
          .ok ⟨{ d with wr := d.wr ++ (leafValue tok).events }, true, none⟩) ∧
      (tok.Typ = .TBytes ∨ tok.Typ = .TUint ∨ tok.Typ = .TFloat64 →
        ∃ msg : String, d.Step tok = .error msg) := by
  rcases d with ⟨wr, stack, cur, sm⟩
  simp only at h
  subst h
  cases hty : tok.Typ <;> cases hb : tok.Bool <;>
    simp [Encoder.Step, Encoder.flushValue, Encoder.pushPhase, Encoder.emitString,
      Encoder.Write, leafValue, Value.events, hty, hb]

/-- On a fresh encoder a Bool leaf is written as the word `true`, and the stream is
done. -/
theorem anyValue_step_witness :
    NewEncoder.Step (TokBool true) =
      .ok ⟨{ NewEncoder with wr := [.wordTrue] }, true, none⟩ :=
  (anyValue_step NewEncoder (TokBool true) rfl).2.2.2.1 (Or.inr (Or.inl rfl))

/-- C20: `Step` returns a non-nil error exactly in these cases: phase AnyValue or
MapValue with a MapClose or ArrClose token; phase MapKeyOrEnd with any token other than
MapClose or String; phase ArrayValueOrEnd with MapClose.  In each of them it returns
`done = true` and the encoder as it was: nothing is written and the phase stack, the
current phase and the separator flag are unchanged.  In every other case a step that
returns reports no error. -/
theorem step_error_cases (d : Encoder) (tok : Token) :
    (isErrorCase d.current tok.Typ = true →
        ∃ msg : String, d.Step tok = .ok ⟨d, true, Option.some msg⟩) ∧
      (isErrorCase d.current tok.Typ = false →
        ∀ r : StepResult, d.Step tok = .ok r → r.err = none) := by
  rcases d with ⟨wr, stack, cur, sm⟩
  constructor
  · intro h
    cases cur <;> cases hty : tok.Typ <;>
      simp [isErrorCase, hty] at h <;>
      simp [Encoder.Step, hty]
  · intro h r hr
    cases cur <;> cases hty : tok.Typ <;>
      simp [isErrorCase, hty] at h <;>
      simp only [Encoder.Step, hty] at hr
    all_goals
      first
      | (simp only [Except.ok.injEq] at hr; rw [← hr])
      | (split at hr
         · simp at hr
         · simp only [Except.ok.injEq] at hr; rw [← hr])
      | (simp only [Encoder.popPhase] at hr
         split at hr
         · simp only [Except.ok.injEq] at hr; rw [← hr]
         · split at hr
           · simp at hr
           · split at hr
             · simp at hr
             · simp only [Except.ok.injEq] at hr; rw [← hr])

/-- An open bracket where a map key is expected: an error, and the encoder is as it
was. -/
theorem step_error_cases_witness :
    ∃ msg : String,
      Encoder.Step ⟨[.wordMapOpen], [phase_mapExpectKeyOrEnd], phase_mapExpectKeyOrEnd, false⟩
          Token_ArrOpen =
        .ok ⟨⟨[.wordMapOpen], [phase_mapExpectKeyOrEnd], phase_mapExpectKeyOrEnd, false⟩, true,
          Option.some msg⟩ :=
  (step_error_cases ⟨[.wordMapOpen], [phase_mapExpectKeyOrEnd], phase_mapExpectKeyOrEnd, false⟩
    Token_ArrOpen).1 rfl

/-! ### The phase stack after any run -/

/-- C21, the code at the failing input: on a stack of one entry `popPhase` returns true
and pops nothing, and after the `Step` that closes the outermost container returns
`done = true` the stack still holds the phase of that container, for every array and
every map. -/
theorem popPhase_true_keeps_last_entry :
    (∀ (wr : List Out) (p cur : phase) (sm : Bool),
        Encoder.popPhase ⟨wr, [p], cur, sm⟩ = .ok ⟨⟨wr, [p], cur, sm⟩, true, none⟩) ∧
      (∀ items : List Value, ∃ (d : Encoder) (rs : List (Bool × Option String)),
        runSteps NewEncoder (Value.arr items).tokens = .ok (d, rs) ∧ doneExactlyAtEnd rs ∧
          d.stack = [phase_arrExpectValueOrEnd]) ∧
      (∀ entries : List (String × Value),
        ∃ (d : Encoder) (rs : List (Bool × Option String)),
          runSteps NewEncoder (Value.map entries).tokens = .ok (d, rs) ∧
            doneExactlyAtEnd rs ∧ d.stack = [phase_mapExpectKeyOrEnd]) := by
  refine ⟨fun wr p cur sm => popPhase_single _ p rfl, ?_, ?_⟩
  · intro items
    have hopen := step_arrOpen [] [] phase_anyExpectValue false (Or.inl rfl)
    have hbody := items_run items ([] ++ sepOf phase_anyExpectValue false ++ [.wordArrOpen])
      [] false
    have hclose := step_arrClose_top
      ([] ++ sepOf phase_anyExpectValue false ++ [.wordArrOpen] ++ eventsItems false items)
      (false || !items.isEmpty)
    have hrun := runSteps_cons_ok _ _ _ _ _ _ hopen
      (runSteps_append_ok _ [Token_ArrClose] _ _ _ _ _ hbody
        (runSteps_cons_ok _ _ [] _ _ _ hclose rfl))
    refine ⟨_, _, hrun, ?_, rfl⟩
    have h := doneExactlyAtEnd_replicate ((tokensItems items).length + 1)
    simpa [List.replicate_succ] using h
  · intro entries
    have hopen := step_mapOpen [] [] phase_anyExpectValue false (Or.inl rfl)
    have hbody := entries_run entries
      ([] ++ sepOf phase_anyExpectValue false ++ [.wordMapOpen]) [] false
    have hclose := step_mapClose_top
      ([] ++ sepOf phase_anyExpectValue false ++ [.wordMapOpen] ++
        eventsEntries false entries)
      (false || !entries.isEmpty)
    have hrun := runSteps_cons_ok _ _ _ _ _ _ hopen
      (runSteps_append_ok _ [Token_MapClose] _ _ _ _ _ hbody
        (runSteps_cons_ok _ _ [] _ _ _ hclose rfl))
    refine ⟨_, _, hrun, ?_, rfl⟩
    have h := doneExactlyAtEnd_replicate ((tokensEntries entries).length + 1)
    simpa [List.replicate_succ] using h

theorem popPhase_stackInv (d : Encoder) (hne : d.stack ≠ [])
    (hent : ∀ p ∈ d.stack, p = phase_mapExpectKeyOrEnd ∨ p = phase_arrExpectValueOrEnd) :
    ∃ r : StepResult, d.popPhase = .ok r ∧ stackInv r.enc := by
  rcases List.eq_nil_or_concat d.stack with h | ⟨S1, q, h⟩
  · exact absurd h hne
  · rw [List.concat_eq_append] at h
    rcases List.eq_nil_or_concat S1 with h1 | ⟨S2, p, h1⟩
    · subst h1
      refine ⟨_, popPhase_single d q (by simpa using h), ?_⟩
      exact ⟨fun _ => hne, hent⟩
    · rw [List.concat_eq_append] at h1
      subst h1
      refine ⟨_, popPhase_nested d S2 p q h, ?_⟩
      constructor
      · intro _; simp
      · intro x hx
        exact hent x (by rw [h]; simp only [List.mem_append] at hx ⊢; exact Or.inl hx)

theorem write_stackInv (d : Encoder) (w : Out) (h : stackInv d) : stackInv (d.Write w) := h

theorem step_stackInv (d : Encoder) (tok : Token) (hinv : stackInv d)
    (htok : bracketOrPlainLeaf tok) :
    ∃ r : StepResult, d.Step tok = .ok r ∧ stackInv r.enc := by
  obtain ⟨hb1, hb2, hb3⟩ := htok
  have hpop : ∀ w : Out, d.current ≠ phase_anyExpectValue →
      ∃ r : StepResult, (d.Write w).popPhase = .ok r ∧ stackInv r.enc := fun w hc =>
    popPhase_stackInv (d.Write w) (hinv.1 hc) hinv.2
  rcases d with ⟨wr, stack, cur, sm⟩
  obtain ⟨hne, hent⟩ := hinv
  simp only at hne hent
  have hpush : ∀ (wr2 : List Out) (p : phase) (sm2 : Bool),
      p = phase_mapExpectKeyOrEnd ∨ p = phase_arrExpectValueOrEnd →
      stackInv ⟨wr2, stack ++ [p], p, sm2⟩ := by
    intro wr2 p sm2 hp
    refine ⟨fun _ => by simp, ?_⟩
    intro x hx
    rcases List.mem_append.mp hx with h | h
    · exact hent x h
    · rw [List.mem_singleton.mp h]; exact hp
  have hsame : ∀ (wr2 : List Out) (c : phase) (sm2 : Bool), stack ≠ [] →
      stackInv ⟨wr2, stack, c, sm2⟩ := fun _ _ _ h => ⟨fun _ => h, hent⟩
  have hany : ∀ (wr2 : List Out) (sm2 : Bool),
      stackInv ⟨wr2, stack, phase_anyExpectValue, sm2⟩ := fun _ _ =>
    ⟨fun h => absurd rfl h, hent⟩
  cases cur <;> cases hty : tok.Typ <;> cases hb : tok.Bool <;> cases sm <;>
    first
    | exact absurd hty hb1
    | exact absurd hty hb2
    | exact absurd hty hb3
    | (have hp := hpop .wordMapClose (by simp)
       simpa [Encoder.Step, hty] using hp)
    | (have hp := hpop .wordArrClose (by simp)
       simpa [Encoder.Step, hty] using hp)
    | (simp only [Encoder.Step, hty, Encoder.flushValue, Encoder.entrySep,
        Encoder.pushPhase, Encoder.emitString, Encoder.Write, hb]
       first
       | exact ⟨_, rfl, hany _ _⟩
       | exact ⟨_, rfl, hpush _ _ _ (Or.inl rfl)⟩
       | exact ⟨_, rfl, hpush _ _ _ (Or.inr rfl)⟩
       | exact ⟨_, rfl, hsame _ _ _ (hne (by simp))⟩)

theorem run_stackInv (toks : List Token) :
    ∀ d : Encoder, stackInv d → (∀ t ∈ toks, bracketOrPlainLeaf t) →
      ∃ (d2 : Encoder) (rs : List (Bool × Option String)),
        runSteps d toks = .ok (d2, rs) ∧ stackInv d2 := by
  induction toks with
  | nil => intro d h _; exact ⟨d, [], rfl, h⟩
  | cons t rest ih =>
    intro d h hall
    obtain ⟨r, hs, hr⟩ := step_stackInv d t h (hall t (by simp))
    obtain ⟨d2, rs, hrun, hinv⟩ := ih r.enc hr (fun x hx => hall x (by simp [hx]))
    exact ⟨d2, (r.done, r.err) :: rs, by simp [runSteps, hs, hrun], hinv⟩

theorem stackInv_reset (d0 : Encoder) : stackInv d0.Reset :=
  ⟨fun h => absurd rfl h, by simp [Encoder.Reset]⟩

/-- C22: for every finite sequence of brackets and String, Bool, Int and Null leaves, in
any order, well-formed or not, stepped into a fresh encoder or into any encoder after
`Reset`, and for every prefix of it, the run does not panic (errors and `done` do not
stop it), and after it the phase stack is not empty whenever the current phase is not
AnyValue and holds only MapKeyOrEnd and ArrayValueOrEnd entries.  The current phase is
one of the four phase constants by its type, so `popPhase` is never called on an empty
stack and `Step` always finds its phase. -/
theorem stack_invariant_no_panic (d0 : Encoder) (toks : List Token) (k : Nat)
    (h : ∀ t ∈ toks, bracketOrPlainLeaf t) :
    (∃ (d : Encoder) (rs : List (Bool × Option String)),
        runSteps NewEncoder (toks.take k) = .ok (d, rs) ∧ stackInv d) ∧
      (∃ (d : Encoder) (rs : List (Bool × Option String)),
        runSteps d0.Reset (toks.take k) = .ok (d, rs) ∧ stackInv d) := by
  have hk : ∀ t ∈ toks.take k, bracketOrPlainLeaf t := fun t ht =>
    h t (List.mem_of_mem_take ht)
  exact ⟨run_stackInv _ NewEncoder (stackInv_reset NewEncoder) hk,
    run_stackInv _ d0.Reset (stackInv_reset d0) hk⟩

/-- A sequence that is not well-formed and goes on after errors and after `done`: no
step panics and the stack keeps its shape. -/
theorem stack_invariant_no_panic_witness :
    (∃ (d : Encoder) (rs : List (Bool × Option String)),
        runSteps NewEncoder
            ([Token_MapClose, Token_ArrOpen, Token_ArrClose, Token_ArrClose, Token_MapOpen,
              TokInt 1, TokStr "k", Token_MapClose, Token_Null].take 9) = .ok (d, rs) ∧
          stackInv d) ∧
      (∃ (d : Encoder) (rs : List (Bool × Option String)),
        runSteps (Encoder.Reset ⟨[.wordArrOpen], [phase_arrExpectValueOrEnd],
              phase_arrExpectValueOrEnd, false⟩)
            ([Token_MapClose, Token_ArrOpen, Token_ArrClose, Token_ArrClose, Token_MapOpen,
              TokInt 1, TokStr "k", Token_MapClose, Token_Null].take 9) = .ok (d, rs) ∧
          stackInv d) :=
  stack_invariant_no_panic
    ⟨[.wordArrOpen], [phase_arrExpectValueOrEnd], phase_arrExpectValueOrEnd, false⟩
    [Token_MapClose, Token_ArrOpen, Token_ArrClose, Token_ArrClose, Token_MapOpen,
      TokInt 1, TokStr "k", Token_MapClose, Token_Null] 9
    (fun t ht => by
      simp only [List.mem_cons, List.mem_singleton, List.not_mem_nil, or_false] at ht
      rcases ht with h | h | h | h | h | h | h | h | h <;> subst h <;>
        exact ⟨by decide, by decide, by decide⟩)

end json

/-! ## The builtin machines -/

namespace obj
open tok reflect

/-! ### The pointer-deref delegates -/

/-- C6: for every pointer target (nil or not, whatever the indirection depth), when a
token of type Null is stepped into the delegate, `Step` sets the top pointer to nil and
returns `done = true` with no error; the machine is returned as it was, so no call on
the wrapped machine is recorded and its state is untouched, whatever the wrapped machine
is. -/
theorem ptrDeref_unmarshal_null {σ : Type} (M : UnmarshalMachine σ)
    (mach : ptrDerefDelegateUnmarshalMachine σ) (m : Mem) (tok : Token) (a : Addr)
    (e : RType) (p : Option Addr)
    (htok : tok.Typ = .TNull) (hrv : mach.ptr_rv = .addr a)
    (hm : m.get? a = some (.ptr e p)) :
    mach.Step M m tok = .ok (mach, m.set a (.ptr e none), true, none) := by
  have hm2 : m[a]? = some (.ptr e p) := by simpa using hm
  simp [ptrDerefDelegateUnmarshalMachine.Step, htok, hrv, Ref.Typ, Ref.get, hm2, Ref.Set,
    Ref.update, Value.Typ, reflect.Zero]

/-- A pointer to a pointer to an int that holds 4 becomes nil; the wrapped machine, whose
every call panics, is not called. -/
theorem ptrDeref_unmarshal_null_witness :
    ptrDerefDelegateUnmarshalMachine.Step panicUnmarshalMachine
        ⟨(), 2, .addr 0, true, []⟩
        [.ptr (.ptr (.basic .Int)) (some 1), .ptr (.basic .Int) (some 2), .int .Int 4]
        Token_Null =
      .ok (⟨(), 2, .addr 0, true, []⟩,
        [.ptr (.ptr (.basic .Int)) none, .ptr (.basic .Int) (some 2), .int .Int 4],
        true, none) :=
  ptrDeref_unmarshal_null panicUnmarshalMachine ⟨(), 2, .addr 0, true, []⟩ _ Token_Null 0
    (.ptr (.basic .Int)) (some 1) rfl rfl rfl

/-- C4, the code at the failing input: for every indirection depth `n + 1` and every
wrapped machine, `Reset` on a pointer that is itself nil does not return: `rv.Elem()`
yields the zero `Value` and the following `rv.IsNil()` panics. -/
theorem ptrDeref_marshal_reset_nil_outermost_panics {σ : Type} (M : MarshalMachine σ) (s : σ)
    (n : Nat) (isNil : Bool) (calls : List MarshalCall) (m : Mem) (e rt : RType) :
    ptrDerefDelegateMarshalMachine.Reset M ⟨s, n + 1, isNil, calls⟩ m (.ptr e none) rt =
      .error "reflect: call of reflect.Value.IsNil on a Value that cannot be nil" := by
  simp [ptrDerefDelegateMarshalMachine.Reset, peelLoop, Value.Elem, Value.IsNil]

/-- What the loop of `Reset` does test: when the outermost pointer is not nil and the
pointer it points to is nil, `Reset` returns no error, sets `isNil` and makes no call on
the wrapped machine, and the following `Step` writes Null and is done. -/
theorem ptrDeref_marshal_inner_nil {σ : Type} (M : MarshalMachine σ) (s : σ) (n : Nat)
    (isNil : Bool) (calls : List MarshalCall) (m : Mem) (e e2 rt : RType) (a : Addr)
    (tok : Token) (hm : m.get? a = some (.ptr e2 none)) :
    ptrDerefDelegateMarshalMachine.Reset M ⟨s, n + 1, isNil, calls⟩ m (.ptr e (some a)) rt =
        .ok (⟨s, n + 1, true, calls⟩, none) ∧
      ptrDerefDelegateMarshalMachine.Step M ⟨s, n + 1, true, calls⟩ tok =
        .ok (⟨s, n + 1, true, calls⟩, { tok with Typ := .TNull }, true, none) := by
  have hm2 : m[a]? = some (.ptr e2 none) := by simpa using hm
  simp [ptrDerefDelegateMarshalMachine.Reset, ptrDerefDelegateMarshalMachine.Step, peelLoop,
    Value.Elem, Value.IsNil, hm2]

/-- C5, the code at the failing input: the machine requisitioned for `*int` is the
pointer-deref delegate with `peelCount = 1` over the primitive machine of kind Int, and
its `Reset` with a non-nil pointer to any int `i` does not return: after `rv.Elem()` the
test `rv.IsNil()` is made on the int and panics. -/
theorem requisitioned_ptr_int_reset_panics (atl : Atlas) (i : Int) :
    ∃ (slab : marshalSlab) (row : marshalSlabRow),
      marshalSlab.requisitionMachine 1 ⟨atl, []⟩ (.ptr (.basic .Int)) =
        .ok (slab, .ptrDerefDelegateMarshalMachine) ∧
      slab.rows = [row] ∧
      row.ptrDerefDelegateMarshalMachine = ⟨some .marshalMachinePrimitive, 1, false⟩ ∧
      row.marshalMachinePrimitive.kind = .Int ∧
      row.Reset .ptrDerefDelegateMarshalMachine [.int .Int i] (.ptr (.basic .Int) (some 0))
          (.ptr (.basic .Int)) =
        .error "reflect: call of reflect.Value.IsNil on a Value that cannot be nil" := by
  refine ⟨_, _, rfl, rfl, rfl, rfl, ?_⟩
  simp [marshalSlabRow.Reset, marshalSlabRow.ptrDeref, ptrDerefDelegateMarshalMachine.Reset,
    peelLoop, Value.Elem, Value.IsNil]

/-! ### The primitive machines -/

/-- C10: for every primitive marshal machine whose kind is bool, string, a signed integer
width, an unsigned integer width (uintptr included), a float width or byte slice, and
every value of that kind bound to it, one call of `Step` returns `done = true` with no
error and leaves the machine as it is; the token written has the tag that goes with the
kind alone (Bool, String, Int for every signed kind, Uint for every unsigned kind,
Float64, Bytes) and its payload is the bound value. -/
theorem marshal_primitive_step (mach : marshalMachinePrimitive) (tok : Token)
    (h : holds mach.kind mach.rv = true) :
    ∃ tok2 : Token, mach.Step tok = .ok (mach, tok2, true, none) ∧
      tok2.Typ = tagOf mach.kind ∧ payloadIs tok2 mach.rv := by
  rcases mach with ⟨k, rv⟩
  cases rv with
  | bool b =>
    have hk : k = .Bool := by simpa [holds] using h
    subst hk
    exact ⟨_, rfl, rfl, rfl⟩
  | string s =>
    have hk : k = .String := by simpa [holds] using h
    subst hk
    exact ⟨_, rfl, rfl, rfl⟩
  | bytes b =>
    have hk : k = .Slice := by simpa [holds] using h
    subst hk
    exact ⟨_, rfl, rfl, rfl⟩
  | int k2 i =>
    simp only [holds, Value.wf, Bool.and_eq_true, decide_eq_true_eq] at h
    obtain ⟨hk, ⟨hs, _⟩, _⟩ := h
    subst hk
    cases k2 <;> simp [isSigned] at hs <;>
      exact ⟨{ tok with Typ := .TInt, Int := i }, rfl, rfl, rfl⟩
  | uint k2 u =>
    simp only [holds, Value.wf, Bool.and_eq_true, decide_eq_true_eq] at h
    obtain ⟨hk, hs, _⟩ := h
    subst hk
    cases k2 <;> simp [isUnsigned] at hs <;>
      exact ⟨{ tok with Typ := .TUint, Uint := u }, rfl, rfl, rfl⟩
  | float k2 f =>
    simp only [holds, Value.wf, Bool.and_eq_true, decide_eq_true_eq] at h
    obtain ⟨hk, hs⟩ := h
    subst hk
    cases k2 <;> simp [isFloat] at hs <;>
      exact ⟨{ tok with Typ := .TFloat64, Float64 := f }, rfl, rfl, rfl⟩
  | zero => simp [holds] at h
  | ptr e p => simp [holds] at h
  | iface b => simp [holds] at h
  | other k2 n => simp [holds] at h

/-- A `uint64` that holds `2^64 - 1` is written as a Uint token with that payload. -/
theorem marshal_primitive_step_witness :
    ∃ tok2 : Token,
      marshalMachinePrimitive.Step ⟨.Uint64, .uint .Uint64 18446744073709551615⟩ Token_Null =
        .ok (⟨.Uint64, .uint .Uint64 18446744073709551615⟩, tok2, true, none) ∧
      tok2.Typ = .TUint ∧ tok2.Uint = 18446744073709551615 :=
  marshal_primitive_step ⟨.Uint64, .uint .Uint64 18446744073709551615⟩ Token_Null (by decide)

theorem wrapSigned_of_range (k : Kind) (i : Int) (hs : isSigned k = true)
    (h1 : -(2 ^ (kindBits k - 1) : Int) ≤ i) (h2 : i < (2 ^ (kindBits k - 1) : Int)) :
    wrapSigned (kindBits k) i = i := by
  cases k <;> simp [isSigned] at hs <;>
    · simp only [kindBits, wrapSigned] at *
      norm_num at *
      omega

theorem wrapUnsigned_of_range (k : Kind) (u : Nat) (hs : isUnsigned k = true)
    (h : u < 2 ^ kindBits k) : wrapUnsigned (kindBits k) (u : Int) = u := by
  cases k <;> simp [isUnsigned] at hs <;>
    · simp only [kindBits, wrapUnsigned] at *
      norm_num at *
      omega

theorem get?_set_self (m : Mem) (a : Addr) (t v : Value) (hm : m.get? a = some t) :
    (m.set a v).get? a = some v := by
  have hlt : a < m.length := by
    by_contra hc
    have : m.get? a = none := List.get?_eq_none.mpr (Nat.le_of_not_lt hc)
    rw [this] at hm
    simp at hm
  simp [hlt]

theorem holds_bool (t : Value) (h : holds .Bool t = true) : ∃ b, t = .bool b := by
  cases t <;>
    first
    | exact ⟨_, rfl⟩
    | (simp only [holds, Value.wf, Bool.and_eq_true, decide_eq_true_eq] at h
       obtain ⟨h1, h2⟩ := h
       subst h1
       simp [isSigned, isUnsigned, isFloat] at h2)
    | simp [holds] at h

theorem holds_string (t : Value) (h : holds .String t = true) : ∃ s, t = .string s := by
  cases t <;>
    first
    | exact ⟨_, rfl⟩
    | (simp only [holds, Value.wf, Bool.and_eq_true, decide_eq_true_eq] at h
       obtain ⟨h1, h2⟩ := h
       subst h1
       simp [isSigned, isUnsigned, isFloat] at h2)
    | simp [holds] at h

theorem holds_slice (t : Value) (h : holds .Slice t = true) : ∃ b, t = .bytes b := by
  cases t <;>
    first
    | exact ⟨_, rfl⟩
    | (simp only [holds, Value.wf, Bool.and_eq_true, decide_eq_true_eq] at h
       obtain ⟨h1, h2⟩ := h
       subst h1
       simp [isSigned, isUnsigned, isFloat] at h2)
    | simp [holds] at h

theorem holds_signed (k : Kind) (t : Value) (hs : isSigned k = true) (h : holds k t = true) :
    ∃ i, t = .int k i ∧ -(2 ^ (kindBits k - 1) : Int) ≤ i ∧ i < (2 ^ (kindBits k - 1) : Int) := by
  cases t with
  | int k2 i =>
    simp only [holds, Value.wf, Bool.and_eq_true, decide_eq_true_eq] at h
    obtain ⟨hk, ⟨_, h1⟩, h2⟩ := h
    subst hk
    exact ⟨i, rfl, h1, h2⟩
  | bool b => simp [holds] at h; subst h; simp [isSigned] at hs
  | string s => simp [holds] at h; subst h; simp [isSigned] at hs
  | bytes b => simp [holds] at h; subst h; simp [isSigned] at hs
  | uint k2 u =>
    simp only [holds, Value.wf, Bool.and_eq_true, decide_eq_true_eq] at h
    obtain ⟨hk, hu, _⟩ := h
    subst hk
    cases k2 <;> simp [isSigned] at hs <;> simp [isUnsigned] at hu
  | float k2 f =>
    simp only [holds, Value.wf, Bool.and_eq_true, decide_eq_true_eq] at h
    obtain ⟨hk, hu⟩ := h
    subst hk
    cases k2 <;> simp [isSigned] at hs <;> simp [isFloat] at hu
  | zero => simp [holds] at h
  | ptr e p => simp [holds] at h
  | iface b => simp [holds] at h
  | other k2 n => simp [holds] at h

theorem holds_unsigned (k : Kind) (t : Value) (hs : isUnsigned k = true)
    (h : holds k t = true) : ∃ u, t = .uint k u ∧ u < 2 ^ kindBits k := by
  cases t with
  | uint k2 u =>
    simp only [holds, Value.wf, Bool.and_eq_true, decide_eq_true_eq] at h
    obtain ⟨hk, _, h1⟩ := h
    subst hk
    exact ⟨u, rfl, h1⟩
  | bool b => simp [holds] at h; subst h; simp [isUnsigned] at hs
  | string s => simp [holds] at h; subst h; simp [isUnsigned] at hs
  | bytes b => simp [holds] at h; subst h; simp [isUnsigned] at hs
  | int k2 u =>
    simp only [holds, Value.wf, Bool.and_eq_true, decide_eq_true_eq] at h
    obtain ⟨hk, ⟨hu, _⟩, _⟩ := h
    subst hk
    cases k2 <;> simp [isUnsigned] at hs <;> simp [isSigned] at hu
  | float k2 f =>
    simp only [holds, Value.wf, Bool.and_eq_true, decide_eq_true_eq] at h
    obtain ⟨hk, hu⟩ := h
    subst hk
    cases k2 <;> simp [isUnsigned] at hs <;> simp [isFloat] at hu
  | zero => simp [holds] at h
  | ptr e p => simp [holds] at h
  | iface b => simp [holds] at h
  | other k2 n => simp [holds] at h

theorem holds_float (k : Kind) (t : Value) (hs : isFloat k = true) (h : holds k t = true) :
    ∃ f, t = .float k f := by
  cases t with
  | float k2 f =>
    simp only [holds, Value.wf, Bool.and_eq_true, decide_eq_true_eq] at h
    obtain ⟨hk, _⟩ := h
    subst hk
    exact ⟨f, rfl⟩
  | bool b => simp [holds] at h; subst h; simp [isFloat] at hs
  | string s => simp [holds] at h; subst h; simp [isFloat] at hs
  | bytes b => simp [holds] at h; subst h; simp [isFloat] at hs
  | int k2 u =>
    simp only [holds, Value.wf, Bool.and_eq_true, decide_eq_true_eq] at h
    obtain ⟨hk, ⟨hu, _⟩, _⟩ := h
    subst hk
    cases k2 <;> simp [isFloat] at hs <;> simp [isSigned] at hu
  | uint k2 u =>
    simp only [holds, Value.wf, Bool.and_eq_true, decide_eq_true_eq] at h
    obtain ⟨hk, hu, _⟩ := h
    subst hk
    cases k2 <;> simp [isFloat] at hs <;> simp [isUnsigned] at hu
  | zero => simp [holds] at h
  | ptr e p => simp [holds] at h
  | iface b => simp [holds] at h
  | other k2 n => simp [holds] at h

/-- The kinds a value can hold are the primitive ones. -/
theorem holds_kind (k : Kind) (t : Value) (h : holds k t = true) :
    k = .Bool ∨ k = .String ∨ k = .Slice ∨ isSigned k = true ∨ isUnsigned k = true ∨
      isFloat k = true := by
  cases t with
  | bool b => simp [holds] at h; simp [h]
  | string s => simp [holds] at h; simp [h]
  | bytes b => simp [holds] at h; simp [h]
  | int k2 i =>
    simp only [holds, Value.wf, Bool.and_eq_true, decide_eq_true_eq] at h
    obtain ⟨hk, ⟨hu, _⟩, _⟩ := h
    subst hk; simp [hu]
  | uint k2 u =>
    simp only [holds, Value.wf, Bool.and_eq_true, decide_eq_true_eq] at h
    obtain ⟨hk, hu, _⟩ := h
    subst hk; simp [hu]
  | float k2 f =>
    simp only [holds, Value.wf, Bool.and_eq_true, decide_eq_true_eq] at h
    obtain ⟨hk, hu⟩ := h
    subst hk; simp [hu]
  | zero => simp [holds] at h
  | ptr e p => simp [holds] at h
  | iface b => simp [holds] at h
  | other k2 n => simp [holds] at h

/-- C9: round trip on primitives.  For every kind `k` among bool, string, the signed
integer widths, the unsigned integer widths and byte slice, every value `v` of kind `k`
and every target variable that holds a value of kind `k`: the token that
`marshalMachinePrimitive.Step` writes for `v`, fed to `unmarshalMachinePrimitive.Step` of
the same kind bound to the target, is accepted with no error and `done = true`, and the
target then holds `v` (nothing else in memory changes). -/
theorem primitive_roundtrip (fc : FloatConv) (k : Kind) (v t : Value) (m : Mem) (a : Addr)
    (tok0 : Token) (hk : isFloat k = false) (hv : holds k v = true) (ht : holds k t = true)
    (hm : m.get? a = some t) :
    ∃ tok : Token,
      marshalMachinePrimitive.Step ⟨k, v⟩ tok0 = .ok (⟨k, v⟩, tok, true, none) ∧
      unmarshalMachinePrimitive.Step fc ⟨k, .addr a⟩ m tok =
        .ok (⟨k, .addr a⟩, m.set a v, true, none) ∧
      (m.set a v).get? a = some v := by
  have hm2 : m[a]? = some t := by simpa using hm
  have hget := get?_set_self m a t v hm
  rcases holds_kind k v hv with h | h | h | h | h | h
  · subst h
    obtain ⟨b, rfl⟩ := holds_bool v hv
    obtain ⟨b2, rfl⟩ := holds_bool t ht
    refine ⟨{ tok0 with Typ := .TBool, Bool := b }, rfl, ?_, hget⟩
    simp [unmarshalMachinePrimitive.Step, setAndReturn, Ref.update, hm2, Value.SetBool]
  · subst h
    obtain ⟨b, rfl⟩ := holds_string v hv
    obtain ⟨b2, rfl⟩ := holds_string t ht
    refine ⟨{ tok0 with Typ := .TString, Str := b }, rfl, ?_, hget⟩
    simp [unmarshalMachinePrimitive.Step, setAndReturn, Ref.update, hm2, Value.SetString]
  · subst h
    obtain ⟨b, rfl⟩ := holds_slice v hv
    obtain ⟨b2, rfl⟩ := holds_slice t ht
    refine ⟨{ tok0 with Typ := .TBytes, Bytes := b }, rfl, ?_, hget⟩
    simp [unmarshalMachinePrimitive.Step, setAndReturn, Ref.update, hm2, Value.SetBytes]
  · obtain ⟨i, rfl, h1, h2⟩ := holds_signed k v h hv
    obtain ⟨i2, rfl, _, _⟩ := holds_signed k t h ht
    have hw := wrapSigned_of_range k i h h1 h2
    refine ⟨{ tok0 with Typ := .TInt, Int := i }, ?_, ?_, hget⟩
    · cases k <;> simp [isSigned] at h <;> rfl
    · cases k <;> simp [isSigned] at h <;>
        simp [unmarshalMachinePrimitive.Step, setAndReturn, Ref.update, hm2, Value.SetInt,
          isSigned, hw]
  · obtain ⟨u, rfl, h1⟩ := holds_unsigned k v h hv
    obtain ⟨u2, rfl, _⟩ := holds_unsigned k t h ht
    have hw := wrapUnsigned_of_range k u h h1
    refine ⟨{ tok0 with Typ := .TUint, Uint := u }, ?_, ?_, hget⟩
    · cases k <;> simp [isUnsigned] at h <;> rfl
    · cases k <;> simp [isUnsigned] at h <;>
        simp [unmarshalMachinePrimitive.Step, setAndReturn, Ref.update, hm2, Value.SetUint,
          isUnsigned, hw]
  · rw [h] at hk; simp at hk

/-- An `int8` holding -128 is marshalled and unmarshalled into an `int8` variable that
held 5. -/
theorem primitive_roundtrip_witness :
    ∃ tok : Token,
      marshalMachinePrimitive.Step ⟨.Int8, .int .Int8 (-128)⟩ Token_Null =
        .ok (⟨.Int8, .int .Int8 (-128)⟩, tok, true, none) ∧
      unmarshalMachinePrimitive.Step sampleFloatConv ⟨.Int8, .addr 1⟩
          [.bool true, .int .Int8 5] tok =
        .ok (⟨.Int8, .addr 1⟩, [.bool true, .int .Int8 (-128)], true, none) ∧
      ([Value.bool true, Value.int .Int8 (-128)] : Mem).get? 1 = some (.int .Int8 (-128)) :=
  primitive_roundtrip sampleFloatConv .Int8 (.int .Int8 (-128)) (.int .Int8 5)
    [.bool true, .int .Int8 5] 1 Token_Null rfl (by decide) (by decide) rfl

theorem unmarshal_step_cases (fc : FloatConv) (k : Kind) (a : Addr) (m : Mem) (tok : Token)
    (t : Value) (hm2 : m[a]? = some t) (ht : holds k t = true) :
    (compatible k tok = true →
        ∃ m2 : Mem, unmarshalMachinePrimitive.Step fc ⟨k, .addr a⟩ m tok =
          .ok (⟨k, .addr a⟩, m2, true, none)) ∧
      (compatible k tok = false →
        unmarshalMachinePrimitive.Step fc ⟨k, .addr a⟩ m tok =
          .ok (⟨k, .addr a⟩, m, true, some (.ErrUnmarshalTypeCantFit tok (.addr a)))) := by
  rcases holds_kind k t ht with h | h | h | h | h | h
  · subst h
    obtain ⟨b, rfl⟩ := holds_bool t ht
    cases hty : tok.Typ <;>
      simp [unmarshalMachinePrimitive.Step, compatible, hty, setAndReturn, Ref.update, hm2,
        Value.SetBool]
  · subst h
    obtain ⟨b, rfl⟩ := holds_string t ht
    cases hty : tok.Typ <;>
      simp [unmarshalMachinePrimitive.Step, compatible, hty, setAndReturn, Ref.update, hm2,
        Value.SetString]
  · subst h
    obtain ⟨b, rfl⟩ := holds_slice t ht
    cases hty : tok.Typ <;>
      simp [unmarshalMachinePrimitive.Step, compatible, hty, setAndReturn, Ref.update, hm2,
        Value.SetBytes]
  · obtain ⟨i, rfl, _, _⟩ := holds_signed k t h ht
    cases k <;> simp [isSigned] at h <;> cases hty : tok.Typ <;>
      simp [unmarshalMachinePrimitive.Step, compatible, hty, setAndReturn, Ref.update, hm2,
        Value.SetInt, isSigned]
  · obtain ⟨u, rfl, _⟩ := holds_unsigned k t h ht
    by_cases hi : 0 ≤ tok.Int <;>
      cases k <;> simp [isUnsigned] at h <;> cases hty : tok.Typ <;>
        simp [unmarshalMachinePrimitive.Step, compatible, hty, setAndReturn, Ref.update, hm2,
          Value.SetUint, isUnsigned, isSigned, hi]
  · obtain ⟨f, rfl⟩ := holds_float k t h ht
    cases k <;> simp [isFloat] at h <;> cases hty : tok.Typ <;>
      simp [unmarshalMachinePrimitive.Step, compatible, hty, setAndReturn, Ref.update, hm2,
        Value.SetFloat, isFloat, isSigned, isUnsigned]

/-- C7: for every primitive unmarshal machine of kind bool, string, signed integer,
unsigned integer, float or byte slice, bound to a variable that holds a value of that
kind, and every token, `Step` returns `done = true` and leaves the machine as it is; the
error is nil exactly when the token tag is compatible with the kind (Bool from Bool;
String from String; signed from Int or Uint; unsigned from Uint or an Int that is not
negative; float from Float64, Int or Uint; bytes from Bytes); in every other case,
bracket and Null tokens and a negative Int into an unsigned target included, the error is
`ErrUnmarshalTypeCantFit` with that token and that target, and memory is unchanged. -/
theorem unmarshal_primitive_step (fc : FloatConv) (mach : unmarshalMachinePrimitive)
    (m : Mem) (tok : Token) (a : Addr) (t : Value)
    (hrv : mach.rv = .addr a) (hm : m.get? a = some t) (ht : holds mach.kind t = true) :
    ∃ (m2 : Mem) (err : Option Error),
      mach.Step fc m tok = .ok (mach, m2, true, err) ∧
      (err = none ↔ compatible mach.kind tok = true) ∧
      (compatible mach.kind tok = false →
        err = some (.ErrUnmarshalTypeCantFit tok mach.rv) ∧ m2 = m) := by
  rcases mach with ⟨k, rv⟩
  simp only at hrv ht
  subst hrv
  have hm2 : m[a]? = some t := by simpa using hm
  obtain ⟨h1, h2⟩ := unmarshal_step_cases fc k a m tok t hm2 ht
  cases hc : compatible k tok with
  | true =>
    obtain ⟨m2, hstep⟩ := h1 hc
    exact ⟨m2, none, hstep, by simp, by simp⟩
  | false =>
    exact ⟨m, _, h2 hc, by simp, by simp⟩

/-- A negative Int token stepped into a `uint8` variable: the error names the token and
the target, and the variable keeps its value. -/
theorem unmarshal_primitive_step_witness :
    ∃ (m2 : Mem) (err : Option Error),
      unmarshalMachinePrimitive.Step sampleFloatConv ⟨.Uint8, .addr 0⟩ [.uint .Uint8 7]
          (TokInt (-1)) = .ok (⟨.Uint8, .addr 0⟩, m2, true, err) ∧
      (err = none ↔ compatible .Uint8 (TokInt (-1)) = true) ∧
      (compatible .Uint8 (TokInt (-1)) = false →
        err = some (.ErrUnmarshalTypeCantFit (TokInt (-1)) (.addr 0)) ∧
          m2 = [.uint .Uint8 7]) :=
  unmarshal_primitive_step sampleFloatConv ⟨.Uint8, .addr 0⟩ [.uint .Uint8 7] (TokInt (-1)) 0
    (.uint .Uint8 7) rfl rfl (by decide)

/-- C8, the code at two failing inputs: a Uint token of value 2^63 stepped into an
`int64` variable and an Int token of value 300 stepped into an `int8` variable are both
accepted with a nil error, and the variable then holds the wrapped value, -2^63 and 44. -/
theorem unmarshal_primitive_overflow_wraps (fc : FloatConv) :
    unmarshalMachinePrimitive.Step fc ⟨.Int64, .addr 0⟩ [.int .Int64 0]
        { Token.zero .TUint with Uint := 9223372036854775808 } =
      .ok (⟨.Int64, .addr 0⟩, [.int .Int64 (-9223372036854775808)], true, none) ∧
    unmarshalMachinePrimitive.Step fc ⟨.Int8, .addr 0⟩ [.int .Int8 0] (TokInt 300) =
      .ok (⟨.Int8, .addr 0⟩, [.int .Int8 44], true, none) := by
  constructor <;> rfl

/-! ### The marshal slab -/

theorem peelPtrs_of_not_ptr (t : RType) (h : t.Kind ≠ .Ptr) : peelPtrs t = (t, 0) := by
  induction t with
  | ptr e _ => simp [RType.Kind] at h
  | named n u ih =>
    have hu : peelPtrs u = (u, 0) := ih (by simpa [RType.Kind] using h)
    simp [peelPtrs, hu]
  | _ => rfl

theorem peelPtrs_ptrTo (n : Nat) (t : RType) (h : t.Kind ≠ .Ptr) :
    peelPtrs (ptrTo n t) = (t, n) := by
  induction n with
  | zero => exact peelPtrs_of_not_ptr t h
  | succ n ih => simp [ptrTo, peelPtrs, ih]

theorem rows_get_new (rows : List marshalSlabRow) (row : marshalSlabRow) :
    (rows ++ [row]).get? rows.length = some row := by
  rw [List.get?_eq_getElem?, List.getElem?_append_right (le_refl _)]
  simp

theorem rows_set_new (rows : List marshalSlabRow) (row row2 : marshalSlabRow) :
    (rows ++ [row]).set rows.length row2 = rows ++ [row2] := by
  induction rows with
  | nil => rfl
  | cons r rest ih => simp [List.set, ih]

/-- C11, the code at the failing input: for every atlas without an entry for the struct
type, every number `n` of pointer levels over it and every slab, `requisitionMachine`
does not return an error thunk: resolution reaches `case reflect.Struct` and panics with
"todo". -/
theorem requisition_unregistered_struct_panics (fuel : Nat) (atl : Atlas)
    (rows : List marshalSlabRow) (name : String) (n : Nat) :
    marshalSlab.requisitionMachine (fuel + 1) ⟨atlasWithout atl (.struct name), rows⟩
        (ptrTo n (.struct name)) = .error "todo" := by
  have hp := peelPtrs_ptrTo n (.struct name) (by simp [RType.Kind])
  simp [marshalSlab.requisitionMachine, marshalSlab.grow, rows_get_new, hp,
    _yieldMarshalMachinePtr, isBuiltinRtid, atlasWithout, RType.Kind]

/-- C12: for every built-in primitive type (bool, string, int, int8..int64, uint,
uint8..uint64, uintptr, float32, float64, []byte), every row and every atlas, also one
that holds an entry under the identity of that type, `_yieldMarshalMachinePtr` returns
the primitive machine of the row with its kind set to the kind of the type, and the row
is otherwise unchanged: the result is the one with the empty atlas. -/
theorem yield_builtin_ignores_atlas (fuel : Nat) (row : marshalSlabRow) (atl : Atlas)
    (rt : RType) (h : rt ∈ builtinTypes) :
    _yieldMarshalMachinePtr (fuel + 1) row atl rt =
        .ok ({ row with marshalMachinePrimitive :=
                { row.marshalMachinePrimitive with kind := rt.Kind } },
          some .marshalMachinePrimitive) ∧
      _yieldMarshalMachinePtr (fuel + 1) row atl rt =
        _yieldMarshalMachinePtr (fuel + 1) row emptyAtlas rt := by
  have hb : isBuiltinRtid rt = true := by
    simp only [builtinTypes, List.mem_cons, List.mem_singleton, List.not_mem_nil,
      or_false] at h
    rcases h with h | h | h | h | h | h | h | h | h | h | h | h | h | h | h | h <;>
      subst h <;> rfl
  simp [_yieldMarshalMachinePtr, hb]

/-- With an atlas that holds a transform entry under every identity, `int` is still
resolved to the primitive machine of kind Int. -/
theorem yield_builtin_ignores_atlas_witness :
    _yieldMarshalMachinePtr 1 marshalSlabRow.zero transformEverything (.basic .Int) =
        .ok ({ marshalSlabRow.zero with marshalMachinePrimitive := ⟨.Int, .zero⟩ },
          some .marshalMachinePrimitive) ∧
      _yieldMarshalMachinePtr 1 marshalSlabRow.zero transformEverything (.basic .Int) =
        _yieldMarshalMachinePtr 1 marshalSlabRow.zero emptyAtlas (.basic .Int) :=
  yield_builtin_ignores_atlas 0 marshalSlabRow.zero transformEverything (.basic .Int)
    (by decide)

/-- C13: for every type made of `n ≥ 0` pointer levels over a type `T` that is no pointer
and for which resolution in a new row yields a machine `mach` and leaves the row `row`:
`requisitionMachine` appends one row and returns, when `n = 0`, exactly `mach` in the
row `row`, and when `n > 0`, the pointer-deref delegate of that row with
`peelCount = n`, `isNil = false` and wrapped machine `mach`. -/
theorem requisition_wraps_pointers (fuel : Nat) (slab : marshalSlab) (T : RType) (n : Nat)
    (row : marshalSlabRow) (mach : MachineRef) (hT : T.Kind ≠ .Ptr)
    (hres : _yieldMarshalMachinePtr fuel marshalSlabRow.zero slab.atlas T =
      .ok (row, some mach)) :
    slab.requisitionMachine fuel (ptrTo n T) =
      .ok (⟨slab.atlas, slab.rows ++
            [if n = 0 then row
             else { row with ptrDerefDelegateMarshalMachine := ⟨some mach, n, false⟩ }]⟩,
        if n = 0 then mach else .ptrDerefDelegateMarshalMachine) := by
  have hp := peelPtrs_ptrTo n T hT
  simp only [marshalSlab.requisitionMachine, marshalSlab.grow, rows_get_new, hp, hres]
  by_cases hn : n = 0 <;> simp [hn, rows_set_new]

/-- The machine requisitioned for `**int` is the pointer-deref delegate with
`peelCount = 2` over the primitive machine of kind Int. -/
theorem requisition_wraps_pointers_witness :
    marshalSlab.requisitionMachine 1 ⟨emptyAtlas, []⟩ (.ptr (.ptr (.basic .Int))) =
      .ok (⟨emptyAtlas,
          [{ marshalSlabRow.zero with
              marshalMachinePrimitive := ⟨.Int, .zero⟩
              ptrDerefDelegateMarshalMachine := ⟨some .marshalMachinePrimitive, 2, false⟩ }]⟩,
        .ptrDerefDelegateMarshalMachine) :=
  requisition_wraps_pointers 1 ⟨emptyAtlas, []⟩ (.basic .Int) 2
    { marshalSlabRow.zero with marshalMachinePrimitive := ⟨.Int, .zero⟩ }
    .marshalMachinePrimitive (by decide) rfl

/-- C14, the claim fails when the surrogate type has a transform entry of its own: the
row has one transform machine, the resolution of the surrogate overwrites its `trFunc`,
and the delegate becomes the transform machine itself. -/
theorem nested_transform_overwrites :
    ∃ row : marshalSlabRow,
      _yieldMarshalMachinePtr 3 marshalSlabRow.zero nestedTransformAtlas (.struct "T") =
        .ok (row, some .marshalMachineTransform) ∧
      row.marshalMachineTransform.trFunc = some "g" ∧
      row.marshalMachineTransform.trFunc ≠ some "f" ∧
      row.marshalMachineTransform.delegate = some .marshalMachineTransform := by
  refine ⟨_, rfl, rfl, by decide, rfl⟩

theorem yield_keeps_transform (fuel : Nat) (row row2 : marshalSlabRow) (atl : Atlas)
    (S : RType) (d : Option MachineRef) (h : notTransform atl S)
    (hr : _yieldMarshalMachinePtr (fuel + 1) row atl S = .ok (row2, d)) :
    row2.marshalMachineTransform = row.marshalMachineTransform := by
  unfold _yieldMarshalMachinePtr at hr
  by_cases hb : isBuiltinRtid S = true
  · simp only [hb, if_true, Except.ok.injEq, Prod.mk.injEq] at hr
    rw [← hr.1]
  · simp only [hb] at hr
    rcases h with h | h | ⟨e, h, hf⟩
    · exact absurd h hb
    · simp only [h] at hr
      repeat' split at hr
      all_goals
        first
        | (simp at hr; done)
        | (simp only [Except.ok.injEq, Prod.mk.injEq] at hr
           obtain ⟨h1, _⟩ := hr
           subst h1
           rfl)
    · simp only [h, hf] at hr
      by_cases hs : e.StructMap = none
      · simp [hs] at hr
      · simp [hs] at hr
        obtain ⟨h1, _⟩ := hr
        subst h1
        rfl

/-- A type that is resolved directly gets a machine, for every row and with every fuel
but none, and the resolution does not read or write the transform machine of the row. -/
theorem yield_direct (fuel : Nat) (row : marshalSlabRow) (atl : Atlas) (S : RType)
    (h : resolvesDirectly atl S = true) :
    ∃ (row2 : marshalSlabRow) (d : MachineRef),
      _yieldMarshalMachinePtr (fuel + 1) row atl S = .ok (row2, some d) ∧
      ∀ x : marshalMachineTransform,
        _yieldMarshalMachinePtr (fuel + 1) { row with marshalMachineTransform := x } atl S =
          .ok ({ row2 with marshalMachineTransform := x }, some d) := by
  unfold resolvesDirectly at h
  unfold _yieldMarshalMachinePtr
  by_cases hb : isBuiltinRtid S = true
  · simp only [hb, if_true]
    exact ⟨_, _, rfl, fun _ => rfl⟩
  · simp only [hb] at h ⊢
    cases ha : atl S with
    | some e =>
      simp [ha] at h
      obtain ⟨hf, hs⟩ := h
      simp only [hf, hs, ne_eq, not_true_eq_false, not_false_eq_true, if_true, if_false]
      exact ⟨_, _, rfl, fun _ => rfl⟩
    | none =>
      simp only [ha] at h
      cases hk : S.Kind <;> simp only [hk] at h <;>
        first
        | exact absurd h (by decide)
        | exact ⟨_, _, rfl, fun _ => rfl⟩
        | skip
      cases he : S.Elem with
      | error e => simp [he] at h
      | ok e =>
        simp only []
        by_cases h8 : e.Kind = .Uint8
        · simp only [h8, if_true]
          exact ⟨_, _, rfl, fun _ => rfl⟩
        · simp only [h8, if_false]
          exact ⟨_, _, rfl, fun _ => rfl⟩

/-- The types resolved directly are those that are not resolved through a transform entry
and for which `_yieldMarshalMachinePtr` returns. -/
theorem resolvesDirectly_iff (fuel : Nat) (row : marshalSlabRow) (atl : Atlas) (S : RType) :
    resolvesDirectly atl S = true ↔
      notTransform atl S ∧
        ∃ (row2 : marshalSlabRow) (d : Option MachineRef),
          _yieldMarshalMachinePtr (fuel + 1) row atl S = .ok (row2, d) := by
  constructor
  · intro h
    obtain ⟨row2, d, h1, _⟩ := yield_direct fuel row atl S h
    refine ⟨?_, row2, some d, h1⟩
    unfold resolvesDirectly at h
    unfold notTransform
    by_cases hb : isBuiltinRtid S = true
    · exact Or.inl hb
    · cases ha : atl S with
      | none => exact Or.inr (Or.inl rfl)
      | some e =>
        simp [hb, ha] at h
        exact Or.inr (Or.inr ⟨e, rfl, h.1⟩)
  · rintro ⟨hnt, row2, d, hr⟩
    unfold resolvesDirectly
    unfold _yieldMarshalMachinePtr at hr
    by_cases hb : isBuiltinRtid S = true
    · simp [hb]
    · simp only [hb] at hr ⊢
      rcases hnt with h | h | ⟨e, h, hf⟩
      · exact absurd h hb
      · simp only [h] at hr ⊢
        cases hk : S.Kind <;> simp only [hk] at hr ⊢ <;>
          first
          | rfl
          | (simp at hr; done)
          | skip
        cases he : S.Elem with
        | error e => simp [he] at hr
        | ok e => simp
      · simp only [h, hf] at hr ⊢
        by_cases hs : e.StructMap = none
        · simp [hs] at hr
        · simp [hs]

/-- A transform entry whose surrogate type has no transform entry of its own and is not
resolved directly: the resolution of the surrogate panics, and with it the resolution of
the type. -/
theorem transform_surrogate_panics (fuel : Nat) (row : marshalSlabRow) (atl : Atlas)
    (T : RType) (entry : AtlasEntry) (f : String) (hT : isBuiltinRtid T = false)
    (he : atl T = some entry) (hf : entry.MarshalTransformFunc = some f)
    (hnt : notTransform atl entry.MarshalTransformTargetType)
    (hnd : resolvesDirectly atl entry.MarshalTransformTargetType = false) :
    ∃ msg : String, _yieldMarshalMachinePtr (fuel + 2) row atl T = .error msg := by
  rw [_yieldMarshalMachinePtr]
  simp only [hT, he, hf]
  cases hr : _yieldMarshalMachinePtr (fuel + 1)
      { row with marshalMachineTransform :=
          { row.marshalMachineTransform with trFunc := some f } }
      atl entry.MarshalTransformTargetType with
  | error e => exact ⟨e, by simp⟩
  | ok p =>
    have hd := (resolvesDirectly_iff fuel _ atl _).2 ⟨hnt, p.1, p.2, hr⟩
    rw [hd] at hnd
    exact absurd hnd (by decide)

/-- The surrogate of a transform is looked up without peeling pointers and without a
default for structs: with the surrogate `*int` the lookup reaches the branch for pointers,
with an unregistered struct the branch for structs. -/
theorem transform_surrogate_panic_examples :
    _yieldMarshalMachinePtr 2 marshalSlabRow.zero (transformInto (.ptr (.basic .Int)))
        (.struct "T") = .error "unreachable: ptrs must already be resolved" ∧
      _yieldMarshalMachinePtr 2 marshalSlabRow.zero (transformInto (.struct "S"))
        (.struct "T") = .error "todo" := by
  exact ⟨rfl, rfl⟩

/-- C14 as amended: for every atlas, every row and every type `T` that is not built in
and has an atlas entry: if the entry is a Transform with function `f` and surrogate type
`S`, and `S` is resolved directly (it is built in; or it has an entry without transform
function and with a struct map; or it has no entry and is of a primitive kind, a slice,
an array, a map or an interface), then resolution yields a machine `d` for `S`, and
`_yieldMarshalMachinePtr` returns for `T` the transform machine with `trFunc = f` and
delegate `d`, in the row that the resolution of `S` leaves; if the entry has no transform
function and is a StructMap, it returns the struct machine whose `cfg` is that
StructMap. -/
theorem yield_atlas_entry (fuel : Nat) (row : marshalSlabRow) (atl : Atlas) (T : RType)
    (entry : AtlasEntry) (hT : isBuiltinRtid T = false) (he : atl T = some entry) :
    (∀ f : String,
        entry.MarshalTransformFunc = some f →
        resolvesDirectly atl entry.MarshalTransformTargetType = true →
        ∃ (row2 : marshalSlabRow) (d : MachineRef),
          _yieldMarshalMachinePtr (fuel + 1) row atl entry.MarshalTransformTargetType =
            .ok (row2, some d) ∧
          _yieldMarshalMachinePtr (fuel + 2) row atl T =
            .ok ({ row2 with marshalMachineTransform := ⟨some f, some d⟩ },
              some .marshalMachineTransform)) ∧
      (∀ cfg : StructMap,
        entry.MarshalTransformFunc = none → entry.StructMap = some cfg →
        _yieldMarshalMachinePtr (fuel + 1) row atl T =
          .ok ({ row with marshalMachineStructAtlas := ⟨some cfg⟩ },
            some .marshalMachineStructAtlas)) := by
  constructor
  · intro f hf hd
    obtain ⟨row2, d, h1, h2⟩ := yield_direct fuel row atl _ hd
    refine ⟨row2, d, h1, ?_⟩
    rw [_yieldMarshalMachinePtr]
    simp only [hT, he, hf]
    simp [h2]
  · intro cfg hf hs
    rw [_yieldMarshalMachinePtr]
    simp [hT, he, hf, hs]

/-- A struct type whose entry transforms it by `f` into `[]int`: the slice is resolved
directly, to the slice machine, and the struct to the transform machine with `trFunc = f`
and the slice machine as delegate. -/
theorem yield_atlas_entry_witness :
    resolvesDirectly (transformInto (.slice (.basic .Int))) (.slice (.basic .Int)) = true ∧
      ∃ (row2 : marshalSlabRow) (d : MachineRef),
        _yieldMarshalMachinePtr 1 marshalSlabRow.zero (transformInto (.slice (.basic .Int)))
            (.slice (.basic .Int)) = .ok (row2, some d) ∧
          _yieldMarshalMachinePtr 2 marshalSlabRow.zero
              (transformInto (.slice (.basic .Int))) (.struct "T") =
            .ok ({ row2 with marshalMachineTransform := ⟨some "f", some d⟩ },
              some .marshalMachineTransform) :=
  ⟨rfl, (yield_atlas_entry 0 marshalSlabRow.zero (transformInto (.slice (.basic .Int)))
      (.struct "T") ⟨some "f", .slice (.basic .Int), none⟩ rfl rfl).1 "f" rfl rfl⟩

theorem requisition_of_resolvable (fuel : Nat) (slab : marshalSlab) (rt : RType)
    (h : resolvable fuel slab.atlas rt) :
    ∃ (ref : MachineRef) (row : marshalSlabRow),
      slab.requisitionMachine fuel rt = .ok (⟨slab.atlas, slab.rows ++ [row]⟩, ref) := by
  obtain ⟨row, mach, hres⟩ := h
  simp only [marshalSlab.requisitionMachine, marshalSlab.grow, rows_get_new, hres]
  cases mach with
  | none =>
    simp only [rows_set_new]
    exact ⟨_, _, rfl⟩
  | some m =>
    by_cases hn : (peelPtrs rt).2 = 0
    · simp only [hn, if_true, rows_set_new]
      exact ⟨_, _, rfl⟩
    · simp only [hn, if_false, rows_set_new]
      exact ⟨_, _, rfl⟩

theorem release_append (atl : Atlas) (rows : List marshalSlabRow) (row : marshalSlabRow) :
    marshalSlab.release ⟨atl, rows ++ [row]⟩ = .ok ⟨atl, rows⟩ := by
  simp [marshalSlab.release]

theorem release_of_pos (slab : marshalSlab) (k : Nat) (h : slab.rows.length = k + 1) :
    ∃ slab2 : marshalSlab, slab.release = .ok slab2 ∧ slab2.atlas = slab.atlas ∧
      slab2.rows.length = k := by
  refine ⟨{ slab with rows := slab.rows.take (slab.rows.length - 1) }, ?_, rfl, ?_⟩
  · simp [marshalSlab.release, h]
  · simp [h]

theorem runOps_nested (fuel : Nat) (ops : List SlabOp) :
    ∀ slab : marshalSlab,
      (∀ rt, SlabOp.acquire rt ∈ ops → resolvable fuel slab.atlas rt) →
      properlyNested slab.rows.length ops = true →
      ∃ slab2 : marshalSlab, runOps fuel slab ops = .ok slab2 ∧
        slab2.rows.length = outstanding slab.rows.length ops := by
  induction ops with
  | nil => intro slab _ _; exact ⟨slab, rfl, rfl⟩
  | cons op rest ih =>
    intro slab hres hn
    cases op with
    | acquire rt =>
      obtain ⟨ref, row, hreq⟩ := requisition_of_resolvable fuel slab rt (hres rt (by simp))
      have h2 := ih ⟨slab.atlas, slab.rows ++ [row]⟩
        (fun r hr => hres r (by simp [hr]))
        (by simpa [properlyNested] using hn)
      obtain ⟨slab2, hrun, hlen⟩ := h2
      exact ⟨slab2, by simp [runOps, hreq, hrun], by simpa [outstanding] using hlen⟩
    | release =>
      cases hk : slab.rows.length with
      | zero => rw [hk] at hn; simp [properlyNested] at hn
      | succ k =>
        rw [hk] at hn
        obtain ⟨slab1, hrel, hatl, hlen1⟩ := release_of_pos slab k hk
        have h2 := ih slab1 (fun r hr => by rw [hatl]; exact hres r (by simp [hr]))
          (by rw [hlen1]; simpa [properlyNested] using hn)
        obtain ⟨slab2, hrun, hlen⟩ := h2
        exact ⟨slab2, by simp [runOps, hrel, hrun], by
          rw [hlen, hlen1]; simp [outstanding]⟩

/-- C17: for every slab and every resolvable type, `requisitionMachine` returns, appends
exactly one row and leaves the rows acquired before and the atlas unchanged, and
`release` then removes exactly that row, which restores the slab; and for every properly
nested sequence of acquisitions of resolvable types and releases, the sequence runs
without a panic and the number of rows after it is the number of acquisitions not yet
released. -/
theorem slab_rows_are_a_stack (fuel : Nat) (slab : marshalSlab) :
    (∀ rt : RType, resolvable fuel slab.atlas rt →
        ∃ (slab2 : marshalSlab) (ref : MachineRef) (row : marshalSlabRow),
          slab.requisitionMachine fuel rt = .ok (slab2, ref) ∧
          slab2.rows = slab.rows ++ [row] ∧ slab2.atlas = slab.atlas ∧
          slab2.release = .ok slab) ∧
      (∀ ops : List SlabOp,
        (∀ rt, SlabOp.acquire rt ∈ ops → resolvable fuel slab.atlas rt) →
        properlyNested slab.rows.length ops = true →
        ∃ slab2 : marshalSlab, runOps fuel slab ops = .ok slab2 ∧
          slab2.rows.length = outstanding slab.rows.length ops) := by
  constructor
  · intro rt h
    obtain ⟨ref, row, hreq⟩ := requisition_of_resolvable fuel slab rt h
    exact ⟨_, ref, row, hreq, rfl, rfl, release_append _ _ _⟩
  · exact fun ops => runOps_nested fuel ops slab

/-- On an empty slab, acquiring `int`, acquiring `*int`, releasing and acquiring `string`
leaves two rows. -/
theorem slab_rows_are_a_stack_witness :
    ∃ slab2 : marshalSlab,
      runOps 1 ⟨emptyAtlas, []⟩
          [.acquire (.basic .Int), .acquire (.ptr (.basic .Int)), .release,
            .acquire (.basic .String)] = .ok slab2 ∧
        slab2.rows.length = 2 :=
  (slab_rows_are_a_stack 1 ⟨emptyAtlas, []⟩).2
    [.acquire (.basic .Int), .acquire (.ptr (.basic .Int)), .release,
      .acquire (.basic .String)]
    (fun rt h => by
      simp only [List.mem_cons, SlabOp.acquire.injEq, List.mem_singleton, reduceCtorEq,
        false_or, List.not_mem_nil, or_false] at h
      rcases h with h | h | h <;> subst h <;> exact ⟨_, _, rfl⟩)
    rfl

/-! ### The unmarshal pointer-deref delegate after a token that is not Null -/

theorem Zero_ne_zero (t : RType) : reflect.Zero t ≠ .zero := by
  induction t with
  | basic k => cases k <;> simp [reflect.Zero, isSigned, isUnsigned, isFloat]
  | ptr e _ => simp [reflect.Zero]
  | slice e _ =>
    cases e with
    | basic k => cases k <;> simp [reflect.Zero]
    | _ => simp [reflect.Zero]
  | named n u ih => simpa [reflect.Zero] using ih
  | _ => simp [reflect.Zero]

theorem Zero_ptrTo_succ (n : Nat) (T : RType) :
    reflect.Zero (ptrTo (n + 1) T) = .ptr (ptrTo n T) none := rfl

theorem chainOK_fresh (T : RType) (m : Mem) (n : Nat) (k : Addr)
    (hget : m.get? k = some (reflect.Zero (ptrTo n T))) : chainOK T m n k := by
  cases n with
  | zero => exact ⟨_, hget, Zero_ne_zero _⟩
  | succ j =>
    refine ⟨none, ?_, ?_⟩
    · rw [hget, Zero_ptrTo_succ]
    · intro b hb; cases hb

theorem nilLevels_fresh (T : RType) (m : Mem) (n : Nat) (k : Addr)
    (hget : m.get? k = some (reflect.Zero (ptrTo n T))) : nilLevels m n k = n := by
  cases n with
  | zero => rfl
  | succ j =>
    rw [Zero_ptrTo_succ] at hget
    have h2 : m[k]? = some (.ptr (ptrTo j T) none) := by simpa using hget
    simp [nilLevels, h2]

theorem lt_of_get? (m : Mem) (a : Addr) (v : Value) (h : m.get? a = some v) :
    a < m.length := by
  by_contra hc
  have : m.get? a = none := List.get?_eq_none.mpr (Nat.le_of_not_lt hc)
  rw [this] at h
  cases h

theorem allocAt_get_new (m : Mem) (a : Addr) (te : RType) (ha : a < m.length) :
    (allocAt m a te).get? m.length = some (reflect.Zero te) := by
  have hne : a ≠ m.length := Nat.ne_of_lt ha
  simp [allocAt, List.getElem?_set, hne]

theorem allocAt_get_self (m : Mem) (a : Addr) (te : RType) (ha : a < m.length) :
    (allocAt m a te).get? a = some (.ptr te (some m.length)) := by
  have h2 : a < (m ++ [reflect.Zero te]).length := by
    rw [List.length_append]; exact Nat.lt_add_right _ ha
  simp [allocAt, List.getElem?_set, h2]
  exact Nat.lt_succ_of_lt ha

theorem allocAt_get_other (m : Mem) (a x : Addr) (te : RType) (v : Value)
    (hx : m.get? x = some v) (hne : x ≠ a) : (allocAt m a te).get? x = some v := by
  have hlt := lt_of_get? m x v hx
  have hx2 : m[x]? = some v := by simpa using hx
  have hne2 : a ≠ x := fun h => hne h.symm
  simp [allocAt, List.getElem?_set, hne2, List.getElem?_append_left hlt, hx2]

theorem allocAt_length (m : Mem) (a : Addr) (te : RType) :
    (allocAt m a te).length = m.length + 1 := by
  simp [allocAt]

theorem walk_step_nil (n : Nat) (m : Mem) (a : Addr) (te : RType)
    (h : m.get? a = some (.ptr te none)) :
    walkPtrs (n + 1) m (.addr a) = walkPtrs n (allocAt m a te) (.addr m.length) := by
  have ha := lt_of_get? m a _ h
  have h1 : m[a]? = some (.ptr te none) := by simpa using h
  have h2 : (m ++ [reflect.Zero te])[a]? = some (.ptr te none) := by
    rw [List.getElem?_append_left ha]; exact h1
  have h3 : (allocAt m a te)[a]? = some (.ptr te (some m.length)) := by
    simpa using allocAt_get_self m a te ha
  have h4 : ((m ++ [reflect.Zero te]).set a (.ptr te (some m.length)))[a]? =
      some (.ptr te (some m.length)) := h3
  rw [walkPtrs]
  simp [Ref.IsNil, Ref.get, h1, Value.IsNil, Ref.Typ, Value.Typ, RType.Elem, reflect.New,
    Ref.Set, Ref.update, h2, Ref.Elem, h4, allocAt]

theorem walk_step_some (n : Nat) (m : Mem) (a c : Addr) (e : RType)
    (h : m.get? a = some (.ptr e (some c))) :
    walkPtrs (n + 1) m (.addr a) = walkPtrs n m (.addr c) := by
  have h1 : m[a]? = some (.ptr e (some c)) := by simpa using h
  rw [walkPtrs]
  simp [Ref.IsNil, Ref.get, h1, Value.IsNil, Ref.Elem]

/-- The walk of the first step over a well-typed chain of `n` pointers: it returns; all
`n` levels then hold a pointee; one variable is allocated for each level that held none;
and every variable that did not hold a nil pointer has its contents unchanged, so a
level that held a pointee still points to the same one. -/
theorem walkPtrs_spec (T : RType) (n : Nat) :
    ∀ (m : Mem) (a : Addr), chainOK T m n a →
      ∃ (m2 : Mem) (b : Addr),
        walkPtrs n m (.addr a) = .ok (m2, .addr b) ∧
        reaches m2 n a b ∧
        m2.length = m.length + nilLevels m n a ∧
        (∀ x v, m.get? x = some v → (∀ e, v ≠ .ptr e none) → m2.get? x = some v) ∧
        (∃ v, m2.get? b = some v ∧ v ≠ .zero) := by
  induction n with
  | zero =>
    intro m a h
    obtain ⟨v, hv, hz⟩ := h
    exact ⟨m, a, rfl, ⟨rfl, lt_of_get? m a v hv⟩, rfl, fun _ _ hx _ => hx, v, hv, hz⟩
  | succ n ih =>
    intro m a h
    obtain ⟨p, hp, hnext⟩ := h
    cases p with
    | some c =>
      obtain ⟨m2, b, hwalk, hreach, hlen, hkeep, hlast⟩ := ih m c (hnext c rfl)
      have h1 : m[a]? = some (.ptr (ptrTo n T) (some c)) := by simpa using hp
      refine ⟨m2, b, ?_, ⟨ptrTo n T, c, hkeep a _ hp (by simp), hreach⟩, ?_, hkeep, hlast⟩
      · rw [walk_step_some n m a c _ hp, hwalk]
      · rw [hlen]; simp [nilLevels, h1]
    | none =>
      have ha := lt_of_get? m a _ hp
      have h1 : m[a]? = some (.ptr (ptrTo n T) none) := by simpa using hp
      have hnew := allocAt_get_new m a (ptrTo n T) ha
      obtain ⟨m2, b, hwalk, hreach, hlen, hkeep, hlast⟩ :=
        ih (allocAt m a (ptrTo n T)) m.length (chainOK_fresh T _ n _ hnew)
      have hself : m2.get? a = some (.ptr (ptrTo n T) (some m.length)) :=
        hkeep a _ (allocAt_get_self m a _ ha) (by simp)
      refine ⟨m2, b, ?_, ⟨ptrTo n T, m.length, hself, hreach⟩, ?_, ?_, hlast⟩
      · rw [walk_step_nil n m a _ hp, hwalk]
      · rw [hlen, allocAt_length, nilLevels_fresh T _ n _ hnew]
        simp [nilLevels, h1]
        omega
      · intro x v hx hv
        have hne : x ≠ a := by
          intro hxa
          subst hxa
          rw [hp] at hx
          cases hx
          exact hv _ rfl
        exact hkeep x v (allocAt_get_other m a x _ v hx hne) hv

theorem ptrDeref_unmarshal_later_step {σ : Type} (M : UnmarshalMachine σ) (s : σ) (n : Nat)
    (rv : Ref) (calls : List UnmarshalCall) (m : Mem) (tok : Token)
    (htok : tok.Typ ≠ .TNull) :
    ptrDerefDelegateUnmarshalMachine.Step M ⟨s, n, rv, false, calls⟩ m tok =
      match M.Step s m tok with
      | .error e => .error e
      | .ok (s2, m2, done, err) =>
        .ok (⟨s2, n, rv, false, calls ++ [.Step tok]⟩, m2, done, err) := by
  simp [ptrDerefDelegateUnmarshalMachine.Step, htok]

theorem Ref_Typ_addr (m : Mem) (b : Addr) (v : Value) (hv : m.get? b = some v)
    (hz : v ≠ .zero) : Ref.Typ m (.addr b) = .ok v.Typ := by
  have h1 : m[b]? = some v := by simpa using hv
  cases v <;> simp [Ref.Typ, Ref.get, h1] at hz ⊢

/-- The first step with a token that is not Null, on a well-typed chain of `n` pointers:
the walk leaves all `n` levels with a pointee, allocates one variable for each level
that held none, leaves every variable that did not hold a nil pointer as it was, and the
wrapped machine is reset once, with the variable at depth `n`; when that reset reports no
error the token is handed to the wrapped `Step`. -/
theorem ptrDeref_unmarshal_first_step {σ : Type} (M : UnmarshalMachine σ) (s : σ) (n : Nat)
    (a : Addr) (calls : List UnmarshalCall) (m : Mem) (tok : Token) (T : RType)
    (htok : tok.Typ ≠ .TNull) (hchain : chainOK T m n a) :
    ∃ (m1 : Mem) (b : Addr) (rt : RType),
      reaches m1 n a b ∧
      m1.length = m.length + nilLevels m n a ∧
      (∀ x v, m.get? x = some v → (∀ e, v ≠ .ptr e none) → m1.get? x = some v) ∧
      ptrDerefDelegateUnmarshalMachine.Step M ⟨s, n, .addr a, true, calls⟩ m tok =
        match M.Reset s m1 (.addr b) rt with
        | .error e => .error e
        | .ok (s1, m2, some e) =>
          .ok (⟨s1, n, .addr a, false, calls ++ [.Reset (.addr b) rt]⟩, m2, true, some e)
        | .ok (s1, m2, none) =>
          match M.Step s1 m2 tok with
          | .error e => .error e
          | .ok (s2, m3, done, err) =>
            .ok (⟨s2, n, .addr a, false, calls ++ [.Reset (.addr b) rt, .Step tok]⟩, m3,
              done, err) := by
  obtain ⟨m1, b, hwalk, hreach, hlen, hkeep, v, hv, hz⟩ := walkPtrs_spec T n m a hchain
  refine ⟨m1, b, v.Typ, hreach, hlen, hkeep, ?_⟩
  have htyp := Ref_Typ_addr m1 b v hv hz
  simp only [ptrDerefDelegateUnmarshalMachine.Step, htok, if_false, if_true, hwalk, htyp]
  cases hres : M.Reset s m1 (.addr b) v.Typ with
  | error e => rfl
  | ok r =>
    obtain ⟨s1, m2, err⟩ := r
    cases err with
    | some e => rfl
    | none =>
      simp only []
      cases hstep : M.Step s1 m2 tok with
      | error e => simp [hstep]
      | ok r2 =>
        obtain ⟨s2, m3, done, err2⟩ := r2
        simp [hstep]

/-- C18, the code at the failing input: a pointer to a pointer to an int, nil at the top.
The first step, with a MapOpen token, allocates both levels and resets the wrapped
machine once with the variable at depth 2; a later step with a Null token then replaces
the top level by nil and returns `(true, nil)`. -/
theorem ptrDeref_unmarshal_later_null_replaces_top :
    ptrDerefDelegateUnmarshalMachine.Step idleUnmarshalMachine
        ⟨(), 2, .addr 0, true, []⟩ [.ptr (.ptr (.basic .Int)) none] Token_MapOpen =
      .ok (⟨(), 2, .addr 0, false, [.Reset (.addr 2) (.basic .Int), .Step Token_MapOpen]⟩,
        [.ptr (.ptr (.basic .Int)) (some 1), .ptr (.basic .Int) (some 2), .int .Int 0],
        false, none) ∧
    ptrDerefDelegateUnmarshalMachine.Step idleUnmarshalMachine
        ⟨(), 2, .addr 0, false, [.Reset (.addr 2) (.basic .Int), .Step Token_MapOpen]⟩
        [.ptr (.ptr (.basic .Int)) (some 1), .ptr (.basic .Int) (some 2), .int .Int 0]
        Token_Null =
      .ok (⟨(), 2, .addr 0, false, [.Reset (.addr 2) (.basic .Int), .Step Token_MapOpen]⟩,
        [.ptr (.ptr (.basic .Int)) none, .ptr (.basic .Int) (some 2), .int .Int 0],
        true, none) := by
  constructor <;> rfl

/-- C19, the code at the failing input: on a step after the first one, a Null token is
not delegated.  The wrapped `Step` would return `(false, nil)` and leave memory alone;
the delegate returns `(true, nil)`, sets the top pointer to nil and records no call. -/
theorem ptrDeref_unmarshal_later_null_not_delegated :
    ptrDerefDelegateUnmarshalMachine.Step idleUnmarshalMachine
        ⟨(), 1, .addr 0, false, []⟩ [.ptr (.basic .Int) (some 1), .int .Int 4] Token_Null =
      .ok (⟨(), 1, .addr 0, false, []⟩, [.ptr (.basic .Int) none, .int .Int 4], true, none) ∧
    idleUnmarshalMachine.Step () [.ptr (.basic .Int) (some 1), .int .Int 4] Token_Null =
      .ok ((), [.ptr (.basic .Int) (some 1), .int .Int 4], false, none) := by
  constructor <;> rfl

end obj
